import Mathlib

/-!
Verification of mdu, a disk usage tool with a pool of worker threads: a shallow
embedding of `stacks.c` and `mdu.c`.

* The two global linked lists of `stacks.c` are Lean lists whose head is the
  top of the stack; a function that dereferences a `NULL` top returns `none`.
* The file system is an oracle for the results of `lstat`, `opendir`/`readdir`
  and `chdir` on a path; it does not change during a run.
* `blkcnt_t` values are natural numbers: `st_blocks` is never negative and the
  sums are taken to fit the type. The paths of the files are taken to fit
  `PATH_MAX`; the string the sequential engine keeps behind `pathPointer` is
  not such a path (it grows with every directory that can not be opened) and
  is followed with its length.
* The sequential engine reads the names of a directory through the `d_name`
  pointers it has stored, after the stream has been read to its end; whether
  the stream still holds the names is a property of the file system and the C
  library, given by `FileSystem.retains`.
* The arrays of the orchestrator have `threadAmount` elements; the model of the
  creation loop yields the thread the loop describes for every index, and
  `spawnChecked` tells whether the index lies within the arrays.
* Every access of a worker to the shared state happens between
  `pthread_mutex_lock` and `pthread_mutex_unlock`, so a run of the worker pool
  is an interleaving of these critical sections: a schedule is a list of
  choices, each naming the worker that executes its next critical section
  together with the thread-local code around it. A worker blocked in
  `pthread_cond_wait` moves only after a signal, a broadcast or a spurious
  wake-up. A thread that has been created and has not run yet is a thread at
  its start, so all threads of a pool are present from the first step on.
* The command line is the list of the strings of `argv`; the index `optind`
  that `getopt` leaves behind is a parameter of the model of `main`.
* Diagnostics written to standard error are not part of the model.
-/

namespace Mdu

/-! ## stacks.c -/

/-- Entry of the wait statuses stack (`struct waitStatus`). -/
structure waitStatus where
  threadNumber : Int
  status : Int
deriving DecidableEq, Repr

/-- Pushes a directory name on the directories stack. -/
def addDirectory (directoryTop : List String) (dirName : String) : List String :=
  dirName :: directoryTop

/-- Pops the directories stack; `none` when `directoryTop` is `NULL`. -/
def getDirectory : List String → Option (String × List String)
  | [] => none
  | tempDirectoryName :: next => some (tempDirectoryName, next)

/-- Pushes a wait status on the wait statuses stack. -/
def addWaitStatus (waitStatusTop : List waitStatus) (thread threadStatus : Int) :
    List waitStatus :=
  { threadNumber := thread, status := threadStatus } :: waitStatusTop

/-- The assignment `if (temp->threadNumber == thread) temp->status = threadStatus`. -/
def setIfThread (thread threadStatus : Int) (temp : waitStatus) : waitStatus :=
  if temp.threadNumber = thread then { temp with status := threadStatus } else temp

/-- Walks the wait statuses stack and updates the entries of `thread`;
`none` when `waitStatusTop` is `NULL` (the loop test reads `temp->next`). -/
def changeWaitStatus : List waitStatus → Int → Int → Option (List waitStatus)
  | [], _, _ => none
  | [temp], thread, threadStatus => some [setIfThread thread threadStatus temp]
  | temp :: next :: rest, thread, threadStatus =>
    (changeWaitStatus (next :: rest) thread threadStatus).map
      (fun tail => setIfThread thread threadStatus temp :: tail)

/-- Counts the entries whose status is 1; `none` when `waitStatusTop` is `NULL`. -/
def checkWaitStatuses : List waitStatus → Option Int
  | [] => none
  | [temp] => some (if temp.status = 1 then 1 else 0)
  | temp :: next :: rest =>
    (checkWaitStatuses (next :: rest)).map
      (fun waitCount => (if temp.status = 1 then 1 else 0) + waitCount)

/-- Returns 0 if the directories stack is empty, else 1. -/
def directoriesIsEmpty : List String → Int
  | [] => 0
  | _ :: _ => 1

/-- Frees every entry of the wait statuses stack. -/
def freeWaitStatuses (_waitStatusTop : List waitStatus) : List waitStatus := []

/-! ## The file system -/

/-- The fields of `struct stat` the program reads. -/
structure Stat where
  st_blocks : Nat
  isDir : Bool
deriving DecidableEq, Repr

/-- Results of the system calls on a path: `lstat` (`none` for -1), `opendir`
followed by `readdir` until `NULL` (`none` when `opendir` returns `NULL`,
otherwise the `d_name` sequence), and whether `chdir` into the path succeeds.
`retains` tells whether the stream of the directory keeps every `d_name` it has
returned in place until `closedir`: `readdir` may overwrite what it has
returned when it is called again, and does so when it fills the buffer of the
stream anew, that is for a directory whose entries do not fit the buffer at
once. `PATH_MAX` is the constant of the system headers. -/
structure FileSystem where
  lstat : String → Option Stat
  opendir : String → Option (List String)
  chdir : String → Bool
  retains : String → Bool
  PATH_MAX : Nat

/-- The macro `S_ISDIR` applied to `st_mode`. -/
def S_ISDIR (fileStat : Stat) : Int := if fileStat.isDir then 1 else 0

def EXIT_SUCCESS : Int := 0

def EXIT_FAILURE : Int := 1

/-- The test `strcmp(d_name, ".") != 0 && strcmp(d_name, "..") != 0`. -/
def notDotEntry (d_name : String) : Bool := d_name != "." && d_name != ".."

/-- The entries `getFilesInDirectory` collects from a directory stream it reads
to the end: those that are neither "." nor "..". What it stores in `files` are
the `d_name` pointers into the stream, not copies: the names can be read back
only while the stream retains them (`FileSystem.retains`). -/
def getFilesInDirectory (names : List String) : List String := names.filter notDotEntry

/-- Returns 0 if the directory can be opened, 1 if it can not. In either case
it first builds the error message from `pathPointer` in `errorString[PATH_MAX]`:
the result is `none` when the message and its terminator do not fit. (A
`pathPointer` that fits leaves room in `currentPath[PATH_MAX]` as well.) -/
def checkDirectory (fs : FileSystem) (directory pathPointer : String) : Option Int :=
  if ("du: cannot read directory '" ++ pathPointer ++ "'").utf8ByteSize + 1 ≤ fs.PATH_MAX then
    match fs.opendir directory with
    | none => some 1
    | some _ => some 0
  else none

/-! ## mdu.c: the worker (`searchDirectoryParallel`) -/

/-- Where a worker stands in `searchDirectoryParallel`.
`start`: before the critical section that resets the exit value.
`loop`: about to test `directoriesIsEmpty() == 0` under the lock, either at the
head of `while (1)` or after `pthread_cond_wait` has returned.
`waiting`: blocked in `pthread_cond_wait`.
`scanning directory entries`: holds the popped `directory`; `entries` are the
names `readdir` has yet to return that are neither "." nor "..".
`exited`: has returned its `totalBlockAmount`. -/
inductive Pc where
  | start
  | loop
  | waiting
  | scanning (directory : String) (entries : List String)
  | exited
deriving DecidableEq, Repr

/-- A thread: the fields of its `struct threadInformation` that differ between
threads, its position and its local `totalBlockAmount`. -/
structure Worker where
  threadNumber : Int
  threadAmount : Int
  pc : Pc
  totalBlockAmount : Nat
deriving DecidableEq, Repr

/-- Whether the process is still running, has called `exit(EXIT_FAILURE)`, or
has dereferenced a `NULL` stack top. -/
inductive Proc where
  | running
  | failed
  | crashed
deriving DecidableEq, Repr

/-- State of one run of the worker pool: the two global stacks, the variable
behind `exitValuePointer`, the threads, the process status, and a counter of
the calls of `pthread_cond_broadcast` made so far. -/
structure State where
  directoryTop : List String
  waitStatusTop : List waitStatus
  exitval : Int
  workers : List Worker
  proc : Proc
  broadcasts : Nat
deriving DecidableEq, Repr

/-- Returns a thread blocked in `pthread_cond_wait` to the loop test. -/
def wake (w : Worker) : Worker :=
  if w.pc = Pc.waiting then { w with pc := Pc.loop } else w

/-- Effect of `pthread_cond_broadcast`: every blocked thread is woken. -/
def wakeAll (workers : List Worker) : List Worker := workers.map wake

/-- Wakes the first blocked thread of the list, if there is one. -/
def wakeFirst : List Worker → List Worker
  | [] => []
  | w :: rest => if w.pc = Pc.waiting then wake w :: rest else w :: wakeFirst rest

/-- Effect of `pthread_cond_signal`: one blocked thread is woken if there is
any; `pick` names the thread the implementation chooses. -/
def wakeOne (workers : List Worker) (pick : Nat) : List Worker :=
  match workers.get? pick with
  | some w => if w.pc = Pc.waiting then workers.set pick (wake w) else wakeFirst workers
  | none => wakeFirst workers

/-- One step of thread `t`, whose record is `w`: its next critical section and
the thread-local code up to the next `pthread_mutex_lock`. -/
def searchDirectoryParallel (fs : FileSystem) (s : State) (t pick : Nat) (w : Worker) :
    State :=
  match w.pc with
  | Pc.start =>
    { s with exitval := EXIT_SUCCESS, workers := s.workers.set t { w with pc := Pc.loop } }
  | Pc.loop =>
    if directoriesIsEmpty s.directoryTop = 0 then
      match changeWaitStatus s.waitStatusTop w.threadNumber 1 with
      | none => { s with proc := Proc.crashed }
      | some statuses =>
        match checkWaitStatuses statuses with
        | none => { s with proc := Proc.crashed }
        | some waitCount =>
          if waitCount = w.threadAmount then
            { s with
              waitStatusTop := statuses
              broadcasts := s.broadcasts + 1
              workers := wakeAll (s.workers.set t { w with pc := Pc.exited }) }
          else
            { s with
              waitStatusTop := statuses
              workers := s.workers.set t { w with pc := Pc.waiting } }
    else
      match changeWaitStatus s.waitStatusTop w.threadNumber 0 with
      | none => { s with proc := Proc.crashed }
      | some statuses =>
        match getDirectory s.directoryTop with
        | none => { s with proc := Proc.crashed }
        | some (directory, next) =>
          match fs.opendir directory with
          | none =>
            { s with waitStatusTop := statuses, directoryTop := next, proc := Proc.failed }
          | some names =>
            { s with
              waitStatusTop := statuses
              directoryTop := next
              workers := s.workers.set t
                { w with pc := Pc.scanning directory (names.filter notDotEntry) } }
  | Pc.waiting => s
  | Pc.scanning _ [] => { s with workers := s.workers.set t { w with pc := Pc.loop } }
  | Pc.scanning directory (d_name :: entries) =>
    match fs.lstat (directory ++ "/" ++ d_name) with
    | none => { s with proc := Proc.failed }
    | some fileStat =>
      let w' : Worker :=
        { w with
          pc := Pc.scanning directory entries
          totalBlockAmount := fileStat.st_blocks + w.totalBlockAmount }
      if S_ISDIR fileStat = 1 then
        match fs.opendir (directory ++ "/" ++ d_name) with
        | none => { s with exitval := EXIT_FAILURE, workers := s.workers.set t w' }
        | some _ =>
          { s with
            directoryTop := addDirectory s.directoryTop (directory ++ "/" ++ d_name)
            workers := wakeOne (s.workers.set t w') pick }
      else { s with workers := s.workers.set t w' }
  | Pc.exited => s

/-- What the scheduler does next: `run t pick` lets thread `t` take its next
step (`pick` is the thread a `pthread_cond_signal` in that step wakes);
`spurious t` is a spurious wake-up of thread `t`. -/
inductive Choice where
  | run (t pick : Nat)
  | spurious (t : Nat)
deriving DecidableEq, Repr

/-- One scheduler choice applied to the pool; nothing moves once the process has ended. -/
def step (fs : FileSystem) (s : State) (c : Choice) : State :=
  match s.proc with
  | Proc.running =>
    match c with
    | Choice.run t pick =>
      match s.workers.get? t with
      | some w => searchDirectoryParallel fs s t pick w
      | none => s
    | Choice.spurious t =>
      match s.workers.get? t with
      | some w => { s with workers := s.workers.set t (wake w) }
      | none => s
  | _ => s

/-- Runs the pool along a schedule. -/
def exec (fs : FileSystem) (s : State) (sched : List Choice) : State :=
  sched.foldl (step fs) s

/-! ## mdu.c: the orchestrator (`calculateSizeOnDiskParallel`) -/

/-- The loop that adds the default wait statuses (-1), from `threadIndex` on.
`bound` is an upper bound on the number of iterations that remain. -/
def registerFrom (threadAmount : Int) :
    Nat → Int → List waitStatus → List waitStatus
  | 0, _, waitStatusTop => waitStatusTop
  | bound + 1, threadIndex, waitStatusTop =>
    if threadIndex ≤ threadAmount then
      registerFrom threadAmount bound (threadIndex + 1)
        (addWaitStatus waitStatusTop threadIndex (-1))
    else waitStatusTop

/-- The loop `while (threadIndex <= threadAmount)` that adds the default wait
statuses, started at `threadIndex = 0`: it runs at most `threadAmount + 1` times. -/
def registerLoop (threadAmount : Int) (waitStatusTop : List waitStatus) : List waitStatus :=
  registerFrom threadAmount (threadAmount + 1).toNat 0 waitStatusTop

/-- The loop that fills the thread info structs and creates the threads, from
`threadIndex` on; returns the created threads in creation order. The record
`info` is what the loop stores in `threadInfos[threadIndex]`, and the thread is
stored in `threads[threadIndex]`; the loop does not test whether the arrays
have that element (see `spawnChecked`), and the model goes on with the thread
the loop describes. -/
def spawnFrom (threadAmount : Int) : Nat → Int → List Worker → List Worker
  | 0, _, threads => threads
  | bound + 1, threadIndex, threads =>
    if threadIndex ≤ threadAmount then
      let info : Worker :=
        { threadNumber := threadIndex
          threadAmount := if threadAmount = 0 then 1 else threadAmount
          pc := Pc.start
          totalBlockAmount := 0 }
      if threadIndex = threadAmount - 1 ∨ threadAmount = 0 then threads ++ [info]
      else spawnFrom threadAmount bound (threadIndex + 1) (threads ++ [info])
    else threads

/-- The thread creation loop started at `threadIndex = 0`. -/
def spawnLoop (threadAmount : Int) : List Worker :=
  spawnFrom threadAmount (threadAmount + 1).toNat 0 []

/-- The loop that joins the threads and sums what they return, from
`threadIndex` on. `pthread_join` returns once the thread has exited: the result
is `none` when a thread to be joined has not. Returns `blockAmountForDirectory`
and the number of joins. It reads `threads[threadIndex]`, the element the
creation loop has written for that index. -/
def joinFrom (threadAmount : Int) (threads : List Worker) :
    Nat → Int → Nat → Nat → Option (Nat × Nat)
  | 0, _, blockAmountForDirectory, joined => some (blockAmountForDirectory, joined)
  | bound + 1, threadIndex, blockAmountForDirectory, joined =>
    if threadIndex ≤ threadAmount then
      match threads.get? threadIndex.toNat with
      | none => none
      | some w =>
        if w.pc = Pc.exited then
          if threadIndex = threadAmount - 1 ∨ threadAmount = 0 then
            some (blockAmountForDirectory + w.totalBlockAmount, joined + 1)
          else
            joinFrom threadAmount threads bound (threadIndex + 1)
              (blockAmountForDirectory + w.totalBlockAmount) (joined + 1)
        else none
    else some (blockAmountForDirectory, joined)

/-- The join loop started at `threadIndex = 0` with `blockAmountForDirectory = 0`. -/
def joinLoop (threadAmount : Int) (threads : List Worker) : Option (Nat × Nat) :=
  joinFrom threadAmount threads (threadAmount + 1).toNat 0 0 0

/-- Number of elements of the arrays `threadInfos` and `threads`, both declared
with `threadAmount` elements. -/
def threadsLength (threadAmount : Int) : Nat := threadAmount.toNat

/-- The creation loop on the arrays as they are declared: `none` when the loop
writes an element the arrays do not have, which C leaves undefined. The index
the loop writes is the thread number it stores in the record. -/
def spawnChecked (threadAmount : Int) : Option (List Worker) :=
  if (spawnLoop threadAmount).all
      (fun info => decide (info.threadNumber < (threadsLength threadAmount : Int))) then
    some (spawnLoop threadAmount)
  else none

/-- The process-wide variables that live on from one target to the next. -/
structure Globals where
  directoryTop : List String
  waitStatusTop : List waitStatus
  exitval : Int
deriving DecidableEq, Repr

/-- How a call of the engine ends: it returns the exit value, the process
exits with `EXIT_FAILURE` on a fatal error, it crashes, the model has reached
the end of its schedule or depth before the engine was done, or the engine has
done what C leaves undefined (it has read a name through a pointer the stream
no longer retains, or has written past the end of a buffer). In each case
`lines` are the `printf` lines written so far, as block count and path. -/
inductive Outcome where
  | returned (lines : List (Nat × String)) (exitval : Int)
  | exitFailure (lines : List (Nat × String))
  | crashed (lines : List (Nat × String))
  | blocked (lines : List (Nat × String))
  | undefined (lines : List (Nat × String))
deriving DecidableEq, Repr

/-- The pool as it stands when the threads for directory target `file` are
created: the target is on the stack and every thread is at its start. -/
def spawnState (g : Globals) (threadAmount : Int) (file : String) : State :=
  { directoryTop := addDirectory g.directoryTop file
    waitStatusTop := g.waitStatusTop
    exitval := g.exitval
    workers := spawnLoop threadAmount
    proc := Proc.running
    broadcasts := 0 }

/-- The loop over the targets; `sched index` is the schedule the pool for
target number `index` follows. The final `chdir(startingDirectory)` returns to
the directory the process never left and succeeds. -/
def targetLoop (fs : FileSystem) (threadAmount : Int) (sched : Nat → List Choice) :
    List String → Nat → Globals → List (Nat × String) → Outcome
  | [], _, g, lines => Outcome.returned lines g.exitval
  | file :: files, index, g, lines =>
    match fs.lstat file with
    | none => Outcome.exitFailure lines
    | some fileStat =>
      if S_ISDIR fileStat = 1 then
        let s := exec fs (spawnState g threadAmount file) (sched index)
        match s.proc with
        | Proc.failed => Outcome.exitFailure lines
        | Proc.crashed => Outcome.crashed lines
        | Proc.running =>
          match joinLoop threadAmount s.workers with
          | none => Outcome.blocked lines
          | some (blockAmountForDirectory, _) =>
            targetLoop fs threadAmount sched files (index + 1)
              { directoryTop := s.directoryTop
                waitStatusTop := s.waitStatusTop
                exitval := s.exitval }
              (lines ++ [(fileStat.st_blocks + blockAmountForDirectory, file)])
      else
        targetLoop fs threadAmount sched files (index + 1) g
          (lines ++ [(fileStat.st_blocks + 0, file)])

/-- The process-wide variables when `calculateSizeOnDiskParallel` reaches its
loop over the targets: both stacks start out empty, the default wait statuses
have been added and the exit value is `EXIT_SUCCESS`. -/
def initialGlobals (threadAmount : Int) : Globals :=
  { directoryTop := []
    waitStatusTop := registerLoop threadAmount []
    exitval := EXIT_SUCCESS }

/-- The parallel engine on the list of targets. -/
def calculateSizeOnDiskParallel (fs : FileSystem) (files : List String) (threadAmount : Int)
    (sched : Nat → List Choice) : Outcome :=
  targetLoop fs threadAmount sched files 0 (initialGlobals threadAmount) []

/-- The schedule of a pool with a single thread: thread 0 takes `fuel` steps. -/
def solo (fuel : Nat) : Nat → List Choice := fun _ => List.replicate fuel (Choice.run 0 0)

/-- The pools the loop over the targets creates, in order: for every directory
target the loop reaches, its path and the state of the pool at the moment its
threads are created. The loop is the one of `targetLoop`, followed step by step. -/
def spawnPoints (fs : FileSystem) (threadAmount : Int) (sched : Nat → List Choice) :
    List String → Nat → Globals → List (String × State)
  | [], _, _ => []
  | file :: files, index, g =>
    match fs.lstat file with
    | none => []
    | some fileStat =>
      if S_ISDIR fileStat = 1 then
        let s := exec fs (spawnState g threadAmount file) (sched index)
        (file, spawnState g threadAmount file) ::
          match s.proc with
          | Proc.failed => []
          | Proc.crashed => []
          | Proc.running =>
            match joinLoop threadAmount s.workers with
            | none => []
            | some _ =>
              spawnPoints fs threadAmount sched files (index + 1)
                { directoryTop := s.directoryTop
                  waitStatusTop := s.waitStatusTop
                  exitval := s.exitval }
      else spawnPoints fs threadAmount sched files (index + 1) g

/-! ## mdu.c: the command line (`main`, `getFiles`) -/

/-- The loop of `getFiles` from `argumentIndex` on: an argument that differs
from the string `optind` is stored at `files[fileIndex]`; the list `files` holds
the entries stored so far. `bound` is an upper bound on the iterations that
remain; the result is `none` when the loop reads past the end of `argv`.
Returns `files` and `fileIndex`. -/
def getFilesFrom (argc : Nat) (argv : List String) (optind : String) :
    Nat → Nat → List String → Nat → Option (List String × Nat)
  | 0, _, files, fileIndex => some (files, fileIndex)
  | bound + 1, argumentIndex, files, fileIndex =>
    if argumentIndex < argc then
      match argv.get? argumentIndex with
      | none => none
      | some argument =>
        if argument ≠ optind then
          getFilesFrom argc argv optind bound (argumentIndex + 1)
            (files ++ [argument]) (fileIndex + 1)
        else getFilesFrom argc argv optind bound (argumentIndex + 1) files fileIndex
    else some (files, fileIndex)

/-- Gets the files/directories from the program arguments, with the value
stored through `fileAmountPointer`; the loop starts at `argumentIndex = 1`
with `fileIndex = 0`. The allocation of `files` is taken to succeed. -/
def getFiles (argc : Nat) (argv : List String) (optind : String) :
    Option (List String × Nat) :=
  getFilesFrom argc argv optind argc 1 [] 0

/-- The call `getFiles(argc, argv, argv[optind-1], fileAmountPointer)` of
`main`; `optind` is the index `getopt` has left, that of the first argument
after the options it has parsed. -/
def mainFiles (argv : List String) (optind : Nat) : Option (List String × Nat) :=
  match argv.get? (optind - 1) with
  | none => none
  | some optionArgument => getFiles argv.length argv optionArgument

/-! ## mdu.c: the sequential engine -/

/-- Result of the recursive search: the new `totalBlockAmount`, the value
behind `exitValuePointer` and the string in the buffer behind `pathPointer`; a
fatal `exit(EXIT_FAILURE)`; behaviour C leaves undefined; or a recursion deeper
than the depth the model was given. -/
inductive Search where
  | done (totalBlockAmount : Nat) (exitVal : Int) (pathPointer : String)
  | fatal
  | undefined
  | tooDeep
deriving DecidableEq, Repr

/-- Characters of the path after the loop that removes its last directory: the
loop walks back from the end and puts the terminator in place of the first '/'
it meets; `reversed` are the characters from the end on. A path without '/'
is left as it is. -/
def cutFrom (path : List Char) : List Char → List Char
  | [] => path
  | c :: reversed => if c = '/' then reversed.reverse else cutFrom path reversed

/-- The loop `for (int i = (strlen(pathPointer)-1); i >= 0; i--)` at the end of
`searchDirectoryRecursive`. -/
def cutLast (pathPointer : String) : String :=
  String.mk (cutFrom pathPointer.data pathPointer.data.reverse)

/-- The loop of `searchDirectoryRecursive` over the files of the directory the
process has changed into, whose path is `directory`; `recurse` is the recursive
call. A name is resolved against the working directory, so `lstat`, `opendir`
and `chdir` on the name act on `directory ++ "/" ++ name`; the `chdir("..")`
after the recursive call returns to `directory` and succeeds. The name of every
directory is appended to the string behind `pathPointer`; only a recursive call
cuts the string back. -/
def searchFiles (fs : FileSystem) (recurse : String → Nat → Int → String → Search)
    (directory : String) : List String → Nat → Int → String → Search
  | [], totalBlockAmount, exitVal, pathPointer => Search.done totalBlockAmount exitVal pathPointer
  | file :: files, totalBlockAmount, exitVal, pathPointer =>
    match fs.lstat (directory ++ "/" ++ file) with
    | none => Search.fatal
    | some fileStat =>
      if S_ISDIR fileStat ≠ 0 then
        match checkDirectory fs (directory ++ "/" ++ file) (pathPointer ++ "/" ++ file) with
        | none => Search.undefined
        | some directoryCheck =>
          if directoryCheck = 0 then
            match recurse (directory ++ "/" ++ file) totalBlockAmount exitVal
                (pathPointer ++ "/" ++ file) with
            | Search.done total exitVal' pathPointer' =>
              searchFiles fs recurse directory files (fileStat.st_blocks + total) exitVal'
                pathPointer'
            | r => r
          else
            searchFiles fs recurse directory files (fileStat.st_blocks + totalBlockAmount)
              EXIT_FAILURE (pathPointer ++ "/" ++ file)
      else
        searchFiles fs recurse directory files (fileStat.st_blocks + totalBlockAmount) exitVal
          pathPointer

/-- The recursive search of the directory with path `directory`; `depth` bounds
the nesting of the recursive calls. The names of the files are read through
the pointers `getFilesInDirectory` has stored, after the stream has been read
to its end: when there is a name to read and the stream does not retain its
names, what is read is not defined. -/
def searchDirectoryRecursive (fs : FileSystem) : Nat → String → Nat → Int → String → Search
  | 0, _, _, _, _ => Search.tooDeep
  | depth + 1, directory, totalBlockAmount, exitVal, pathPointer =>
    match fs.opendir directory with
    | none => Search.fatal
    | some names =>
      if fs.chdir directory then
        if getFilesInDirectory names = [] ∨ fs.retains directory = true then
          match searchFiles fs (searchDirectoryRecursive fs depth) directory
              (getFilesInDirectory names) totalBlockAmount exitVal pathPointer with
          | Search.done total exitVal' pathPointer' =>
            Search.done total exitVal' (cutLast pathPointer')
          | r => r
        else Search.undefined
      else Search.fatal

/-- The loop of `calculateSizeOnDiskRecursive` over the targets, each a name in
the starting directory, so that the `chdir("..")` after the search of a target
returns there and succeeds. The path of a directory target is copied into the
buffer behind `pathPointer`. -/
def recursiveLoop (fs : FileSystem) (depth : Nat) :
    List String → Int → List (Nat × String) → Outcome
  | [], exitVal, lines => Outcome.returned lines exitVal
  | file :: files, exitVal, lines =>
    match fs.lstat file with
    | none => Outcome.exitFailure lines
    | some fileStat =>
      if S_ISDIR fileStat ≠ 0 then
        match checkDirectory fs file file with
        | none => Outcome.undefined lines
        | some directoryCheck =>
          if directoryCheck = 0 then
            match searchDirectoryRecursive fs depth file 0 exitVal file with
            | Search.done totalBlockAmount exitVal' _ =>
              recursiveLoop fs depth files exitVal'
                (lines ++ [(fileStat.st_blocks + totalBlockAmount, file)])
            | Search.fatal => Outcome.exitFailure lines
            | Search.undefined => Outcome.undefined lines
            | Search.tooDeep => Outcome.blocked lines
          else
            recursiveLoop fs depth files EXIT_FAILURE
              (lines ++ [(fileStat.st_blocks + 0, file)])
      else recursiveLoop fs depth files exitVal (lines ++ [(fileStat.st_blocks + 0, file)])

/-- The sequential engine on the list of targets. -/
def calculateSizeOnDiskRecursive (fs : FileSystem) (files : List String) (depth : Nat) :
    Outcome :=
  recursiveLoop fs depth files EXIT_SUCCESS []

/-! ## Directory trees -/

/-- A finite directory tree: what is stored at a path and below it. A file is
anything `lstat` does not report as a directory. A directory has its own block
count, a flag telling whether it can be opened, and its named entries (without
the entries "." and ".."). -/
inductive FsNode where
  | file (blocks : Nat)
  | dir (blocks : Nat) (openable : Bool) (entries : List (String × FsNode))

mutual
/-- Block count of the node plus that of every entry recursively reachable under it. -/
def FsNode.allBlocks : FsNode → Nat
  | FsNode.file blocks => blocks
  | FsNode.dir blocks _ entries => blocks + FsNode.allBlocksList entries
/-- Sum of `allBlocks` over a list of entries. -/
def FsNode.allBlocksList : List (String × FsNode) → Nat
  | [] => 0
  | (_, node) :: entries => FsNode.allBlocks node + FsNode.allBlocksList entries
end

mutual
/-- Block count of the node plus, when it is a directory that can be opened, that
of everything reachable under it through directories that can be opened. -/
def FsNode.counted : FsNode → Nat
  | FsNode.file blocks => blocks
  | FsNode.dir blocks openable entries =>
    blocks + (if openable then FsNode.countedList entries else 0)
/-- Sum of `counted` over a list of entries. -/
def FsNode.countedList : List (String × FsNode) → Nat
  | [] => 0
  | (_, node) :: entries => FsNode.counted node + FsNode.countedList entries
end

mutual
/-- Every directory of the tree can be opened. -/
def FsNode.allOpenable : FsNode → Bool
  | FsNode.file _ => true
  | FsNode.dir _ openable entries => openable && FsNode.allOpenableList entries
/-- Every directory in a list of entries can be opened. -/
def FsNode.allOpenableList : List (String × FsNode) → Bool
  | [] => true
  | (_, node) :: entries => FsNode.allOpenable node && FsNode.allOpenableList entries
end

mutual
/-- The file system shows the tree `node` at `path`: every entry can be probed
with `lstat` and reports the block count and kind of its node, a directory can
be opened exactly when its node says so, and the names read from an opened
directory, "." and ".." left out, are the names of its entries in order. -/
def Shows (fs : FileSystem) : String → FsNode → Prop
  | path, FsNode.file blocks => fs.lstat path = some { st_blocks := blocks, isDir := false }
  | path, FsNode.dir blocks openable entries =>
    fs.lstat path = some { st_blocks := blocks, isDir := true } ∧
    (fs.opendir path).map (List.filter notDotEntry) =
      (if openable then some (entries.map Prod.fst) else none) ∧
    (openable = true → ShowsList fs path entries)
/-- The file system shows each entry of the list under `directory`. -/
def ShowsList (fs : FileSystem) : String → List (String × FsNode) → Prop
  | _, [] => True
  | directory, (name, node) :: entries =>
    Shows fs (directory ++ "/" ++ name) node ∧ ShowsList fs directory entries
end

/-- The node is a directory that can be opened. -/
def FsNode.isOpenDir : FsNode → Bool
  | FsNode.dir _ true _ => true
  | _ => false

/-- The node's own block count. -/
def FsNode.own : FsNode → Nat
  | FsNode.file blocks => blocks
  | FsNode.dir blocks _ _ => blocks

/-! ## Relations used in the proofs -/

/-- Number of entries marked idle. -/
def idleCount (reg : List waitStatus) : Nat := reg.countP (fun e => e.status = 1)


/-- The moves of the pool, one constructor for each path through a step. The
flag tells whether a thread has executed code in the move. -/
inductive Move (fs : FileSystem) (s : State) : Bool → State → Prop where
  | stay : Move fs s false s
  | wakeup (t : Nat) (w : Worker) (hw : s.workers.get? t = some w) :
      Move fs s false { s with workers := s.workers.set t (wake w) }
  | start (t : Nat) (w : Worker) (hw : s.workers.get? t = some w) (hpc : w.pc = Pc.start) :
      Move fs s true { s with exitval := EXIT_SUCCESS, workers := s.workers.set t { w with pc := Pc.loop } }
  | leave (t : Nat) (w : Worker) (hw : s.workers.get? t = some w) (hpc : w.pc = Pc.loop)
      (hstack : s.directoryTop = [])
      (hcount : (idleCount (s.waitStatusTop.map (setIfThread w.threadNumber 1)) : Int)
        = w.threadAmount) :
      Move fs s true { s with
        waitStatusTop := s.waitStatusTop.map (setIfThread w.threadNumber 1)
        broadcasts := s.broadcasts + 1
        workers := wakeAll (s.workers.set t { w with pc := Pc.exited }) }
  | block (t : Nat) (w : Worker) (hw : s.workers.get? t = some w) (hpc : w.pc = Pc.loop)
      (hstack : s.directoryTop = [])
      (hcount : (idleCount (s.waitStatusTop.map (setIfThread w.threadNumber 1)) : Int)
        ≠ w.threadAmount) :
      Move fs s true { s with
        waitStatusTop := s.waitStatusTop.map (setIfThread w.threadNumber 1)
        workers := s.workers.set t { w with pc := Pc.waiting } }
  | take (t : Nat) (w : Worker) (directory : String) (next names : List String)
      (hw : s.workers.get? t = some w) (hpc : w.pc = Pc.loop)
      (hstack : s.directoryTop = directory :: next)
      (hopen : fs.opendir directory = some names) :
      Move fs s true { s with
        waitStatusTop := s.waitStatusTop.map (setIfThread w.threadNumber 0)
        directoryTop := next
        workers := s.workers.set t
          { w with pc := Pc.scanning directory (names.filter notDotEntry) } }
  | takeFail (t : Nat) (w : Worker) (directory : String) (next : List String)
      (hw : s.workers.get? t = some w) (hpc : w.pc = Pc.loop)
      (hstack : s.directoryTop = directory :: next)
      (hopen : fs.opendir directory = none) :
      Move fs s true { s with
        waitStatusTop := s.waitStatusTop.map (setIfThread w.threadNumber 0)
        directoryTop := next
        proc := Proc.failed }
  | finish (t : Nat) (w : Worker) (directory : String)
      (hw : s.workers.get? t = some w) (hpc : w.pc = Pc.scanning directory []) :
      Move fs s true { s with workers := s.workers.set t { w with pc := Pc.loop } }
  | probeFail (t : Nat) (w : Worker) (directory d_name : String) (entries : List String)
      (hw : s.workers.get? t = some w) (hpc : w.pc = Pc.scanning directory (d_name :: entries))
      (hstat : fs.lstat (directory ++ "/" ++ d_name) = none) :
      Move fs s true { s with proc := Proc.failed }
  | plain (t : Nat) (w : Worker) (directory d_name : String) (entries : List String)
      (fileStat : Stat)
      (hw : s.workers.get? t = some w) (hpc : w.pc = Pc.scanning directory (d_name :: entries))
      (hstat : fs.lstat (directory ++ "/" ++ d_name) = some fileStat)
      (hdir : fileStat.isDir = false) :
      Move fs s true { s with
        workers := s.workers.set t
          { w with
            pc := Pc.scanning directory entries
            totalBlockAmount := fileStat.st_blocks + w.totalBlockAmount } }
  | closed (t : Nat) (w : Worker) (directory d_name : String) (entries : List String)
      (fileStat : Stat)
      (hw : s.workers.get? t = some w) (hpc : w.pc = Pc.scanning directory (d_name :: entries))
      (hstat : fs.lstat (directory ++ "/" ++ d_name) = some fileStat)
      (hdir : fileStat.isDir = true)
      (hopen : fs.opendir (directory ++ "/" ++ d_name) = none) :
      Move fs s true { s with
        exitval := EXIT_FAILURE
        workers := s.workers.set t
          { w with
            pc := Pc.scanning directory entries
            totalBlockAmount := fileStat.st_blocks + w.totalBlockAmount } }
  | push (t pick : Nat) (w : Worker) (directory d_name : String) (entries names : List String)
      (fileStat : Stat)
      (hw : s.workers.get? t = some w) (hpc : w.pc = Pc.scanning directory (d_name :: entries))
      (hstat : fs.lstat (directory ++ "/" ++ d_name) = some fileStat)
      (hdir : fileStat.isDir = true)
      (hopen : fs.opendir (directory ++ "/" ++ d_name) = some names) :
      Move fs s true { s with
        directoryTop := (directory ++ "/" ++ d_name) :: s.directoryTop
        workers := wakeOne (s.workers.set t
          { w with
            pc := Pc.scanning directory entries
            totalBlockAmount := fileStat.st_blocks + w.totalBlockAmount }) pick }

/-- What the wait status of a thread must be at each position: 0 while it holds
a directory, 1 while it is blocked and after it has exited. -/
def Compat (status : Int) : Pc → Prop
  | Pc.scanning _ _ => status = 0
  | Pc.waiting => status = 1
  | Pc.exited => status = 1
  | _ => True

/-- The thread number lies among the numbers of the `W` threads. -/
def InRange (W : Nat) (e : waitStatus) : Prop := 0 ≤ e.threadNumber ∧ e.threadNumber < (W : Int)

/-- Shape of the wait statuses stack for a pool of `W` threads: some entries
that belong to no thread and are not marked idle, followed by `W` entries that
cover the thread numbers below `W`. -/
def RegShape (W : Nat) (reg : List waitStatus) : Prop :=
  ∃ extra rest, reg = extra ++ rest ∧
    (∀ e ∈ extra, e.status ≠ 1 ∧ ¬ InRange W e) ∧
    rest.length = W ∧ (∀ e ∈ rest, InRange W e) ∧
    (∀ i : Nat, i < W → ∃ e ∈ rest, e.threadNumber = (i : Int))

/-- The thread can take a step: it is neither blocked nor gone. -/
def Pc.active : Pc → Bool
  | Pc.start => true
  | Pc.loop => true
  | Pc.scanning _ _ => true
  | Pc.waiting => false
  | Pc.exited => false

/-- The invariant of a pool of `W` threads. -/
structure Shape (W : Nat) (s : State) : Prop where
  pos : 0 < W
  length : s.workers.length = W
  number : ∀ i w, s.workers.get? i = some w → w.threadNumber = (i : Int)
  amount : ∀ i w, s.workers.get? i = some w → w.threadAmount = (W : Int)
  registry : RegShape W s.waitStatusTop
  compat : ∀ e ∈ s.waitStatusTop, ∀ i w, s.workers.get? i = some w →
    e.threadNumber = (i : Int) → Compat e.status w.pc
  afterExit : (∃ w ∈ s.workers, w.pc = Pc.exited) →
    s.directoryTop = [] ∧ ∀ e ∈ s.waitStatusTop, InRange W e → e.status = 1
  broadcasts : s.broadcasts = s.workers.countP (fun w => w.pc = Pc.exited)
  live : (∃ w ∈ s.workers, w.pc.active = true) ∨ (∀ w ∈ s.workers, w.pc = Pc.exited)

/-- The list `ws'` is `ws` with some of its blocked threads woken. -/
def Woke (ws ws' : List Worker) : Prop :=
  ws'.length = ws.length ∧
    ∀ i w', ws'.get? i = some w' → ∃ w, ws.get? i = some w ∧ (w' = w ∨ w' = wake w)

/-- Number of threads the engine creates for a requested thread amount that is not negative. -/
def workerCount (threadAmount : Int) : Nat := (max threadAmount 1).toNat

/-- The thread created with index `j` in a pool of `W` threads. -/
def freshWorker (W j : Nat) : Worker :=
  { threadNumber := (j : Int), threadAmount := (W : Int), pc := Pc.start, totalBlockAmount := 0 }

/-- What a scan of the directory adds to the totals: the counted blocks of its
entries, when it can be opened. -/
def FsNode.inside : FsNode → Nat
  | FsNode.dir _ true entries => FsNode.countedList entries
  | _ => 0

/-- The flag `S_ISDIR` reports for the node. -/
def FsNode.isDir : FsNode → Bool
  | FsNode.file _ => false
  | FsNode.dir _ _ _ => true

mutual
/-- Bound on the steps a pool spends on an entry and below it, in units of `c`. -/
def FsNode.cost (c : Nat) : FsNode → Nat
  | FsNode.file _ => c
  | FsNode.dir _ openable entries =>
    c + (if openable then c + FsNode.costList c entries else 0)
/-- Sum of `cost` over a list of entries. -/
def FsNode.costList (c : Nat) : List (String × FsNode) → Nat
  | [] => 0
  | (_, node) :: entries => FsNode.cost c node + FsNode.costList c entries
end

/-- Bound on the steps spent on a directory that lies on the stack. -/
def FsNode.scanCost (c : Nat) : FsNode → Nat
  | FsNode.dir _ true entries => c + FsNode.costList c entries
  | _ => 0

mutual
/-- Number of directories that can not be opened among the node and what is
reachable under it through directories that can be opened. -/
def FsNode.closedCount : FsNode → Nat
  | FsNode.file _ => 0
  | FsNode.dir _ openable entries => if openable then FsNode.closedCountList entries else 1
/-- Sum of `closedCount` over a list of entries. -/
def FsNode.closedCountList : List (String × FsNode) → Nat
  | [] => 0
  | (_, node) :: entries => FsNode.closedCount node + FsNode.closedCountList entries
end

/-- Number of directories a scan of the directory and of what lies below it
finds closed. -/
def FsNode.closedInside : FsNode → Nat
  | FsNode.dir _ true entries => FsNode.closedCountList entries
  | _ => 0

/-- The trees behind the paths a pool works on: one node for each path on the
directories stack, for each thread the entries it has yet to read, and the
number of directories found closed so far. -/
structure Ghost where
  stack : List FsNode
  held : List (List (String × FsNode))
  seen : Nat

/-- The path on the stack shows a directory that can be opened. -/
def Stacked (fs : FileSystem) (path : String) (node : FsNode) : Prop :=
  Shows fs path node ∧ node.isOpenDir = true

/-- The entries a thread has yet to read are shown by the file system. -/
def Held (fs : FileSystem) (w : Worker) (entries : List (String × FsNode)) : Prop :=
  match w.pc with
  | Pc.scanning directory names => names = entries.map Prod.fst ∧ ShowsList fs directory entries
  | _ => entries = []

/-- The state of the pool works on the trees of the ghost. -/
structure Linked (fs : FileSystem) (s : State) (g : Ghost) : Prop where
  stack : List.Forall₂ (Stacked fs) s.directoryTop g.stack
  held : List.Forall₂ (Held fs) s.workers g.held

/-- Blocks the pool has yet to add to the totals of its threads. -/
def Ghost.pending (g : Ghost) : Nat :=
  (g.stack.map FsNode.inside).sum + (g.held.map FsNode.countedList).sum

/-- Number of closed directories the pool has yet to find. -/
def Ghost.closedAhead (g : Ghost) : Nat :=
  (g.stack.map FsNode.closedInside).sum + (g.held.map FsNode.closedCountList).sum

/-- The exit value tells whether a closed directory was found, once a thread has started. -/
def FlagOk (s : State) (g : Ghost) : Prop :=
  (∀ w ∈ s.workers, w.pc = Pc.start) ∨ (s.exitval = EXIT_FAILURE ∧ 0 < g.seen) ∨
    (s.exitval = EXIT_SUCCESS ∧ g.seen = 0)

/-- What a step of a thread does to the exit value: the thread starts and
resets it, the thread finds a closed directory and sets it, or it is left alone. -/
def Effect (s s' : State) (g g' : Ghost) : Prop :=
  (s'.exitval = EXIT_SUCCESS ∧ g'.seen = g.seen ∧ ∃ w ∈ s.workers, w.pc = Pc.start) ∨
  (s'.exitval = EXIT_FAILURE ∧ g'.seen = g.seen + 1 ∧
    (s.workers.length = 1 → ∀ w ∈ s'.workers, w.pc ≠ Pc.start)) ∨
  (s'.exitval = s.exitval ∧ g'.seen = g.seen ∧ ∃ w ∈ s.workers, w.pc ≠ Pc.start)

/-- No closed directory has been found while a thread had yet to start. -/
def StartOk (s : State) (g : Ghost) : Prop :=
  g.seen = 0 ∨ ∀ w ∈ s.workers, w.pc ≠ Pc.start

/-- Sum of the totals of the threads. -/
def totalOf (workers : List Worker) : Nat := (workers.map Worker.totalBlockAmount).sum

/-- Weight of a position in the termination measure of a pool of `W` threads. -/
def weight (W : Nat) : Pc → Nat
  | Pc.exited => 0
  | Pc.waiting => W
  | Pc.loop => W + 1
  | Pc.scanning _ _ => W + 2
  | Pc.start => W + 2

/-- The termination measure: every step of a thread makes it smaller. -/
def measure (W : Nat) (s : State) (g : Ghost) : Nat :=
  (g.stack.map (FsNode.scanCost (W + 1))).sum + (g.held.map (FsNode.costList (W + 1))).sum +
    (s.workers.map (fun w => weight W w.pc)).sum

/-- Every thread of the pool has exited. -/
def State.finished (s : State) : Prop := ∀ w ∈ s.workers, w.pc = Pc.exited

/-- What holds of a pool of `W` threads that works on the trees of a ghost
while `total` blocks are to be reported and `closed` closed directories are to
be found in all. -/
structure Sound (fs : FileSystem) (W total closed : Nat) (s : State) (g : Ghost) : Prop where
  shape : Shape W s
  linked : Linked fs s g
  running : s.proc = Proc.running
  sum : totalOf s.workers + g.pending = total
  found : g.seen + g.closedAhead = closed
  flag : closed = 0 ∨ W = 1 → FlagOk s g ∧ StartOk s g

/-! ## Example file systems -/

/-- The tree of the example: directory `a` (own block count 0) with file `f`
(8 blocks) and directory `b` (own 8 blocks), which holds file `g` (16 blocks). -/
def exampleTree : FsNode :=
  FsNode.dir 0 true [("f", FsNode.file 8), ("b", FsNode.dir 8 true [("g", FsNode.file 16)])]

/-- A file system that shows `exampleTree` at the path "a". -/
def exampleFs : FileSystem where
  lstat path :=
    if path = "a" then some { st_blocks := 0, isDir := true }
    else if path = "a/f" then some { st_blocks := 8, isDir := false }
    else if path = "a/b" then some { st_blocks := 8, isDir := true }
    else if path = "a/b/g" then some { st_blocks := 16, isDir := false }
    else none
  opendir path :=
    if path = "a" then some [".", "..", "f", "b"]
    else if path = "a/b" then some [".", "..", "g"]
    else none
  chdir path := path = "a" || path = "a/b"
  retains _ := true
  PATH_MAX := 4096

/-- Directory `a` (own block count 8) whose only entry is the empty directory
`e` (own block count 0), which can be opened but not entered. -/
def lockedTree : FsNode := FsNode.dir 8 true [("e", FsNode.dir 0 true [])]

/-- A file system that shows `lockedTree` at the path "a"; `chdir` into "a/e" fails. -/
def lockedFs : FileSystem where
  lstat path :=
    if path = "a" then some { st_blocks := 8, isDir := true }
    else if path = "a/e" then some { st_blocks := 0, isDir := true }
    else none
  opendir path :=
    if path = "a" then some [".", "..", "e"]
    else if path = "a/e" then some [".", ".."]
    else none
  chdir path := path = "a"
  retains _ := true
  PATH_MAX := 4096

/-- A schedule of two threads on the example tree: thread 1 pops `a` while
thread 0 blocks, thread 1 pushes `a/b` and wakes thread 0, which scans `a/b`
while thread 1 blocks; it ends just before thread 0 tests the empty stack. -/
def exampleSchedule : List Choice :=
  [Choice.run 0 0, Choice.run 1 0, Choice.run 1 0, Choice.run 0 0, Choice.run 1 0,
   Choice.run 1 0, Choice.run 0 0, Choice.run 1 0, Choice.run 1 0, Choice.run 0 0,
   Choice.run 0 0]

/-- Two directory targets: `p` (own 8 blocks), whose only entry is the
directory `u` (own 8 blocks) that can not be opened, and `q` (own 8 blocks),
which holds file `f` (16 blocks). -/
def twoTargetsFs : FileSystem where
  lstat path :=
    if path = "p" then some { st_blocks := 8, isDir := true }
    else if path = "p/u" then some { st_blocks := 8, isDir := true }
    else if path = "q" then some { st_blocks := 8, isDir := true }
    else if path = "q/f" then some { st_blocks := 16, isDir := false }
    else none
  opendir path :=
    if path = "p" then some [".", "..", "u"]
    else if path = "q" then some [".", "..", "f"]
    else none
  chdir path := path = "p" || path = "q"
  retains _ := true
  PATH_MAX := 4096

/-- Two targets: the plain file `x` (4 blocks) and the directory `y` (own block
count 0) that can not be opened. -/
def fileAndClosedFs : FileSystem where
  lstat path :=
    if path = "x" then some { st_blocks := 4, isDir := false }
    else if path = "y" then some { st_blocks := 0, isDir := true }
    else none
  opendir _ := none
  chdir _ := false
  retains _ := true
  PATH_MAX := 4096

/-- Pushes the names on the directories stack, one call of `addDirectory` each, in order. -/
def addDirectories (directoryTop : List String) (names : List String) : List String :=
  names.foldl addDirectory directoryTop

/-- Calls `getDirectory` `n` times; returns the names in the order of the
calls and the stack that is left, `none` when a call meets the empty stack. -/
def getDirectories : Nat → List String → Option (List String × List String)
  | 0, directoryTop => some ([], directoryTop)
  | n + 1, directoryTop =>
    match getDirectory directoryTop with
    | none => none
    | some (tempDirectoryName, next) =>
      match getDirectories n next with
      | none => none
      | some (names, rest) => some (tempDirectoryName :: names, rest)

/-- The entry as a finished pool of `W` threads leaves it: marked idle when it
belongs to one of the threads, untouched otherwise. -/
def markIdle (W : Nat) (e : waitStatus) : waitStatus :=
  if 0 ≤ e.threadNumber ∧ e.threadNumber < (W : Int) then { e with status := 1 } else e

/-- The thread numbers of the registry `reg` are those of `reg₀`, and the
entries that belong to none of the `W` threads are the same. -/
def Frame (W : Nat) (reg₀ reg : List waitStatus) : Prop :=
  List.Forall₂ (fun a b => b.threadNumber = a.threadNumber ∧ (¬ InRange W a → b = a)) reg₀ reg

/-- The target is a directory, as `lstat` and `S_ISDIR` report. -/
def isDirectoryTarget (fs : FileSystem) (file : String) : Bool :=
  match fs.lstat file with
  | none => false
  | some fileStat => S_ISDIR fileStat = 1

/-! ## Theorems -/

theorem changeWaitStatus_eq (reg : List waitStatus) (thread threadStatus : Int) (h : reg ≠ []) :
    changeWaitStatus reg thread threadStatus = some (reg.map (setIfThread thread threadStatus)) := by
  induction reg with
  | nil => exact absurd rfl h
  | cons e rest ih =>
    cases rest with
    | nil => simp [changeWaitStatus]
    | cons e' rest' =>
      rw [changeWaitStatus, ih (by simp)]
      simp

theorem checkWaitStatuses_eq (reg : List waitStatus) (h : reg ≠ []) :
    checkWaitStatuses reg = some (idleCount reg : Int) := by
  induction reg with
  | nil => exact absurd rfl h
  | cons e rest ih =>
    cases rest with
    | nil => by_cases h1 : e.status = 1 <;> simp [checkWaitStatuses, idleCount, h1]
    | cons e' rest' =>
      rw [checkWaitStatuses, ih (by simp)]
      by_cases h1 : e.status = 1
      · simp only [idleCount, h1, List.countP_cons, Option.map_some'] at *
        simp; omega
      · simp only [idleCount, h1, List.countP_cons, Option.map_some'] at *
        simp


theorem searchDirectoryParallel_move (fs : FileSystem) (s : State) (t pick : Nat) (w : Worker)
    (hreg : s.waitStatusTop ≠ []) (hw : s.workers.get? t = some w)
    (hact : w.pc.active = true) :
    Move fs s true (searchDirectoryParallel fs s t pick w) := by
  have hmap : ∀ v, s.waitStatusTop.map (setIfThread w.threadNumber v) ≠ [] := by
    intro v; simpa using hreg
  unfold searchDirectoryParallel
  split
  · next hpc => exact Move.start t w hw hpc
  · next hpc =>
    split
    · next hempty =>
      have hstack : s.directoryTop = [] := by
        cases h : s.directoryTop with
        | nil => rfl
        | cons a b => simp [h, directoriesIsEmpty] at hempty
      rw [changeWaitStatus_eq _ _ _ hreg]
      simp only [checkWaitStatuses_eq _ (hmap 1)]
      split
      · next hc => exact Move.leave t w hw hpc hstack hc
      · next hc => exact Move.block t w hw hpc hstack hc
    · next hempty =>
      rw [changeWaitStatus_eq _ _ _ hreg]
      cases hstack : s.directoryTop with
      | nil => simp [hstack, directoriesIsEmpty] at hempty
      | cons directory next =>
        simp only [getDirectory]
        cases hopen : fs.opendir directory with
        | none =>
          have := Move.takeFail t w directory next hw hpc hstack hopen
          simpa using this
        | some names =>
          have := Move.take t w directory next names hw hpc hstack hopen
          simpa using this
  · next hpc => rw [hpc] at hact; exact absurd hact (by simp [Pc.active])
  · next directory hpc => exact Move.finish t w directory hw hpc
  · next directory d_name entries hpc =>
    cases hstat : fs.lstat (directory ++ "/" ++ d_name) with
    | none => exact Move.probeFail t w directory d_name entries hw hpc hstat
    | some fileStat =>
      simp only
      cases hdir : fileStat.isDir with
      | false =>
        simpa [S_ISDIR, hdir] using Move.plain t w directory d_name entries fileStat hw hpc hstat hdir
      | true =>
        cases hopen : fs.opendir (directory ++ "/" ++ d_name) with
        | none =>
          simpa [S_ISDIR, hdir] using
            Move.closed t w directory d_name entries fileStat hw hpc hstat hdir hopen
        | some names =>
          simpa [S_ISDIR, hdir, addDirectory] using
            Move.push t pick w directory d_name entries names fileStat hw hpc hstat hdir hopen
  · next hpc => rw [hpc] at hact; exact absurd hact (by simp [Pc.active])

theorem searchDirectoryParallel_inactive (fs : FileSystem) (s : State) (t pick : Nat)
    (w : Worker) (hact : w.pc.active = false) : searchDirectoryParallel fs s t pick w = s := by
  unfold searchDirectoryParallel
  split <;> simp_all [Pc.active]

theorem step_move (fs : FileSystem) (s : State) (c : Choice) (hreg : s.waitStatusTop ≠ []) :
    ∃ b, Move fs s b (step fs s c) := by
  unfold step
  split
  · cases c with
    | run t pick =>
      simp only
      cases hw : s.workers.get? t with
      | none => exact ⟨false, Move.stay⟩
      | some w =>
        cases hact : w.pc.active with
        | true => exact ⟨true, searchDirectoryParallel_move fs s t pick w hreg hw hact⟩
        | false =>
          simp only [searchDirectoryParallel_inactive fs s t pick w hact]
          exact ⟨false, Move.stay⟩
    | spurious t =>
      simp only
      cases hw : s.workers.get? t with
      | none => exact ⟨false, Move.stay⟩
      | some w => exact ⟨false, Move.wakeup t w hw⟩
  · exact ⟨false, Move.stay⟩

theorem RegShape.ne_nil {W : Nat} {reg : List waitStatus} (h : RegShape W reg) (hW : 0 < W) :
    reg ≠ [] := by
  obtain ⟨extra, rest, rfl, -, hlen, -, -⟩ := h
  intro hnil
  have : rest = [] := (List.append_eq_nil.mp hnil).2
  rw [this] at hlen
  simp at hlen
  omega

theorem InRange_setIfThread (W : Nat) (n v : Int) (e : waitStatus) :
    InRange W (setIfThread n v e) ↔ InRange W e := by
  unfold setIfThread InRange
  split <;> simp

theorem threadNumber_setIfThread (n v : Int) (e : waitStatus) :
    (setIfThread n v e).threadNumber = e.threadNumber := by
  unfold setIfThread
  split <;> simp

theorem status_setIfThread_of_eq {n v : Int} {e : waitStatus} (h : e.threadNumber = n) :
    (setIfThread n v e).status = v := by
  simp [setIfThread, h]

theorem setIfThread_of_ne {n v : Int} {e : waitStatus} (h : e.threadNumber ≠ n) :
    setIfThread n v e = e := by
  simp [setIfThread, h]

theorem RegShape.map_set {W : Nat} {reg : List waitStatus} (h : RegShape W reg) (n v : Int)
    (hn : 0 ≤ n ∧ n < (W : Int)) : RegShape W (reg.map (setIfThread n v)) := by
  obtain ⟨extra, rest, rfl, hex, hlen, hin, hcov⟩ := h
  refine ⟨extra, rest.map (setIfThread n v), ?_, hex, by simpa using hlen, ?_, ?_⟩
  · have hmap : ∀ l : List waitStatus, (∀ e ∈ l, ¬ InRange W e) →
        l.map (setIfThread n v) = l := by
      intro l hl
      induction l with
      | nil => rfl
      | cons a l ih =>
        rw [List.map_cons, ih (fun e he => hl e (List.mem_cons_of_mem _ he)),
          setIfThread_of_ne]
        intro heq
        exact hl a (List.mem_cons_self _ _) (by unfold InRange; rw [heq]; exact hn)
    rw [List.map_append, hmap extra (fun e he => (hex e he).2)]
  · intro e he
    obtain ⟨e0, he0, rfl⟩ := List.mem_map.mp he
    exact (InRange_setIfThread W n v e0).mpr (hin e0 he0)
  · intro i hi
    obtain ⟨e, he, hnum⟩ := hcov i hi
    exact ⟨setIfThread n v e, List.mem_map.mpr ⟨e, he, rfl⟩, by
      rw [threadNumber_setIfThread]; exact hnum⟩

theorem RegShape.idle_of_count {W : Nat} {reg : List waitStatus} (h : RegShape W reg)
    (hc : idleCount reg = W) : ∀ e ∈ reg, InRange W e → e.status = 1 := by
  obtain ⟨extra, rest, rfl, hex, hlen, hin, hcov⟩ := h
  have h0 : List.countP (fun e => decide (e.status = 1)) extra = 0 := by
    rw [List.countP_eq_zero]
    intro e he
    simpa using (hex e he).1
  have hrest : List.countP (fun e => decide (e.status = 1)) rest = rest.length := by
    unfold idleCount at hc
    rw [List.countP_append, h0] at hc
    omega
  rw [List.countP_eq_length] at hrest
  intro e he hr
  rcases List.mem_append.mp he with h1 | h1
  · exact absurd hr (hex e h1).2
  · simpa using hrest e h1

theorem RegShape.count_of_idle {W : Nat} {reg : List waitStatus} (h : RegShape W reg)
    (hall : ∀ e ∈ reg, InRange W e → e.status = 1) : idleCount reg = W := by
  obtain ⟨extra, rest, rfl, hex, hlen, hin, hcov⟩ := h
  have h0 : List.countP (fun e => decide (e.status = 1)) extra = 0 := by
    rw [List.countP_eq_zero]
    intro e he
    simpa using (hex e he).1
  have hrest : List.countP (fun e => decide (e.status = 1)) rest = rest.length := by
    rw [List.countP_eq_length]
    intro e he
    simpa using hall e (List.mem_append_right _ he) (hin e he)
  unfold idleCount
  rw [List.countP_append, h0, hrest, hlen]
  omega

theorem RegShape.covers {W : Nat} {reg : List waitStatus} (h : RegShape W reg) (i : Nat)
    (hi : i < W) : ∃ e ∈ reg, e.threadNumber = (i : Int) := by
  obtain ⟨extra, rest, rfl, -, -, -, hcov⟩ := h
  obtain ⟨e, he, hnum⟩ := hcov i hi
  exact ⟨e, List.mem_append_right _ he, hnum⟩

theorem wake_threadNumber (w : Worker) : (wake w).threadNumber = w.threadNumber := by
  unfold wake; split <;> rfl

theorem wake_threadAmount (w : Worker) : (wake w).threadAmount = w.threadAmount := by
  unfold wake; split <;> rfl

theorem wake_totalBlockAmount (w : Worker) : (wake w).totalBlockAmount = w.totalBlockAmount := by
  unfold wake; split <;> rfl

theorem wake_pc (w : Worker) : (wake w).pc = if w.pc = Pc.waiting then Pc.loop else w.pc := by
  unfold wake; split <;> simp_all

theorem wake_of_not_waiting {w : Worker} (h : w.pc ≠ Pc.waiting) : wake w = w := by
  unfold wake; simp [h]

theorem wake_pc_ne_waiting (w : Worker) : (wake w).pc ≠ Pc.waiting := by
  rw [wake_pc]; split <;> simp_all

theorem wake_exited (w : Worker) : (wake w).pc = Pc.exited ↔ w.pc = Pc.exited := by
  rw [wake_pc]; split <;> simp_all

theorem Compat.woken {status : Int} {w : Worker} (h : Compat status w.pc) :
    Compat status (wake w).pc := by
  rw [wake_pc]; split
  · exact trivial
  · exact h

theorem Woke.refl (ws : List Worker) : Woke ws ws :=
  ⟨rfl, fun _ w' h => ⟨w', h, Or.inl rfl⟩⟩

theorem Woke.wakeAll (ws : List Worker) : Woke ws (wakeAll ws) := by
  refine ⟨by simp [Mdu.wakeAll], ?_⟩
  intro i w' h
  simp only [Mdu.wakeAll, List.get?_eq_getElem?, List.getElem?_map, Option.map_eq_some'] at h
  obtain ⟨w, hw, rfl⟩ := h
  exact ⟨w, by simpa using hw, Or.inr rfl⟩

theorem Woke.set_wake (ws : List Worker) (i : Nat) (w : Worker) (h : ws.get? i = some w) :
    Woke ws (ws.set i (wake w)) := by
  refine ⟨by simp, ?_⟩
  intro j w' hj
  simp only [List.get?_eq_getElem?] at hj h ⊢
  rw [List.getElem?_set] at hj
  split at hj
  · next hij =>
    subst hij
    split at hj
    · injection hj with hj; exact ⟨w, h, Or.inr hj.symm⟩
    · simp at hj
  · exact ⟨w', hj, Or.inl rfl⟩

theorem Woke.wakeFirst (ws : List Worker) : Woke ws (wakeFirst ws) := by
  induction ws with
  | nil => exact Woke.refl []
  | cons w rest ih =>
    unfold Mdu.wakeFirst
    split
    · exact Woke.set_wake (w :: rest) 0 w rfl
    · refine ⟨by simpa using ih.1, ?_⟩
      intro i w' h
      cases i with
      | zero => exact ⟨w, rfl, Or.inl (by simpa using h.symm)⟩
      | succ i => simpa using ih.2 i w' (by simpa using h)

theorem Woke.wakeOne (ws : List Worker) (pick : Nat) : Woke ws (wakeOne ws pick) := by
  unfold Mdu.wakeOne
  split
  · next w hw =>
    split
    · exact Woke.set_wake ws pick w hw
    · exact Woke.wakeFirst ws
  · exact Woke.wakeFirst ws

theorem set_get_self {ws : List Worker} {t : Nat} {w : Worker} (h : ws.get? t = some w) :
    ws.set t w = ws := by
  have hlt : t < ws.length := (List.get?_eq_some.mp h).1
  apply List.ext_get?
  intro i
  simp only [List.get?_eq_getElem?] at h ⊢
  rw [List.getElem?_set]
  split
  · next hit => subst hit; simp [hlt, h]
  · rfl

/-- What is found at index `i` after thread `t` moved to `w₁` and some threads were woken. -/
theorem Woke.get_set {ws ws' : List Worker} {t : Nat} {w₁ : Worker}
    (h : Woke (ws.set t w₁) ws') {i : Nat} {w' : Worker} (hi : ws'.get? i = some w') :
    (i = t ∧ (w' = w₁ ∨ w' = wake w₁)) ∨
      (i ≠ t ∧ ∃ w, ws.get? i = some w ∧ (w' = w ∨ w' = wake w)) := by
  obtain ⟨w, hw, hor⟩ := h.2 i w' hi
  simp only [List.get?_eq_getElem?] at hw ⊢
  rw [List.getElem?_set] at hw
  split at hw
  · next hit =>
    split at hw
    · injection hw with hw; subst hw; exact Or.inl ⟨hit.symm, hor⟩
    · simp at hw
  · next hit => exact Or.inr ⟨fun h => hit h.symm, w, hw, hor⟩

theorem Woke.get_fwd {ws ws' : List Worker} (h : Woke ws ws') {i : Nat} {w : Worker}
    (hi : ws.get? i = some w) : ∃ w', ws'.get? i = some w' ∧ (w' = w ∨ w' = wake w) := by
  have hlt : i < ws'.length := by
    rw [h.1]
    exact List.get?_eq_some.mp hi |>.1
  have hget : ws'.get? i = some (ws'.get ⟨i, hlt⟩) := List.get?_eq_get hlt
  obtain ⟨w0, hw0, hor⟩ := h.2 i _ hget
  rw [hi] at hw0
  injection hw0 with hw0
  subst hw0
  exact ⟨_, hget, hor⟩

theorem Woke.tail {w w' : Worker} {ws ws' : List Worker} (h : Woke (w :: ws) (w' :: ws')) :
    (w' = w ∨ w' = wake w) ∧ Woke ws ws' := by
  refine ⟨?_, ?_, ?_⟩
  · obtain ⟨w0, hw0, hor⟩ := h.2 0 w' rfl
    simp at hw0
    subst hw0
    exact hor
  · simpa using h.1
  · intro i w'' hi
    simpa using h.2 (i + 1) w'' (by simpa using hi)

theorem Woke.countP_exited {ws ws' : List Worker} (h : Woke ws ws') :
    ws'.countP (fun w => w.pc = Pc.exited) = ws.countP (fun w => w.pc = Pc.exited) := by
  induction ws generalizing ws' with
  | nil =>
    have : ws' = [] := List.length_eq_zero.mp (by simpa using h.1)
    rw [this]
  | cons w ws ih =>
    cases ws' with
    | nil => exact absurd h.1 (by simp)
    | cons w' ws' =>
      obtain ⟨hor, htail⟩ := h.tail
      have hpc : (w'.pc = Pc.exited) ↔ (w.pc = Pc.exited) := by
        rcases hor with rfl | rfl
        · exact Iff.rfl
        · exact wake_exited w
      simp only [List.countP_cons, ih htail, hpc]

theorem Woke.sum_total {ws ws' : List Worker} (h : Woke ws ws') :
    (ws'.map Worker.totalBlockAmount).sum = (ws.map Worker.totalBlockAmount).sum := by
  induction ws generalizing ws' with
  | nil =>
    have : ws' = [] := List.length_eq_zero.mp (by simpa using h.1)
    rw [this]
  | cons w ws ih =>
    cases ws' with
    | nil => exact absurd h.1 (by simp)
    | cons w' ws' =>
      obtain ⟨hor, htail⟩ := h.tail
      have hpc : w'.totalBlockAmount = w.totalBlockAmount := by
        rcases hor with rfl | rfl
        · rfl
        · exact wake_totalBlockAmount w
      simp only [List.map_cons, List.sum_cons, ih htail, hpc]

theorem countP_exited_set {ws : List Worker} {t : Nat} {w : Worker} (w₁ : Worker)
    (hw : ws.get? t = some w) (hpc : w.pc ≠ Pc.exited) :
    (ws.set t w₁).countP (fun w => w.pc = Pc.exited) =
      ws.countP (fun w => w.pc = Pc.exited) + (if w₁.pc = Pc.exited then 1 else 0) := by
  induction ws generalizing t with
  | nil => simp at hw
  | cons a ws ih =>
    cases t with
    | zero =>
      simp at hw
      subst hw
      simp only [List.set_cons_zero, List.countP_cons, hpc, decide_False]
      simp
    | succ t =>
      simp only [List.set_cons_succ, List.countP_cons, ih (by simpa using hw)]
      omega

theorem sum_total_set {ws : List Worker} {t : Nat} {w : Worker} (w₁ : Worker)
    (hw : ws.get? t = some w) :
    ((ws.set t w₁).map Worker.totalBlockAmount).sum + w.totalBlockAmount =
      (ws.map Worker.totalBlockAmount).sum + w₁.totalBlockAmount := by
  induction ws generalizing t with
  | nil => simp at hw
  | cons a ws ih =>
    cases t with
    | zero =>
      simp at hw
      subst hw
      simp only [List.set_cons_zero, List.map_cons, List.sum_cons]
      omega
    | succ t =>
      have := ih (t := t) (by simpa using hw)
      simp only [List.set_cons_succ, List.map_cons, List.sum_cons]
      omega

theorem exists_exited_iff (ws : List Worker) :
    (∃ w ∈ ws, w.pc = Pc.exited) ↔ 0 < ws.countP (fun w => w.pc = Pc.exited) := by
  rw [List.countP_pos_iff]
  simp

/-- The fields of the invariant that every move re-establishes in the same way. -/
theorem Shape.rebuild {W : Nat} {s : State} (h : Shape W s) {t : Nat} {w : Worker}
    (hw : s.workers.get? t = some w) (w₁ : Worker)
    (hn : w₁.threadNumber = w.threadNumber) (ha : w₁.threadAmount = w.threadAmount)
    {s' : State} (hwoke : Woke (s.workers.set t w₁) s'.workers)
    (hreg : s'.waitStatusTop = s.waitStatusTop ∨
      ∃ v, s'.waitStatusTop = s.waitStatusTop.map (setIfThread w.threadNumber v))
    (hcompat : ∀ e ∈ s'.waitStatusTop, e.threadNumber = (t : Int) → Compat e.status w₁.pc)
    (hafter : (∃ w' ∈ s'.workers, w'.pc = Pc.exited) →
      s'.directoryTop = [] ∧ ∀ e ∈ s'.waitStatusTop, InRange W e → e.status = 1)
    (hb : s'.broadcasts = s'.workers.countP (fun w => w.pc = Pc.exited))
    (hlive : (∃ w ∈ s'.workers, w.pc.active = true) ∨ (∀ w ∈ s'.workers, w.pc = Pc.exited)) :
    Shape W s' := by
  have htW : t < W := by
    rw [← h.length]
    exact (List.get?_eq_some.mp hw).1
  have hwn : w.threadNumber = (t : Int) := h.number t w hw
  refine ⟨h.pos, ?_, ?_, ?_, ?_, ?_, hafter, hb, hlive⟩
  · rw [hwoke.1, List.length_set, h.length]
  · intro i w' hi
    rcases hwoke.get_set hi with ⟨rfl, hor⟩ | ⟨_, w0, hw0, hor⟩
    · rcases hor with rfl | rfl
      · rw [hn, hwn]
      · rw [wake_threadNumber, hn, hwn]
    · rcases hor with rfl | rfl
      · exact h.number i _ hw0
      · rw [wake_threadNumber]; exact h.number i _ hw0
  · intro i w' hi
    rcases hwoke.get_set hi with ⟨rfl, hor⟩ | ⟨_, w0, hw0, hor⟩
    · rcases hor with rfl | rfl
      · rw [ha]; exact h.amount _ w hw
      · rw [wake_threadAmount, ha]; exact h.amount _ w hw
    · rcases hor with rfl | rfl
      · exact h.amount i _ hw0
      · rw [wake_threadAmount]; exact h.amount i _ hw0
  · rcases hreg with hreg | ⟨v, hreg⟩
    · rw [hreg]; exact h.registry
    · rw [hreg]
      exact h.registry.map_set _ v (by rw [hwn]; omega)
  · intro e' he' i w' hi hnum
    rcases hwoke.get_set hi with ⟨rfl, hor⟩ | ⟨hne, w0, hw0, hor⟩
    · have hc := hcompat e' he' hnum
      rcases hor with rfl | rfl
      · exact hc
      · exact hc.woken
    · have hmem : e' ∈ s.waitStatusTop := by
        rcases hreg with hreg | ⟨v, hreg⟩
        · rw [hreg] at he'; exact he'
        · rw [hreg] at he'
          obtain ⟨e, he, rfl⟩ := List.mem_map.mp he'
          rw [threadNumber_setIfThread] at hnum
          rw [setIfThread_of_ne]
          · exact he
          · rw [hnum, hwn]
            intro hit
            exact hne (by exact_mod_cast hit)
      have hc := h.compat e' hmem i w0 hw0 hnum
      rcases hor with rfl | rfl
      · exact hc
      · exact hc.woken

theorem Pc.active_of_ne {pc : Pc} (h1 : pc ≠ Pc.waiting) (h2 : pc ≠ Pc.exited) :
    pc.active = true := by
  cases pc <;> simp_all [Pc.active]

theorem Pc.ne_of_active {pc : Pc} (h : pc.active = true) : pc ≠ Pc.waiting ∧ pc ≠ Pc.exited := by
  cases pc <;> simp_all [Pc.active]

theorem mem_of_get? {ws : List Worker} {i : Nat} {w : Worker} (h : ws.get? i = some w) :
    w ∈ ws := List.get?_mem h

theorem exists_get?_of_mem {ws : List Worker} {w : Worker} (h : w ∈ ws) :
    ∃ i, ws.get? i = some w := by
  obtain ⟨n, hn⟩ := List.get?_of_mem h
  exact ⟨n, hn⟩

theorem count_woke_set {ws ws' : List Worker} {t : Nat} {w w₁ : Worker}
    (hwoke : Woke (ws.set t w₁) ws') (hw : ws.get? t = some w) (hpc : w.pc ≠ Pc.exited) :
    ws'.countP (fun w => w.pc = Pc.exited) =
      ws.countP (fun w => w.pc = Pc.exited) + (if w₁.pc = Pc.exited then 1 else 0) := by
  rw [hwoke.countP_exited, countP_exited_set w₁ hw hpc]

theorem exited_woke_set {ws ws' : List Worker} {t : Nat} {w w₁ : Worker}
    (hwoke : Woke (ws.set t w₁) ws') (hw : ws.get? t = some w) (hpc : w.pc ≠ Pc.exited)
    (hpc₁ : w₁.pc ≠ Pc.exited) (h : ∃ w' ∈ ws', w'.pc = Pc.exited) :
    ∃ w' ∈ ws, w'.pc = Pc.exited := by
  rw [exists_exited_iff] at h ⊢
  rw [count_woke_set hwoke hw hpc] at h
  simpa [hpc₁] using h

theorem live_woke_set {ws ws' : List Worker} {t : Nat} {w w₁ : Worker}
    (hwoke : Woke (ws.set t w₁) ws') (hw : ws.get? t = some w) (hact : w₁.pc.active = true) :
    ∃ w' ∈ ws', w'.pc.active = true := by
  have hlt : t < ws.length := (List.get?_eq_some.mp hw).1
  have hget : (ws.set t w₁).get? t = some w₁ := by
    simp [List.getElem?_set, hlt]
  obtain ⟨w', hw', hor⟩ := hwoke.get_fwd hget
  have : w' = w₁ := by
    rcases hor with rfl | rfl
    · rfl
    · exact wake_of_not_waiting (Pc.ne_of_active hact).1
  subst this
  exact ⟨w', mem_of_get? hw', hact⟩

theorem live_woke {ws ws' : List Worker} (hwoke : Woke ws ws')
    (h : (∃ w ∈ ws, w.pc.active = true) ∨ (∀ w ∈ ws, w.pc = Pc.exited)) :
    (∃ w ∈ ws', w.pc.active = true) ∨ (∀ w ∈ ws', w.pc = Pc.exited) := by
  rcases h with ⟨w, hw, hact⟩ | hall
  · left
    obtain ⟨i, hi⟩ := exists_get?_of_mem hw
    obtain ⟨w', hw', hor⟩ := hwoke.get_fwd hi
    have : w' = w := by
      rcases hor with rfl | rfl
      · rfl
      · exact wake_of_not_waiting (Pc.ne_of_active hact).1
    subst this
    exact ⟨w', mem_of_get? hw', hact⟩
  · right
    intro w' hw'
    obtain ⟨i, hi⟩ := exists_get?_of_mem hw'
    obtain ⟨w, hw, hor⟩ := hwoke.2 i w' hi
    rcases hor with rfl | rfl
    · exact hall _ (mem_of_get? hw)
    · exact (wake_exited w).mpr (hall _ (mem_of_get? hw))

/-- While every thread is marked idle, no thread holds a directory. -/
theorem Shape.no_scanning {W : Nat} {s : State} (h : Shape W s)
    (hidle : ∀ e ∈ s.waitStatusTop, InRange W e → e.status = 1) {t : Nat} {w : Worker}
    (hw : s.workers.get? t = some w) {directory : String} {entries : List String}
    (hpc : w.pc = Pc.scanning directory entries) : False := by
  have htW : t < W := by
    rw [← h.length]
    exact (List.get?_eq_some.mp hw).1
  obtain ⟨e, he, hnum⟩ := h.registry.covers t htW
  have h0 : e.status = 0 := by
    have := h.compat e he t w hw hnum
    rw [hpc] at this
    exact this
  have h1 : e.status = 1 := hidle e he (by unfold InRange; rw [hnum]; omega)
  omega

theorem idle_map_one {W : Nat} {reg : List waitStatus} {n : Int}
    (hidle : ∀ e ∈ reg, InRange W e → e.status = 1) :
    ∀ e ∈ reg.map (setIfThread n 1), InRange W e → e.status = 1 := by
  intro e' he' hr
  obtain ⟨e, he, rfl⟩ := List.mem_map.mp he'
  by_cases hn : e.threadNumber = n
  · exact status_setIfThread_of_eq hn
  · rw [setIfThread_of_ne hn] at hr ⊢
    exact hidle e he hr

theorem Shape.block_live {W : Nat} {s : State} (h : Shape W s) {t : Nat} {w : Worker}
    (hw : s.workers.get? t = some w)
    (hcount : (idleCount (s.waitStatusTop.map (setIfThread w.threadNumber 1)) : Int)
      ≠ w.threadAmount) :
    ∃ j w', j ≠ t ∧ s.workers.get? j = some w' ∧ w'.pc.active = true := by
  by_contra hno
  apply hcount
  have htW : t < W := by
    rw [← h.length]
    exact (List.get?_eq_some.mp hw).1
  have hwn : w.threadNumber = (t : Int) := h.number t w hw
  rw [h.amount t w hw]
  have hshape := h.registry.map_set w.threadNumber 1 (by rw [hwn]; omega)
  have := hshape.count_of_idle (by
    intro e' he' hr
    obtain ⟨e, he, rfl⟩ := List.mem_map.mp he'
    by_cases hn : e.threadNumber = w.threadNumber
    · exact status_setIfThread_of_eq hn
    · rw [setIfThread_of_ne hn] at hr ⊢
      obtain ⟨h0, hlt⟩ := hr
      obtain ⟨j, hj⟩ : ∃ j : Nat, e.threadNumber = (j : Int) := Int.eq_ofNat_of_zero_le h0
      have hjW : j < s.workers.length := by rw [h.length]; omega
      have hget : s.workers.get? j = some (s.workers.get ⟨j, hjW⟩) := List.get?_eq_get hjW
      have hjt : j ≠ t := by
        intro hjt; apply hn; rw [hj, hwn, hjt]
      have hc := h.compat e he j _ hget hj
      have hna : ¬ (s.workers.get ⟨j, hjW⟩).pc.active = true := by
        intro hact
        exact hno ⟨j, _, hjt, hget, hact⟩
      revert hc hna
      generalize (s.workers.get ⟨j, hjW⟩).pc = pc
      intro hc hna
      cases pc <;> simp_all [Pc.active, Compat])
  rw [this]

/-- Every move of the pool keeps the invariant. -/
theorem Shape.keep {fs : FileSystem} {W : Nat} {s s' : State} {b : Bool} (h : Shape W s)
    (hm : Move fs s b s') : Shape W s' := by
  cases hm with
  | stay => exact h
  | wakeup t w hw =>
    have hwoke : Woke s.workers (s.workers.set t (wake w)) := Woke.set_wake _ t w hw
    refine h.rebuild hw w rfl rfl (by rw [set_get_self hw]; exact hwoke) (Or.inl rfl) ?_ ?_ ?_ ?_
    · intro e he hnum
      exact h.compat e he t w hw hnum
    · intro hex
      apply h.afterExit
      rw [exists_exited_iff] at hex ⊢
      rwa [hwoke.countP_exited] at hex
    · show s.broadcasts = _
      rw [hwoke.countP_exited]; exact h.broadcasts
    · exact live_woke hwoke h.live
  | start t w hw hpc =>
    have hne : w.pc ≠ Pc.exited := by rw [hpc]; simp
    have hwoke := Woke.refl (s.workers.set t { w with pc := Pc.loop })
    refine h.rebuild hw { w with pc := Pc.loop } rfl rfl hwoke (Or.inl rfl) ?_ ?_ ?_ ?_
    · intro e _ _; exact trivial
    · intro hex
      exact h.afterExit (exited_woke_set hwoke hw hne (by simp) hex)
    · show s.broadcasts = _
      rw [count_woke_set hwoke hw hne]; simpa using h.broadcasts
    · exact Or.inl (live_woke_set hwoke hw rfl)
  | leave t w hw hpc hstack hcount =>
    have hne : w.pc ≠ Pc.exited := by rw [hpc]; simp
    have htW : t < W := by
      rw [← h.length]
      exact (List.get?_eq_some.mp hw).1
    have hwn : w.threadNumber = (t : Int) := h.number t w hw
    have hwoke := Woke.wakeAll (s.workers.set t { w with pc := Pc.exited })
    refine h.rebuild hw { w with pc := Pc.exited } rfl rfl hwoke (Or.inr ⟨1, rfl⟩) ?_ ?_ ?_ ?_
    · intro e' he' hnum
      obtain ⟨e, he, rfl⟩ := List.mem_map.mp he'
      rw [threadNumber_setIfThread] at hnum
      rw [status_setIfThread_of_eq (by rw [hnum, hwn])]
      exact rfl
    · intro _
      refine ⟨hstack, ?_⟩
      have hshape := h.registry.map_set w.threadNumber 1 (by rw [hwn]; omega)
      apply hshape.idle_of_count
      rw [h.amount t w hw] at hcount
      exact_mod_cast hcount
    · show s.broadcasts + 1 = _
      rw [count_woke_set hwoke hw hne]; simpa using h.broadcasts
    · by_cases hall : ∀ w' ∈ wakeAll (s.workers.set t { w with pc := Pc.exited }),
          w'.pc = Pc.exited
      · exact Or.inr hall
      · left
        push_neg at hall
        obtain ⟨w', hw', hnex⟩ := hall
        refine ⟨w', hw', ?_⟩
        obtain ⟨w0, _, rfl⟩ := List.mem_map.mp hw'
        exact Pc.active_of_ne (wake_pc_ne_waiting w0) hnex
  | block t w hw hpc hstack hcount =>
    have hne : w.pc ≠ Pc.exited := by rw [hpc]; simp
    have hwn : w.threadNumber = (t : Int) := h.number t w hw
    have hwoke := Woke.refl (s.workers.set t { w with pc := Pc.waiting })
    refine h.rebuild hw { w with pc := Pc.waiting } rfl rfl hwoke (Or.inr ⟨1, rfl⟩) ?_ ?_ ?_ ?_
    · intro e' he' hnum
      obtain ⟨e, he, rfl⟩ := List.mem_map.mp he'
      rw [threadNumber_setIfThread] at hnum
      rw [status_setIfThread_of_eq (by rw [hnum, hwn])]
      exact rfl
    · intro hex
      obtain ⟨h1, h2⟩ := h.afterExit (exited_woke_set hwoke hw hne (by simp) hex)
      exact ⟨h1, idle_map_one h2⟩
    · show s.broadcasts = _
      rw [count_woke_set hwoke hw hne]; simpa using h.broadcasts
    · left
      obtain ⟨j, w', hjt, hj, hact⟩ := h.block_live hw hcount
      refine ⟨w', ?_, hact⟩
      apply mem_of_get? (i := j)
      simp only [List.get?_eq_getElem?] at hj ⊢
      rw [List.getElem?_set]
      simp [Ne.symm hjt, hj]
  | take t w directory next names hw hpc hstack hopen =>
    have hne : w.pc ≠ Pc.exited := by rw [hpc]; simp
    have hwn : w.threadNumber = (t : Int) := h.number t w hw
    have hwoke := Woke.refl (s.workers.set t
      { w with pc := Pc.scanning directory (names.filter notDotEntry) })
    refine h.rebuild hw { w with pc := Pc.scanning directory (names.filter notDotEntry) }
      rfl rfl hwoke (Or.inr ⟨0, rfl⟩) ?_ ?_ ?_ ?_
    · intro e' he' hnum
      obtain ⟨e, he, rfl⟩ := List.mem_map.mp he'
      rw [threadNumber_setIfThread] at hnum
      rw [status_setIfThread_of_eq (by rw [hnum, hwn])]
      exact rfl
    · intro hex
      have := (h.afterExit (exited_woke_set hwoke hw hne (by simp) hex)).1
      rw [hstack] at this
      exact absurd this (by simp)
    · show s.broadcasts = _
      rw [count_woke_set hwoke hw hne]; simpa using h.broadcasts
    · exact Or.inl (live_woke_set hwoke hw rfl)
  | takeFail t w directory next hw hpc hstack hopen =>
    have hwoke : Woke (s.workers.set t w) s.workers := by
      rw [set_get_self hw]; exact Woke.refl _
    refine h.rebuild hw w rfl rfl hwoke (Or.inr ⟨0, rfl⟩) ?_ ?_ h.broadcasts h.live
    · intro e _ _; rw [hpc]; exact trivial
    · intro hex
      have := (h.afterExit hex).1
      rw [hstack] at this
      exact absurd this (by simp)
  | finish t w directory hw hpc =>
    have hne : w.pc ≠ Pc.exited := by rw [hpc]; simp
    have hwoke := Woke.refl (s.workers.set t { w with pc := Pc.loop })
    refine h.rebuild hw { w with pc := Pc.loop } rfl rfl hwoke (Or.inl rfl) ?_ ?_ ?_ ?_
    · intro e _ _; exact trivial
    · intro hex
      exact h.afterExit (exited_woke_set hwoke hw hne (by simp) hex)
    · show s.broadcasts = _
      rw [count_woke_set hwoke hw hne]; simpa using h.broadcasts
    · exact Or.inl (live_woke_set hwoke hw rfl)
  | probeFail t w directory d_name entries hw hpc hstat =>
    exact ⟨h.pos, h.length, h.number, h.amount, h.registry, h.compat, h.afterExit,
      h.broadcasts, h.live⟩
  | plain t w directory d_name entries fileStat hw hpc hstat hdir =>
    have hne : w.pc ≠ Pc.exited := by rw [hpc]; simp
    have hwoke := Woke.refl (s.workers.set t
      { w with
        pc := Pc.scanning directory entries
        totalBlockAmount := fileStat.st_blocks + w.totalBlockAmount })
    refine h.rebuild hw
      { w with
        pc := Pc.scanning directory entries
        totalBlockAmount := fileStat.st_blocks + w.totalBlockAmount }
      rfl rfl hwoke (Or.inl rfl) ?_ ?_ ?_ ?_
    · intro e he hnum
      have := h.compat e he t w hw hnum
      rw [hpc] at this
      exact this
    · intro hex
      exact h.afterExit (exited_woke_set hwoke hw hne (by simp) hex)
    · show s.broadcasts = _
      rw [count_woke_set hwoke hw hne]; simpa using h.broadcasts
    · exact Or.inl (live_woke_set hwoke hw rfl)
  | closed t w directory d_name entries fileStat hw hpc hstat hdir hopen =>
    have hne : w.pc ≠ Pc.exited := by rw [hpc]; simp
    have hwoke := Woke.refl (s.workers.set t
      { w with
        pc := Pc.scanning directory entries
        totalBlockAmount := fileStat.st_blocks + w.totalBlockAmount })
    refine h.rebuild hw
      { w with
        pc := Pc.scanning directory entries
        totalBlockAmount := fileStat.st_blocks + w.totalBlockAmount }
      rfl rfl hwoke (Or.inl rfl) ?_ ?_ ?_ ?_
    · intro e he hnum
      have := h.compat e he t w hw hnum
      rw [hpc] at this
      exact this
    · intro hex
      exact h.afterExit (exited_woke_set hwoke hw hne (by simp) hex)
    · show s.broadcasts = _
      rw [count_woke_set hwoke hw hne]; simpa using h.broadcasts
    · exact Or.inl (live_woke_set hwoke hw rfl)
  | push t pick w directory d_name entries names fileStat hw hpc hstat hdir hopen =>
    have hne : w.pc ≠ Pc.exited := by rw [hpc]; simp
    have hwoke := Woke.wakeOne (s.workers.set t
      { w with
        pc := Pc.scanning directory entries
        totalBlockAmount := fileStat.st_blocks + w.totalBlockAmount }) pick
    refine h.rebuild hw
      { w with
        pc := Pc.scanning directory entries
        totalBlockAmount := fileStat.st_blocks + w.totalBlockAmount }
      rfl rfl hwoke (Or.inl rfl) ?_ ?_ ?_ ?_
    · intro e he hnum
      have := h.compat e he t w hw hnum
      rw [hpc] at this
      exact this
    · intro hex
      have hidle := (h.afterExit (exited_woke_set hwoke hw hne (by simp) hex)).2
      exact (h.no_scanning hidle hw hpc).elim
    · show s.broadcasts = _
      rw [count_woke_set hwoke hw hne]; simpa using h.broadcasts
    · exact Or.inl (live_woke_set hwoke hw rfl)

theorem spawnFrom_eq (K : Int) (hK : 1 ≤ K) (n : Nat) :
    ∀ (bound : Nat) (idx : Int) (threads : List Worker), idx + n = K → 1 ≤ n → n ≤ bound →
      spawnFrom K bound idx threads = threads ++ (List.range n).map (fun (j : Nat) =>
        ({ threadNumber := idx + (j : Int), threadAmount := K, pc := Pc.start,
           totalBlockAmount := 0 } : Worker)) := by
  induction n with
  | zero => intro _ _ _ _ h; omega
  | succ n ih =>
    intro bound idx threads hidx _ hb
    cases bound with
    | zero => omega
    | succ b =>
      have hle : idx ≤ K := by omega
      have hK0 : K ≠ 0 := by omega
      unfold spawnFrom
      by_cases hn : n = 0
      · subst hn
        have : idx = K - 1 := by omega
        simp [hle, hK0, this, List.range_succ]
      · have hne : idx ≠ K - 1 := by omega
        simp only [hle, hK0, hne, if_true, if_false, or_self]
        rw [ih b (idx + 1) _ (by omega) (by omega) (by omega)]
        rw [List.range_succ_eq_map, List.map_cons, List.map_map, List.append_assoc]
        simp only [List.singleton_append, Nat.cast_zero, add_zero, List.cons.injEq, true_and]
        congr 2
        apply List.map_congr_left
        intro j _
        simp only [Function.comp, Nat.succ_eq_add_one, Nat.cast_add, Nat.cast_one]
        congr 1
        omega

theorem spawnLoop_eq (K : Int) (hK : 0 ≤ K) :
    spawnLoop K = (List.range (workerCount K)).map (freshWorker (workerCount K)) := by
  unfold spawnLoop workerCount
  by_cases h0 : K = 0
  · subst h0
    simp [spawnFrom, freshWorker, List.range_succ]
  · have h1 : 1 ≤ K := by omega
    rw [spawnFrom_eq K h1 K.toNat _ 0 [] (by omega) (by omega) (by omega)]
    have hmax : max K 1 = K := max_eq_left h1
    rw [hmax, List.nil_append]
    apply List.map_congr_left
    intro j _
    simp only [freshWorker, zero_add, Worker.mk.injEq, true_and, and_true]
    omega

theorem registerFrom_eq (K : Int) (bound : Nat) :
    ∀ (idx : Int) (reg : List waitStatus), idx + bound = K + 1 →
      registerFrom K bound idx reg = ((List.range bound).map (fun (j : Nat) =>
        ({ threadNumber := idx + (j : Int), status := -1 } : waitStatus))).reverse ++ reg := by
  induction bound with
  | zero => intro idx reg _; simp [registerFrom]
  | succ b ih =>
    intro idx reg hidx
    have hle : idx ≤ K := by omega
    unfold registerFrom
    simp only [hle, if_true]
    rw [ih (idx + 1) _ (by omega)]
    rw [List.range_succ_eq_map, List.map_cons, List.map_map, List.reverse_cons,
      List.append_assoc]
    simp only [List.singleton_append, Nat.cast_zero, add_zero, addWaitStatus]
    congr 2
    apply List.map_congr_left
    intro j _
    simp only [Function.comp, Nat.succ_eq_add_one, Nat.cast_add, Nat.cast_one]
    congr 1
    omega

theorem registerLoop_eq (K : Int) (hK : 0 ≤ K) :
    registerLoop K [] = ((List.range (K.toNat + 1)).map (fun (j : Nat) =>
      ({ threadNumber := (j : Int), status := -1 } : waitStatus))).reverse := by
  unfold registerLoop
  have : (K + 1).toNat = K.toNat + 1 := by omega
  rw [this, registerFrom_eq K (K.toNat + 1) 0 [] (by omega)]
  simp

theorem registerLoop_length (K : Int) (hK : 0 ≤ K) :
    (registerLoop K []).length = K.toNat + 1 := by
  rw [registerLoop_eq K hK]; simp

/-- The wait statuses the engine registers have the shape the pool relies on. -/
theorem registerLoop_shape (K : Int) (hK : 0 ≤ K) :
    RegShape (workerCount K) (registerLoop K []) := by
  rw [registerLoop_eq K hK]
  by_cases h0 : K = 0
  · subst h0
    refine ⟨[], [{ threadNumber := 0, status := -1 }], by simp [List.range_succ], by simp,
      by simp [workerCount],
      ?_, ?_⟩
    · intro e he
      simp at he; subst he
      simp [InRange, workerCount]
    · intro i hi
      simp [workerCount] at hi
      subst hi
      exact ⟨_, List.mem_singleton_self _, rfl⟩
  · have h1 : 1 ≤ K := by omega
    have hW : workerCount K = K.toNat := by
      unfold workerCount; rw [max_eq_left h1]
    rw [hW]
    refine ⟨[{ threadNumber := (K.toNat : Int), status := -1 }],
      ((List.range K.toNat).map (fun (j : Nat) =>
        ({ threadNumber := (j : Int), status := -1 } : waitStatus))).reverse, ?_, ?_, ?_, ?_, ?_⟩
    · rw [List.range_succ, List.map_append, List.reverse_append]
      simp
    · intro e he
      simp at he; subst he
      simp [InRange]
    · simp
    · intro e he
      simp only [List.mem_reverse, List.mem_map, List.mem_range] at he
      obtain ⟨j, hj, rfl⟩ := he
      simp only [InRange]
      omega
    · intro i hi
      refine ⟨{ threadNumber := (i : Int), status := -1 }, ?_, rfl⟩
      simp only [List.mem_reverse, List.mem_map, List.mem_range]
      exact ⟨i, hi, rfl⟩

theorem workerCount_pos (K : Int) : 0 < workerCount K := by
  unfold workerCount; omega

/-- The invariant holds when the threads of a directory target are created. -/
theorem Shape.initial (g : Globals) (K : Int) (hK : 0 ≤ K) (file : String)
    (hreg : RegShape (workerCount K) g.waitStatusTop) :
    Shape (workerCount K) (spawnState g K file) := by
  have hget : ∀ i w, (spawnState g K file).workers.get? i = some w →
      w = freshWorker (workerCount K) i := by
    intro i w hi
    simp only [spawnState, spawnLoop_eq K hK, List.get?_eq_getElem?, List.getElem?_map,
      Option.map_eq_some'] at hi
    obtain ⟨j, hj, rfl⟩ := hi
    rw [List.getElem?_range] at hj
    · injection hj with hj; rw [hj]
    · by_contra hlt
      rw [List.getElem?_eq_none (by simpa using hlt)] at hj
      exact absurd hj (by simp)
  have hmem : ∀ w ∈ (spawnState g K file).workers, w.pc = Pc.start := by
    intro w hw
    obtain ⟨i, hi⟩ := exists_get?_of_mem hw
    rw [hget i w hi]; rfl
  refine ⟨workerCount_pos K, ?_, ?_, ?_, hreg, ?_, ?_, ?_, ?_⟩
  · simp [spawnState, spawnLoop_eq K hK]
  · intro i w hi; rw [hget i w hi]; rfl
  · intro i w hi; rw [hget i w hi]; rfl
  · intro e _ i w hi _; rw [hget i w hi]; exact trivial
  · rintro ⟨w, hw, hpc⟩
    rw [hmem w hw] at hpc
    exact absurd hpc (by simp)
  · show 0 = _
    symm
    rw [List.countP_eq_zero]
    intro w hw
    simp [hmem w hw]
  · left
    have hpos := workerCount_pos K
    refine ⟨freshWorker (workerCount K) 0, ?_, rfl⟩
    simp only [spawnState, spawnLoop_eq K hK, List.mem_map, List.mem_range]
    exact ⟨0, hpos, rfl⟩

theorem Shape.keepStep {fs : FileSystem} {W : Nat} {s : State} (h : Shape W s) (c : Choice) :
    Shape W (step fs s c) := by
  obtain ⟨b, hm⟩ := step_move fs s c (h.registry.ne_nil h.pos)
  exact h.keep hm

theorem Shape.keepExec {fs : FileSystem} {W : Nat} {s : State} (h : Shape W s)
    (sched : List Choice) : Shape W (exec fs s sched) := by
  induction sched generalizing s with
  | nil => exact h
  | cons c sched ih => exact ih (h.keepStep c)

theorem forall₂_get {α β : Type} {R : α → β → Prop} {l₁ : List α} {l₂ : List β}
    (h : List.Forall₂ R l₁ l₂) {i : Nat} {a : α} (hi : l₁.get? i = some a) :
    ∃ b, l₂.get? i = some b ∧ R a b := by
  induction h generalizing i with
  | nil => simp at hi
  | cons hab _ ih =>
    cases i with
    | zero => simp at hi; subst hi; exact ⟨_, rfl, hab⟩
    | succ i => simpa using ih (by simpa using hi)

theorem forall₂_set {α β : Type} {R : α → β → Prop} {l₁ : List α} {l₂ : List β}
    (h : List.Forall₂ R l₁ l₂) (i : Nat) {a : α} {b : β} (hab : R a b) :
    List.Forall₂ R (l₁.set i a) (l₂.set i b) := by
  induction h generalizing i with
  | nil => exact List.Forall₂.nil
  | cons hab' hrest ih =>
    cases i with
    | zero => exact List.Forall₂.cons hab hrest
    | succ i => exact List.Forall₂.cons hab' (ih i)

theorem sum_map_set {β : Type} (f : β → Nat) {l : List β} {i : Nat} {b : β} (b' : β)
    (hi : l.get? i = some b) :
    ((l.set i b').map f).sum + f b = (l.map f).sum + f b' := by
  induction l generalizing i with
  | nil => simp at hi
  | cons a l ih =>
    cases i with
    | zero =>
      simp at hi
      subst hi
      simp only [List.set_cons_zero, List.map_cons, List.sum_cons]
      omega
    | succ i =>
      have := ih (i := i) (by simpa using hi)
      simp only [List.set_cons_succ, List.map_cons, List.sum_cons]
      omega

theorem Held.stays {fs : FileSystem} {w : Worker} {es : List (String × FsNode)}
    (h : Held fs w es) : Held fs (wake w) es := by
  unfold Mdu.wake
  split
  · next hpc =>
    unfold Held at h ⊢
    rw [hpc] at h
    exact h
  · exact h

theorem Held.woke {fs : FileSystem} {ws ws' : List Worker}
    {held : List (List (String × FsNode))} (h : List.Forall₂ (Held fs) ws held)
    (hwoke : Woke ws ws') : List.Forall₂ (Held fs) ws' held := by
  induction h generalizing ws' with
  | nil =>
    have : ws' = [] := List.length_eq_zero.mp (by simpa using hwoke.1)
    rw [this]
    exact List.Forall₂.nil
  | cons hab _ ih =>
    cases ws' with
    | nil => exact absurd hwoke.1 (by simp)
    | cons w' ws' =>
      obtain ⟨hor, htail⟩ := hwoke.tail
      refine List.Forall₂.cons ?_ (ih htail)
      rcases hor with rfl | rfl
      · exact hab
      · exact hab.stays

theorem weight_wake (W : Nat) (w : Worker) : weight W (wake w).pc ≤ weight W w.pc + 1 := by
  rw [wake_pc]
  split
  · next h => rw [h]; simp [weight]
  · omega

theorem Woke.weight_le {W : Nat} {ws ws' : List Worker} (h : Woke ws ws') :
    (ws'.map (fun w => weight W w.pc)).sum ≤ (ws.map (fun w => weight W w.pc)).sum + ws.length := by
  induction ws generalizing ws' with
  | nil =>
    have : ws' = [] := List.length_eq_zero.mp (by simpa using h.1)
    rw [this]; simp
  | cons w ws ih =>
    cases ws' with
    | nil => exact absurd h.1 (by simp)
    | cons w' ws' =>
      obtain ⟨hor, htail⟩ := h.tail
      have := ih htail
      have hw : weight W w'.pc ≤ weight W w.pc + 1 := by
        rcases hor with rfl | rfl
        · omega
        · exact weight_wake W w
      simp only [List.map_cons, List.sum_cons, List.length_cons]
      omega

theorem Shows.lstat {fs : FileSystem} {path : String} {node : FsNode} (h : Shows fs path node) :
    fs.lstat path = some { st_blocks := node.own, isDir := node.isDir } := by
  cases node with
  | file b => simpa [Shows] using h
  | dir b o es => simpa [Shows] using h.1

theorem Shows.opendir_closed {fs : FileSystem} {path : String} {b : Nat}
    {es : List (String × FsNode)} (h : Shows fs path (FsNode.dir b false es)) :
    fs.opendir path = none := by
  have := h.2.1
  simpa using this

theorem Shows.opendir_open {fs : FileSystem} {path : String} {b : Nat}
    {es : List (String × FsNode)} (h : Shows fs path (FsNode.dir b true es)) :
    ∃ names, fs.opendir path = some names ∧ names.filter notDotEntry = es.map Prod.fst ∧
      ShowsList fs path es := by
  have h1 := h.2.1
  have h2 := h.2.2 rfl
  simp only [if_true, Option.map_eq_some'] at h1
  obtain ⟨names, hn, hf⟩ := h1
  exact ⟨names, hn, hf, h2⟩

theorem Stacked.cases {fs : FileSystem} {path : String} {node : FsNode}
    (h : Stacked fs path node) :
    ∃ b es, node = FsNode.dir b true es ∧
      ∃ names, fs.opendir path = some names ∧ names.filter notDotEntry = es.map Prod.fst ∧
        ShowsList fs path es := by
  obtain ⟨hs, ho⟩ := h
  cases node with
  | file b => simp [FsNode.isOpenDir] at ho
  | dir b o es =>
    cases o with
    | false => simp [FsNode.isOpenDir] at ho
    | true => exact ⟨b, es, rfl, hs.opendir_open⟩

/-- The ghost entries of a thread that is about to read the entry `d_name`. -/
theorem Held.cons {fs : FileSystem} {w : Worker} {es : List (String × FsNode)}
    {directory d_name : String} {entries : List String}
    (h : Held fs w es) (hpc : w.pc = Pc.scanning directory (d_name :: entries)) :
    ∃ node rest, es = (d_name, node) :: rest ∧ entries = rest.map Prod.fst ∧
      Shows fs (directory ++ "/" ++ d_name) node ∧ ShowsList fs directory rest := by
  unfold Held at h
  rw [hpc] at h
  obtain ⟨hnames, hshow⟩ := h
  cases es with
  | nil => simp at hnames
  | cons e rest =>
    obtain ⟨name, node⟩ := e
    simp only [List.map_cons, List.cons.injEq] at hnames
    obtain ⟨rfl, hrest⟩ := hnames
    exact ⟨node, rest, rfl, hrest, hshow.1, hshow.2⟩

theorem Held.of_not_scanning {fs : FileSystem} {w : Worker} {es : List (String × FsNode)}
    (h : Held fs w es) (hpc : ∀ d ns, w.pc ≠ Pc.scanning d ns) : es = [] := by
  unfold Held at h
  split at h
  · next d ns hd => exact absurd hd (hpc d ns)
  · exact h

theorem Held.nil_of_scanning_nil {fs : FileSystem} {w : Worker} {es : List (String × FsNode)}
    {directory : String} (h : Held fs w es) (hpc : w.pc = Pc.scanning directory []) :
    es = [] := by
  unfold Held at h
  rw [hpc] at h
  exact List.map_eq_nil_iff.mp h.1.symm
/-- Bookkeeping for a move of thread `t` from `w` to `w₁`, after which some
threads may have been woken: the link to the ghost and how the sums change. -/
theorem Linked.relink {fs : FileSystem} {W c : Nat} {s : State} {g : Ghost}
    (hlink : Linked fs s g) (hlen : s.workers.length = W) {t : Nat} {w : Worker}
    (hw : s.workers.get? t = some w) {es : List (String × FsNode)}
    (hes : g.held.get? t = some es) (w₁ : Worker) (es' : List (String × FsNode))
    (hheld : Held fs w₁ es') {ws' : List Worker} (hwoke : Woke (s.workers.set t w₁) ws') :
    List.Forall₂ (Held fs) ws' (g.held.set t es') ∧
    totalOf ws' + w.totalBlockAmount = totalOf s.workers + w₁.totalBlockAmount ∧
    ((g.held.set t es').map FsNode.countedList).sum + FsNode.countedList es =
      (g.held.map FsNode.countedList).sum + FsNode.countedList es' ∧
    ((g.held.set t es').map (FsNode.costList c)).sum + FsNode.costList c es =
      (g.held.map (FsNode.costList c)).sum + FsNode.costList c es' ∧
    ((g.held.set t es').map FsNode.closedCountList).sum + FsNode.closedCountList es =
      (g.held.map FsNode.closedCountList).sum + FsNode.closedCountList es' ∧
    (ws'.map (fun w => weight W w.pc)).sum + weight W w.pc ≤
      (s.workers.map (fun w => weight W w.pc)).sum + weight W w₁.pc + W ∧
    (ws' = s.workers.set t w₁ →
      (ws'.map (fun w => weight W w.pc)).sum + weight W w.pc =
        (s.workers.map (fun w => weight W w.pc)).sum + weight W w₁.pc) := by
  refine ⟨?_, ?_, sum_map_set _ es' hes, sum_map_set _ es' hes, sum_map_set _ es' hes, ?_, ?_⟩
  · exact Held.woke (forall₂_set hlink.held t hheld) hwoke
  · unfold totalOf
    rw [hwoke.sum_total]
    exact sum_total_set w₁ hw
  · have h1 := hwoke.weight_le (W := W)
    have h2 := sum_map_set (fun w => weight W w.pc) w₁ hw
    rw [List.length_set, hlen] at h1
    simp only at h2
    omega
  · intro heq
    rw [heq]
    exact sum_map_set (fun w => weight W w.pc) w₁ hw

theorem wake_pc_start (w : Worker) : (wake w).pc = Pc.start ↔ w.pc = Pc.start := by
  rw [wake_pc]; split <;> simp_all

theorem Woke.no_start {ws ws' : List Worker} (h : Woke ws ws')
    (hno : ∀ w ∈ ws, w.pc ≠ Pc.start) : ∀ w' ∈ ws', w'.pc ≠ Pc.start := by
  intro w' hw'
  obtain ⟨i, hi⟩ := exists_get?_of_mem hw'
  obtain ⟨w, hw, hor⟩ := h.2 i w' hi
  rcases hor with rfl | rfl
  · exact hno _ (mem_of_get? hw)
  · rw [Ne, wake_pc_start]; exact hno _ (mem_of_get? hw)

theorem Woke.no_start_set {ws ws' : List Worker} {t : Nat} {w w₁ : Worker}
    (h : Woke (ws.set t w₁) ws') (hw : ws.get? t = some w) (h₁ : w₁.pc ≠ Pc.start) :
    ((∀ w ∈ ws, w.pc ≠ Pc.start) → ∀ w' ∈ ws', w'.pc ≠ Pc.start) ∧
      (ws.length = 1 → ∀ w' ∈ ws', w'.pc ≠ Pc.start) := by
  have key : ∀ w' ∈ ws', (w'.pc ≠ Pc.start) ∨
      ∃ i w0, i ≠ t ∧ ws.get? i = some w0 ∧ w0.pc = Pc.start := by
    intro w' hw'
    obtain ⟨i, hi⟩ := exists_get?_of_mem hw'
    rcases h.get_set hi with ⟨_, hor⟩ | ⟨hne, w0, hw0, hor⟩
    · left
      rcases hor with rfl | rfl
      · exact h₁
      · rw [Ne, wake_pc_start]; exact h₁
    · by_cases hs : w0.pc = Pc.start
      · exact Or.inr ⟨i, w0, hne, hw0, hs⟩
      · left
        rcases hor with rfl | rfl
        · exact hs
        · rw [Ne, wake_pc_start]; exact hs
  constructor
  · intro hno w' hw'
    rcases key w' hw' with h1 | ⟨i, w0, _, hw0, hs⟩
    · exact h1
    · exact absurd hs (hno w0 (mem_of_get? hw0))
  · intro hlen w' hw'
    rcases key w' hw' with h1 | ⟨i, w0, hne, hw0, _⟩
    · exact h1
    · have h1 := (List.get?_eq_some.mp hw0).1
      have h2 := (List.get?_eq_some.mp hw).1
      omega

/-- A step of a thread of a pool that works on trees shown by the file system
does not end the process, keeps the link to the trees, conserves the sum of the
totals and the pending blocks as well as the closed directories found and
ahead, and lowers the measure. -/
theorem Move.advance {fs : FileSystem} {W : Nat} {s s' : State} {g : Ghost}
    (hshape : Shape W s) (hlink : Linked fs s g) (hrun : s.proc = Proc.running)
    (hm : Move fs s true s') :
    ∃ g', Linked fs s' g' ∧ s'.proc = Proc.running ∧
      totalOf s'.workers + g'.pending = totalOf s.workers + g.pending ∧
      measure W s' g' < measure W s g ∧
      g'.seen + g'.closedAhead = g.seen + g.closedAhead ∧ Effect s s' g g' ∧
      ((∀ w ∈ s.workers, w.pc ≠ Pc.start) → ∀ w ∈ s'.workers, w.pc ≠ Pc.start) := by
  have hlen := hshape.length
  have hpos := hshape.pos
  cases hm with
  | start t w hw hpc =>
    obtain ⟨es, hes, hheld⟩ := forall₂_get hlink.held hw
    have hnil : es = [] := hheld.of_not_scanning (by rw [hpc]; simp)
    subst hnil
    have hwoke := Woke.refl (s.workers.set t { w with pc := Pc.loop })
    obtain ⟨h1, h2, h3, h4, h7, _, h6⟩ := hlink.relink (c := W + 1) hlen hw hes
      { w with pc := Pc.loop } [] rfl hwoke
    refine ⟨⟨g.stack, g.held.set t [], g.seen⟩, ⟨hlink.stack, h1⟩, hrun, ?_, ?_, ?_,
      Or.inl ⟨rfl, rfl, w, mem_of_get? hw, hpc⟩, (hwoke.no_start_set hw (by simp)).1⟩
    · simp only [Ghost.pending] at *; omega
    · have h6 := h6 rfl
      simp only [measure, hpc, weight] at *; omega
    · simp only [Ghost.closedAhead] at *; omega
  | leave t w hw hpc hstack hcount =>
    obtain ⟨es, hes, hheld⟩ := forall₂_get hlink.held hw
    have hnil : es = [] := hheld.of_not_scanning (by rw [hpc]; simp)
    subst hnil
    have hwoke := Woke.wakeAll (s.workers.set t { w with pc := Pc.exited })
    obtain ⟨h1, h2, h3, h4, h7, h5, _⟩ := hlink.relink (c := W + 1) hlen hw hes
      { w with pc := Pc.exited } [] rfl hwoke
    refine ⟨⟨g.stack, g.held.set t [], g.seen⟩, ⟨hlink.stack, h1⟩, hrun, ?_, ?_, ?_,
      Or.inr (Or.inr ⟨rfl, rfl, w, mem_of_get? hw, by rw [hpc]; simp⟩),
      (hwoke.no_start_set hw (by simp)).1⟩
    · simp only [Ghost.pending] at *; omega
    · simp only [measure, hpc, weight] at *; omega
    · simp only [Ghost.closedAhead] at *; omega
  | block t w hw hpc hstack hcount =>
    obtain ⟨es, hes, hheld⟩ := forall₂_get hlink.held hw
    have hnil : es = [] := hheld.of_not_scanning (by rw [hpc]; simp)
    subst hnil
    have hwoke := Woke.refl (s.workers.set t { w with pc := Pc.waiting })
    obtain ⟨h1, h2, h3, h4, h7, _, h6⟩ := hlink.relink (c := W + 1) hlen hw hes
      { w with pc := Pc.waiting } [] rfl hwoke
    refine ⟨⟨g.stack, g.held.set t [], g.seen⟩, ⟨hlink.stack, h1⟩, hrun, ?_, ?_, ?_,
      Or.inr (Or.inr ⟨rfl, rfl, w, mem_of_get? hw, by rw [hpc]; simp⟩),
      (hwoke.no_start_set hw (by simp)).1⟩
    · simp only [Ghost.pending] at *; omega
    · have h6 := h6 rfl
      simp only [measure, hpc, weight] at *; omega
    · simp only [Ghost.closedAhead] at *; omega
  | take t w directory next names hw hpc hstack hopen =>
    obtain ⟨es, hes, hheld⟩ := forall₂_get hlink.held hw
    have hnil : es = [] := hheld.of_not_scanning (by rw [hpc]; simp)
    subst hnil
    have hst := hlink.stack
    rw [hstack, List.forall₂_cons_left_iff] at hst
    obtain ⟨node, nodes, hhead, htail, hg⟩ := hst
    obtain ⟨b, ents, rfl, names', hopen', hfilter, hshows⟩ := hhead.cases
    rw [hopen] at hopen'
    injection hopen' with hopen'
    subst hopen'
    have hwoke := Woke.refl (s.workers.set t
      { w with pc := Pc.scanning directory (names.filter notDotEntry) })
    obtain ⟨h1, h2, h3, h4, h7, _, h6⟩ := hlink.relink (c := W + 1) hlen hw hes
      { w with pc := Pc.scanning directory (names.filter notDotEntry) } ents
      ⟨hfilter, hshows⟩ hwoke
    refine ⟨⟨nodes, g.held.set t ents, g.seen⟩, ⟨htail, h1⟩, hrun, ?_, ?_, ?_,
      Or.inr (Or.inr ⟨rfl, rfl, w, mem_of_get? hw, by rw [hpc]; simp⟩),
      (hwoke.no_start_set hw (by simp)).1⟩
    · have e0 : FsNode.countedList [] = 0 := by simp [FsNode.countedList]
      simp only [Ghost.pending, hg, List.map_cons, List.sum_cons, FsNode.inside, e0] at *
      omega
    · have h6 := h6 rfl
      have e0 : FsNode.costList (W + 1) [] = 0 := by simp [FsNode.costList]
      simp only [measure, hpc, weight, hg, List.map_cons, List.sum_cons,
        FsNode.scanCost, e0] at *
      omega
    · have e0 : FsNode.closedCountList [] = 0 := by simp [FsNode.closedCountList]
      simp only [Ghost.closedAhead, hg, List.map_cons, List.sum_cons, FsNode.closedInside,
        e0] at *
      omega
  | takeFail t w directory next hw hpc hstack hopen =>
    have hst := hlink.stack
    rw [hstack, List.forall₂_cons_left_iff] at hst
    obtain ⟨node, nodes, hhead, htail, hg⟩ := hst
    obtain ⟨b, ents, rfl, names', hopen', _, _⟩ := hhead.cases
    rw [hopen] at hopen'
    exact absurd hopen' (by simp)
  | finish t w directory hw hpc =>
    obtain ⟨es, hes, hheld⟩ := forall₂_get hlink.held hw
    have hnil : es = [] := hheld.nil_of_scanning_nil hpc
    subst hnil
    have hwoke := Woke.refl (s.workers.set t { w with pc := Pc.loop })
    obtain ⟨h1, h2, h3, h4, h7, _, h6⟩ := hlink.relink (c := W + 1) hlen hw hes
      { w with pc := Pc.loop } [] rfl hwoke
    refine ⟨⟨g.stack, g.held.set t [], g.seen⟩, ⟨hlink.stack, h1⟩, hrun, ?_, ?_, ?_,
      Or.inr (Or.inr ⟨rfl, rfl, w, mem_of_get? hw, by rw [hpc]; simp⟩),
      (hwoke.no_start_set hw (by simp)).1⟩
    · simp only [Ghost.pending] at *; omega
    · have h6 := h6 rfl
      simp only [measure, hpc, weight] at *; omega
    · simp only [Ghost.closedAhead] at *; omega
  | probeFail t w directory d_name entries hw hpc hstat =>
    obtain ⟨es, hes, hheld⟩ := forall₂_get hlink.held hw
    obtain ⟨node, rest, rfl, hrest, hshow, hshows⟩ := hheld.cons hpc
    rw [hshow.lstat] at hstat
    exact absurd hstat (by simp)
  | plain t w directory d_name entries fileStat hw hpc hstat hdir =>
    obtain ⟨es, hes, hheld⟩ := forall₂_get hlink.held hw
    obtain ⟨node, rest, rfl, hrest, hshow, hshows⟩ := hheld.cons hpc
    rw [hshow.lstat] at hstat
    injection hstat with hstat
    subst hstat
    cases node with
    | dir b o ents => simp [FsNode.isDir] at hdir
    | file b =>
      have hwoke := Woke.refl (s.workers.set t
        { w with
          pc := Pc.scanning directory entries
          totalBlockAmount := b + w.totalBlockAmount })
      obtain ⟨h1, h2, h3, h4, h7, _, h6⟩ := hlink.relink (c := W + 1) hlen hw hes
        { w with
          pc := Pc.scanning directory entries
          totalBlockAmount := b + w.totalBlockAmount } rest
        ⟨hrest, hshows⟩ hwoke
      refine ⟨⟨g.stack, g.held.set t rest, g.seen⟩, ⟨hlink.stack, h1⟩, hrun, ?_, ?_, ?_,
        Or.inr (Or.inr ⟨rfl, rfl, w, mem_of_get? hw, by rw [hpc]; simp⟩),
        (hwoke.no_start_set hw (by simp)).1⟩
      · simp only [Ghost.pending, FsNode.countedList, FsNode.counted, FsNode.own] at *; omega
      · have h6 := h6 rfl
        simp only [measure, hpc, weight, FsNode.costList, FsNode.cost, FsNode.own] at *; omega
      · simp only [Ghost.closedAhead, FsNode.closedCountList, FsNode.closedCount] at *; omega
  | closed t w directory d_name entries fileStat hw hpc hstat hdir hopen =>
    obtain ⟨es, hes, hheld⟩ := forall₂_get hlink.held hw
    obtain ⟨node, rest, rfl, hrest, hshow, hshows⟩ := hheld.cons hpc
    rw [hshow.lstat] at hstat
    injection hstat with hstat
    subst hstat
    cases node with
    | file b => simp [FsNode.isDir] at hdir
    | dir b o ents =>
      cases o with
      | true =>
        obtain ⟨names, hn, _, _⟩ := hshow.opendir_open
        rw [hopen] at hn
        exact absurd hn (by simp)
      | false =>
        have hwoke := Woke.refl (s.workers.set t
          { w with
            pc := Pc.scanning directory entries
            totalBlockAmount := b + w.totalBlockAmount })
        obtain ⟨h1, h2, h3, h4, h7, _, h6⟩ := hlink.relink (c := W + 1) hlen hw hes
          { w with
            pc := Pc.scanning directory entries
            totalBlockAmount := b + w.totalBlockAmount } rest
          ⟨hrest, hshows⟩ hwoke
        refine ⟨⟨g.stack, g.held.set t rest, g.seen + 1⟩, ⟨hlink.stack, h1⟩, hrun, ?_, ?_, ?_,
          Or.inr (Or.inl ⟨rfl, rfl, (hwoke.no_start_set hw (by simp)).2⟩),
          (hwoke.no_start_set hw (by simp)).1⟩
        · simp only [Ghost.pending, FsNode.countedList, FsNode.counted, FsNode.own] at *
          simp only [Bool.false_eq_true, if_false] at *
          omega
        · have h6 := h6 rfl
          simp only [measure, hpc, weight, FsNode.costList, FsNode.cost, FsNode.own] at *
          simp only [Bool.false_eq_true, if_false] at *
          omega
        · simp only [Ghost.closedAhead, FsNode.closedCountList, FsNode.closedCount] at *
          simp only [Bool.false_eq_true, if_false] at *
          omega
  | push t pick w directory d_name entries names fileStat hw hpc hstat hdir hopen =>
    obtain ⟨es, hes, hheld⟩ := forall₂_get hlink.held hw
    obtain ⟨node, rest, rfl, hrest, hshow, hshows⟩ := hheld.cons hpc
    rw [hshow.lstat] at hstat
    injection hstat with hstat
    subst hstat
    cases node with
    | file b => simp [FsNode.isDir] at hdir
    | dir b o ents =>
      cases o with
      | false =>
        rw [hshow.opendir_closed] at hopen
        exact absurd hopen (by simp)
      | true =>
        have hwoke := Woke.wakeOne (s.workers.set t
          { w with
            pc := Pc.scanning directory entries
            totalBlockAmount := b + w.totalBlockAmount }) pick
        obtain ⟨h1, h2, h3, h4, h7, h5, _⟩ := hlink.relink (c := W + 1) hlen hw hes
          { w with
            pc := Pc.scanning directory entries
            totalBlockAmount := b + w.totalBlockAmount } rest
          ⟨hrest, hshows⟩ hwoke
        refine ⟨⟨FsNode.dir b true ents :: g.stack, g.held.set t rest, g.seen⟩,
          ⟨List.Forall₂.cons ⟨hshow, rfl⟩ hlink.stack, h1⟩, hrun, ?_, ?_, ?_,
          Or.inr (Or.inr ⟨rfl, rfl, w, mem_of_get? hw, by rw [hpc]; simp⟩),
          (hwoke.no_start_set hw (by simp)).1⟩
        · simp only [Ghost.pending, FsNode.countedList, FsNode.counted, FsNode.own,
            List.map_cons, List.sum_cons, FsNode.inside, if_true] at *
          omega
        · simp only [measure, hpc, weight, FsNode.costList, FsNode.cost, FsNode.own,
            List.map_cons, List.sum_cons, FsNode.scanCost, if_true] at *
          omega
        · simp only [Ghost.closedAhead, FsNode.closedCountList, FsNode.closedCount,
            List.map_cons, List.sum_cons, FsNode.closedInside, if_true] at *
          omega

theorem Move.idle {fs : FileSystem} {s s' : State} {g : Ghost}
    (hlink : Linked fs s g) (hm : Move fs s false s') :
    Linked fs s' g ∧ s'.proc = s.proc ∧ totalOf s'.workers = totalOf s.workers ∧
      (FlagOk s g → FlagOk s' g) ∧ (StartOk s g → StartOk s' g) := by
  cases hm with
  | stay => exact ⟨hlink, rfl, rfl, id, id⟩
  | wakeup t w hw =>
    have hwoke : Woke s.workers (s.workers.set t (wake w)) := Woke.set_wake _ t w hw
    refine ⟨⟨hlink.stack, Held.woke hlink.held hwoke⟩, rfl, hwoke.sum_total, ?_, ?_⟩
    · intro hf
      rcases hf with hall | hrest
      · left
        intro w' hw'
        obtain ⟨i, hi⟩ := exists_get?_of_mem hw'
        obtain ⟨w0, hw0, hor⟩ := hwoke.2 i w' hi
        rcases hor with rfl | rfl
        · exact hall _ (mem_of_get? hw0)
        · rw [wake_pc_start]; exact hall _ (mem_of_get? hw0)
      · exact Or.inr hrest
    · intro hs
      rcases hs with h0 | hno
      · exact Or.inl h0
      · exact Or.inr (hwoke.no_start hno)

theorem step_of_not_running (fs : FileSystem) (s : State) (c : Choice)
    (h : s.proc ≠ Proc.running) : step fs s c = s := by
  unfold step
  split
  · next hp => exact absurd hp h
  · rfl

/-- A step of a thread keeps the pool sound and lowers the measure. -/
theorem Sound.progress {fs : FileSystem} {W total closed : Nat} {s s' : State} {g : Ghost}
    (h : Sound fs W total closed s g) (hm : Move fs s true s') :
    ∃ g', Sound fs W total closed s' g' ∧ measure W s' g' < measure W s g := by
  obtain ⟨g', h1, h2, h3, h4, h5, h6, h7⟩ := hm.advance h.shape h.linked h.running
  refine ⟨g', ⟨h.shape.keep hm, h1, h2, by rw [h3]; exact h.sum, by rw [h5]; exact h.found,
    ?_⟩, h4⟩
  intro hc
  obtain ⟨hF, hS⟩ := h.flag hc
  have hfound : g'.seen + g'.closedAhead = closed := by rw [h5]; exact h.found
  constructor
  · rcases h6 with ⟨e1, e2, w, hw, hpc⟩ | ⟨e1, e2, _⟩ | ⟨e1, e2, w, hw, hpc⟩
    · rcases hS with h0 | hno
      · exact Or.inr (Or.inr ⟨e1, by omega⟩)
      · exact absurd hpc (hno w hw)
    · exact Or.inr (Or.inl ⟨e1, by omega⟩)
    · rcases hF with hall | hrest
      · exact absurd (hall w hw) hpc
      · right
        rw [e1, e2]
        exact hrest
  · rcases hc with hc | hc
    · left; omega
    · rcases h6 with ⟨_, e2, w, hw, hpc⟩ | ⟨_, _, e3⟩ | ⟨_, e2, _⟩
      · rcases hS with h0 | hno
        · left; omega
        · exact absurd hpc (hno w hw)
      · exact Or.inr (e3 (by rw [h.shape.length, hc]))
      · rcases hS with h0 | hno
        · left; omega
        · exact Or.inr (h7 hno)

theorem Sound.move {fs : FileSystem} {W total closed : Nat} {s s' : State} {g : Ghost}
    {b : Bool} (h : Sound fs W total closed s g) (hm : Move fs s b s') :
    ∃ g', Sound fs W total closed s' g' := by
  cases b with
  | false =>
    obtain ⟨h1, h2, h3, h4, h5⟩ := hm.idle h.linked
    exact ⟨g, h.shape.keep hm, h1, by rw [h2]; exact h.running, by rw [h3]; exact h.sum,
      h.found, fun hc => ⟨h4 (h.flag hc).1, h5 (h.flag hc).2⟩⟩
  | true =>
    obtain ⟨g', h', _⟩ := h.progress hm
    exact ⟨g', h'⟩

theorem Sound.step {fs : FileSystem} {W total closed : Nat} {s : State} {g : Ghost}
    (h : Sound fs W total closed s g) (c : Choice) : ∃ g', Sound fs W total closed (step fs s c) g' := by
  obtain ⟨b, hm⟩ := step_move fs s c (h.shape.registry.ne_nil h.shape.pos)
  exact h.move hm

theorem Sound.exec {fs : FileSystem} {W total closed : Nat} {s : State} {g : Ghost}
    (h : Sound fs W total closed s g) (sched : List Choice) :
    ∃ g', Sound fs W total closed (exec fs s sched) g' := by
  induction sched generalizing s g with
  | nil => exact ⟨g, h⟩
  | cons c sched ih =>
    obtain ⟨g', h'⟩ := h.step c
    exact ih h'

theorem Sound.drained {fs : FileSystem} {W total closed : Nat} {s : State} {g : Ghost}
    (h : Sound fs W total closed s g) (hfin : s.finished) :
    s.directoryTop = [] ∧ g.stack = [] ∧ ∀ es ∈ g.held, es = [] := by
  have hex : ∃ w ∈ s.workers, w.pc = Pc.exited := by
    have hlen := h.shape.length
    have hpos := h.shape.pos
    cases hws : s.workers with
    | nil => rw [hws] at hlen; simp at hlen; omega
    | cons w ws => exact ⟨w, List.mem_cons_self _ _, hfin w (by rw [hws]; exact List.mem_cons_self _ _)⟩
  have hstack := (h.shape.afterExit hex).1
  refine ⟨hstack, ?_, ?_⟩
  · have := h.linked.stack
    rw [hstack] at this
    exact List.forall₂_nil_left_iff.mp this
  · intro es hes
    obtain ⟨i, hi⟩ := List.get?_of_mem hes
    have hflip := h.linked.held.flip
    obtain ⟨w, hw, hheld⟩ := forall₂_get hflip hi
    exact Held.of_not_scanning hheld (by rw [hfin w (mem_of_get? hw)]; simp)

/-- Once every thread has exited, the totals of the threads add up to all the
blocks there were to report. -/
theorem Sound.total_of_finished {fs : FileSystem} {W total closed : Nat} {s : State}
    {g : Ghost} (h : Sound fs W total closed s g) (hfin : s.finished) :
    totalOf s.workers = total := by
  obtain ⟨_, hgs, hheld⟩ := h.drained hfin
  have h0 : (g.held.map FsNode.countedList).sum = 0 := by
    apply List.sum_eq_zero
    intro x hx
    obtain ⟨es, hes, rfl⟩ := List.mem_map.mp hx
    rw [hheld es hes]
    simp [FsNode.countedList]
  have := h.sum
  simp only [Ghost.pending, hgs, List.map_nil, List.sum_nil, h0] at this
  omega

/-- Once every thread has exited, the exit value tells whether there was a
closed directory to find, in a pool of one thread and in a tree without closed
directories. -/
theorem Sound.exitval_of_finished {fs : FileSystem} {W total closed : Nat} {s : State}
    {g : Ghost} (h : Sound fs W total closed s g) (hc : closed = 0 ∨ W = 1)
    (hfin : s.finished) :
    s.exitval = if closed = 0 then EXIT_SUCCESS else EXIT_FAILURE := by
  obtain ⟨_, hgs, hheld⟩ := h.drained hfin
  have h0 : (g.held.map FsNode.closedCountList).sum = 0 := by
    apply List.sum_eq_zero
    intro x hx
    obtain ⟨es, hes, rfl⟩ := List.mem_map.mp hx
    rw [hheld es hes]
    simp [FsNode.closedCountList]
  have hseen := h.found
  simp only [Ghost.closedAhead, hgs, List.map_nil, List.sum_nil, h0] at hseen
  have hne : ¬ ∀ w ∈ s.workers, w.pc = Pc.start := by
    intro hall
    have hlen := h.shape.length
    have hpos := h.shape.pos
    cases hws : s.workers with
    | nil => rw [hws] at hlen; simp at hlen; omega
    | cons w ws =>
      have h1 := hfin w (by rw [hws]; exact List.mem_cons_self _ _)
      have h2 := hall w (by rw [hws]; exact List.mem_cons_self _ _)
      rw [h1] at h2
      exact absurd h2 (by simp)
  rcases (h.flag hc).1 with hall | ⟨e1, e2⟩ | ⟨e1, e2⟩
  · exact absurd hall hne
  · rw [e1, if_neg (by omega)]
  · rw [e1, if_pos (by omega)]

/-- From every state of a sound pool the threads can run to the end without a
spurious wake-up. -/
theorem Sound.complete {fs : FileSystem} {W total closed : Nat} (n : Nat) :
    ∀ {s : State} {g : Ghost}, Sound fs W total closed s g → measure W s g ≤ n →
      ∃ sched : List Choice, (∀ c ∈ sched, ∃ t, t < W ∧ c = Choice.run t 0) ∧
        (Mdu.exec fs s sched).finished := by
  induction n with
  | zero =>
    intro s g h hn
    rcases h.shape.live with ⟨w, hw, hact⟩ | hall
    · exfalso
      have : weight W w.pc ≤ (s.workers.map (fun w => weight W w.pc)).sum :=
        List.single_le_sum (by simp) _ (List.mem_map.mpr ⟨w, hw, rfl⟩)
      have hpos : 0 < weight W w.pc := by
        revert hact
        generalize w.pc = pc
        cases pc <;> simp [Pc.active, weight]
      simp only [measure] at hn
      omega
    · exact ⟨[], by simp, hall⟩
  | succ n ih =>
    intro s g h hn
    rcases h.shape.live with ⟨w, hw, hact⟩ | hall
    · obtain ⟨t, ht⟩ := exists_get?_of_mem hw
      have htW : t < W := by
        rw [← h.shape.length]
        exact (List.get?_eq_some.mp ht).1
      have hm := searchDirectoryParallel_move fs s t 0 w
        (h.shape.registry.ne_nil h.shape.pos) ht hact
      have hstep : Mdu.step fs s (Choice.run t 0) = searchDirectoryParallel fs s t 0 w := by
        have ht' : s.workers[t]? = some w := by simpa using ht
        simp [Mdu.step, h.running, ht']
      obtain ⟨g', hsound, h4⟩ := h.progress hm
      obtain ⟨sched, hs1, hs2⟩ := ih hsound (by omega)
      refine ⟨Choice.run t 0 :: sched, ?_, ?_⟩
      · intro c hc
        rcases List.mem_cons.mp hc with rfl | hc
        · exact ⟨t, htW, rfl⟩
        · exact hs1 c hc
      · simp only [Mdu.exec, List.foldl_cons, hstep]
        exact hs2
    · exact ⟨[], by simp, hall⟩

theorem joinFrom_eq (K : Int) (hK : 1 ≤ K) (ws : List Worker) (hlen : ws.length = K.toNat)
    (hfin : ∀ w ∈ ws, w.pc = Pc.exited) (n : Nat) :
    ∀ (bound : Nat) (idx : Int) (acc joined : Nat), 0 ≤ idx → idx + n = K → 1 ≤ n →
      n ≤ bound → joinFrom K ws bound idx acc joined =
        some (acc + totalOf (ws.drop idx.toNat), joined + n) := by
  induction n with
  | zero => intro _ _ _ _ _ _ h; omega
  | succ n ih =>
    intro bound idx acc joined hidx0 hidx _ hb
    cases bound with
    | zero => omega
    | succ b =>
      have hle : idx ≤ K := by omega
      have hK0 : K ≠ 0 := by omega
      have hlt : idx.toNat < ws.length := by omega
      have hget : ws.get? idx.toNat = some (ws.get ⟨idx.toNat, hlt⟩) := List.get?_eq_get hlt
      have hex := hfin _ (mem_of_get? hget)
      have hdrop : ws.drop idx.toNat = ws.get ⟨idx.toNat, hlt⟩ :: ws.drop (idx.toNat + 1) := by
        rw [List.drop_eq_getElem_cons hlt]; rfl
      unfold joinFrom
      simp only [hle, if_true, hget, hex, hK0, or_false]
      by_cases hn : n = 0
      · subst hn
        have h1 : idx = K - 1 := by omega
        have h2 : ws.drop (idx.toNat + 1) = [] := by
          apply List.drop_eq_nil_of_le; omega
        rw [if_pos h1, hdrop, h2]
        simp [totalOf]
      · have hne : idx ≠ K - 1 := by omega
        simp only [hne, if_false]
        rw [ih b (idx + 1) _ _ (by omega) (by omega) (by omega) (by omega), hdrop]
        have : (idx + 1).toNat = idx.toNat + 1 := by omega
        rw [this]
        simp only [totalOf, List.map_cons, List.sum_cons, Option.some.injEq, Prod.mk.injEq]
        omega

/-- Once every thread has exited, the join loop joins each of them once and
returns the sum of their totals. -/
theorem joinLoop_eq (K : Int) (hK : 0 ≤ K) (ws : List Worker)
    (hlen : ws.length = workerCount K) (hfin : ∀ w ∈ ws, w.pc = Pc.exited) :
    joinLoop K ws = some (totalOf ws, workerCount K) := by
  unfold joinLoop
  by_cases h0 : K = 0
  · subst h0
    have h1 : workerCount 0 = 1 := by simp [workerCount]
    rw [h1] at hlen ⊢
    obtain ⟨w, rfl⟩ := List.length_eq_one.mp hlen
    have := hfin w (List.mem_singleton_self w)
    simp [joinFrom, this, totalOf]
  · have h1 : 1 ≤ K := by omega
    have hW : workerCount K = K.toNat := by
      unfold workerCount; rw [max_eq_left h1]
    rw [hW] at hlen ⊢
    rw [joinFrom_eq K h1 ws hlen hfin K.toNat _ 0 0 0 (by omega) (by omega) (by omega)
      (by omega)]
    simp

theorem held_fresh (fs : FileSystem) (W : Nat) (l : List Nat) :
    List.Forall₂ (Held fs) (l.map (freshWorker W)) (l.map (fun _ => [])) := by
  induction l with
  | nil => exact List.Forall₂.nil
  | cons a l ih => exact List.Forall₂.cons rfl ih

/-- The pool is sound when the threads of a directory target are created, with
the blocks inside the target to report. -/
theorem Sound.spawn (fs : FileSystem) (g : Globals) (K : Int) (hK : 0 ≤ K) (file : String)
    (node : FsNode) (hreg : RegShape (workerCount K) g.waitStatusTop)
    (hstack : g.directoryTop = []) (hshow : Shows fs file node)
    (hopen : node.isOpenDir = true) :
    Sound fs (workerCount K) node.inside node.closedInside (spawnState g K file)
      { stack := [node], held := (List.range (workerCount K)).map (fun _ => []), seen := 0 } := by
  have hstart : ∀ w ∈ (spawnState g K file).workers, w.pc = Pc.start := by
    intro w hw
    simp only [spawnState, spawnLoop_eq K hK, List.mem_map] at hw
    obtain ⟨j, _, rfl⟩ := hw
    rfl
  have hsum : ∀ f : List (String × FsNode) → Nat, f [] = 0 →
      (((List.range (workerCount K)).map
        (fun _ => ([] : List (String × FsNode)))).map f).sum = 0 := by
    intro f hf
    apply List.sum_eq_zero
    intro x hx
    simp only [List.map_map, List.mem_map] at hx
    obtain ⟨j, _, rfl⟩ := hx
    exact hf
  refine ⟨Shape.initial g K hK file hreg, ⟨?_, ?_⟩, rfl, ?_, ?_, fun _ => ⟨Or.inl hstart, Or.inl rfl⟩⟩
  · simp only [spawnState, addDirectory, hstack]
    exact List.Forall₂.cons ⟨hshow, hopen⟩ List.Forall₂.nil
  · simp only [spawnState, spawnLoop_eq K hK]
    exact held_fresh fs _ _
  · have h1 : totalOf (spawnState g K file).workers = 0 := by
      apply List.sum_eq_zero
      intro x hx
      obtain ⟨w, hw, rfl⟩ := List.mem_map.mp hx
      simp only [spawnState, spawnLoop_eq K hK, List.mem_map] at hw
      obtain ⟨j, _, rfl⟩ := hw
      rfl
    simp only [Ghost.pending, h1, hsum FsNode.countedList (by simp [FsNode.countedList]),
      List.map_cons, List.map_nil, List.sum_cons, List.sum_nil]
    omega
  · simp only [Ghost.closedAhead,
      hsum FsNode.closedCountList (by simp [FsNode.closedCountList]),
      List.map_cons, List.map_nil, List.sum_cons, List.sum_nil]
    omega

theorem counted_openDir {node : FsNode} (h : node.isOpenDir = true) :
    node.counted = node.own + node.inside := by
  cases node with
  | file b => simp [FsNode.isOpenDir] at h
  | dir b o es =>
    cases o with
    | false => simp [FsNode.isOpenDir] at h
    | true => simp [FsNode.counted, FsNode.own, FsNode.inside]

theorem isDir_openDir {node : FsNode} (h : node.isOpenDir = true) : node.isDir = true := by
  cases node with
  | file b => simp [FsNode.isOpenDir] at h
  | dir b o es => rfl

/-- A directory target whose pool runs to the end: the engine prints the
counted blocks of the target and goes on to the next target with an empty
stack and a registry of the same shape. With one thread, or without closed
directories under the target, the exit value it goes on with tells whether a
closed directory was found. -/
theorem targetLoop_dir (fs : FileSystem) (K : Int) (hK : 0 ≤ K) (sched : Nat → List Choice)
    (file : String) (files : List String) (index : Nat) (g : Globals)
    (lines : List (Nat × String)) (node : FsNode)
    (hreg : RegShape (workerCount K) g.waitStatusTop) (hstack : g.directoryTop = [])
    (hshow : Shows fs file node) (hopen : node.isOpenDir = true)
    (hfin : (exec fs (spawnState g K file) (sched index)).finished) :
    targetLoop fs K sched (file :: files) index g lines =
      targetLoop fs K sched files (index + 1)
        { directoryTop := []
          waitStatusTop := (exec fs (spawnState g K file) (sched index)).waitStatusTop
          exitval := (exec fs (spawnState g K file) (sched index)).exitval }
        (lines ++ [(node.counted, file)]) ∧
      RegShape (workerCount K) (exec fs (spawnState g K file) (sched index)).waitStatusTop ∧
      (node.closedInside = 0 ∨ workerCount K = 1 →
        (exec fs (spawnState g K file) (sched index)).exitval =
          if node.closedInside = 0 then EXIT_SUCCESS else EXIT_FAILURE) := by
  have h0 := Sound.spawn fs g K hK file node hreg hstack hshow hopen
  obtain ⟨g', h⟩ := h0.exec (sched index)
  have htotal := h.total_of_finished hfin
  have hjoin := joinLoop_eq K hK _ h.shape.length hfin
  have hempty := (h.drained hfin).1
  refine ⟨?_, h.shape.registry, fun hc => h.exitval_of_finished hc hfin⟩
  rw [targetLoop, hshow.lstat]
  simp only [S_ISDIR, isDir_openDir hopen, if_true, h.running, hjoin, htotal, hempty,
    counted_openDir hopen]

theorem step_of_finished (fs : FileSystem) (s : State) (c : Choice) (h : s.finished) :
    step fs s c = s := by
  unfold step
  split
  · cases c with
    | run t pick =>
      simp only
      cases hw : s.workers.get? t with
      | none => simp only [List.get?_eq_getElem?] at hw; simp [hw]
      | some w =>
        have hpc := h w (mem_of_get? hw)
        simp only [List.get?_eq_getElem?] at hw
        simp only [hw]
        exact searchDirectoryParallel_inactive fs s t pick w (by rw [hpc]; rfl)
    | spurious t =>
      simp only
      cases hw : s.workers.get? t with
      | none => simp only [List.get?_eq_getElem?] at hw; simp [hw]
      | some w =>
        have hpc := h w (mem_of_get? hw)
        have hwake : wake w = w := wake_of_not_waiting (by rw [hpc]; simp)
        have hset := set_get_self hw
        simp only [List.get?_eq_getElem?] at hw
        simp only [hw, hwake, hset]
  · rfl

theorem exec_of_finished (fs : FileSystem) (s : State) (sched : List Choice)
    (h : s.finished) : exec fs s sched = s := by
  induction sched with
  | nil => rfl
  | cons c sched ih =>
    simp only [exec, List.foldl_cons, step_of_finished fs s c h]
    exact ih

theorem exec_append (fs : FileSystem) (s : State) (a b : List Choice) :
    exec fs s (a ++ b) = exec fs (exec fs s a) b := by
  simp [exec, List.foldl_append]

/-- A pool of one thread runs to the end when thread 0 is given enough steps. -/
theorem Sound.solo {fs : FileSystem} {total closed : Nat} {s : State} {g : Ghost}
    (h : Sound fs 1 total closed s g) :
    ∃ n, ∀ fuel, n ≤ fuel → (Mdu.exec fs s (List.replicate fuel (Choice.run 0 0))).finished := by
  obtain ⟨sched, hs, hfin⟩ := Sound.complete (measure 1 s g) h (le_refl _)
  have hrep : sched = List.replicate sched.length (Choice.run 0 0) := by
    apply List.eq_replicate_iff.mpr
    refine ⟨rfl, ?_⟩
    intro c hc
    obtain ⟨t, ht, rfl⟩ := hs c hc
    have : t = 0 := by omega
    rw [this]
  refine ⟨sched.length, ?_⟩
  intro fuel hle
  have hsplit : List.replicate fuel (Choice.run 0 0) =
      List.replicate sched.length (Choice.run 0 0) ++
        List.replicate (fuel - sched.length) (Choice.run 0 0) := by
    rw [List.append_replicate_replicate]
    congr 1
    omega
  rw [hsplit, exec_append, ← hrep, exec_of_finished fs _ _ hfin]
  exact hfin

mutual
theorem counted_of_allOpenable : ∀ node : FsNode, node.allOpenable = true →
    node.counted = node.allBlocks ∧ node.closedCount = 0
  | FsNode.file _, _ => ⟨rfl, rfl⟩
  | FsNode.dir b o es, h => by
    simp only [FsNode.allOpenable, Bool.and_eq_true] at h
    obtain ⟨ho, hes⟩ := h
    obtain ⟨h1, h2⟩ := countedList_of_allOpenable es hes
    simp [FsNode.counted, FsNode.allBlocks, FsNode.closedCount, ho, h1, h2]
theorem countedList_of_allOpenable : ∀ es : List (String × FsNode),
    FsNode.allOpenableList es = true →
    FsNode.countedList es = FsNode.allBlocksList es ∧ FsNode.closedCountList es = 0
  | [], _ => ⟨rfl, rfl⟩
  | (_, node) :: es, h => by
    simp only [FsNode.allOpenableList, Bool.and_eq_true] at h
    obtain ⟨hn, hes⟩ := h
    obtain ⟨h1, h2⟩ := counted_of_allOpenable node hn
    obtain ⟨h3, h4⟩ := countedList_of_allOpenable es hes
    simp [FsNode.countedList, FsNode.allBlocksList, FsNode.closedCountList, h1, h2, h3, h4]
end

theorem workerCount_one {K : Int} (h : K = 0 ∨ K = 1) : workerCount K = 1 := by
  rcases h with rfl | rfl <;> simp [workerCount]

/-- The parallel engine with one thread on a single directory target that can be
opened: given enough steps it prints the counted blocks of the target, and its
exit value tells whether some directory under the target could not be opened. -/
theorem parallel_single (fs : FileSystem) (target : String) (node : FsNode) (K : Int)
    (hK : K = 0 ∨ K = 1) (hshow : Shows fs target node) (hopen : node.isOpenDir = true) :
    ∃ n, ∀ fuel, n ≤ fuel →
      calculateSizeOnDiskParallel fs [target] K (solo fuel) =
        Outcome.returned [(node.counted, target)]
          (if node.closedInside = 0 then EXIT_SUCCESS else EXIT_FAILURE) := by
  have hK0 : 0 ≤ K := by rcases hK with rfl | rfl <;> omega
  have hW := workerCount_one hK
  have hreg := registerLoop_shape K hK0
  have h0 := Sound.spawn fs (initialGlobals K) K hK0 target node hreg rfl hshow hopen
  rw [hW] at h0
  obtain ⟨n, hn⟩ := h0.solo
  refine ⟨n, ?_⟩
  intro fuel hle
  have hfin := hn fuel hle
  obtain ⟨h1, _, h3⟩ := targetLoop_dir fs K hK0 (solo fuel) target [] 0 (initialGlobals K)
    [] node hreg rfl hshow hopen hfin
  unfold calculateSizeOnDiskParallel
  rw [h1, targetLoop, h3 (Or.inr hW)]
  rfl

theorem isOpenDir_of_allOpenable {node : FsNode} (hdir : node.isDir = true)
    (hopen : node.allOpenable = true) : node.isOpenDir = true := by
  cases node with
  | file b => simp [FsNode.isDir] at hdir
  | dir b o es =>
    simp only [FsNode.allOpenable, Bool.and_eq_true] at hopen
    rw [hopen.1]
    rfl

theorem closedInside_of_allOpenable {node : FsNode} (hopen : node.allOpenable = true) :
    node.closedInside = 0 := by
  cases node with
  | file b => rfl
  | dir b o es =>
    have := (counted_of_allOpenable _ hopen).2
    simp only [FsNode.allOpenable, Bool.and_eq_true] at hopen
    rw [hopen.1] at this ⊢
    simpa [FsNode.closedCount, FsNode.closedInside] using this

/-- C1: for every finite directory tree in which every directory can be opened
and every entry can be probed, the parallel engine run with one worker
(requested thread count 0 or 1) on the directory target prints, once the worker
has been given enough steps, the target's own block count plus the block counts
of every entry recursively reachable under it, and returns success. -/
theorem C1_parallel_one_worker_total (fs : FileSystem) (target : String) (node : FsNode)
    (K : Int) (hK : K = 0 ∨ K = 1) (hshow : Shows fs target node)
    (hdir : node.isDir = true) (hopen : node.allOpenable = true) :
    ∃ n, ∀ fuel, n ≤ fuel →
      calculateSizeOnDiskParallel fs [target] K (solo fuel) =
        Outcome.returned [(node.allBlocks, target)] EXIT_SUCCESS := by
  obtain ⟨n, hn⟩ := parallel_single fs target node K hK hshow
    (isOpenDir_of_allOpenable hdir hopen)
  refine ⟨n, fun fuel hle => ?_⟩
  rw [hn fuel hle, (counted_of_allOpenable node hopen).1,
    if_pos (closedInside_of_allOpenable hopen)]

/-- Witness of C1: the example tree `a` = {`f`: 8, `b` (8) = {`g`: 16}} with own
block count 0 meets the hypotheses, so the reported count is 32; nine steps of
the worker are enough. -/
theorem C1_parallel_one_worker_total_witness :
    Shows exampleFs "a" exampleTree ∧
    (∃ n, ∀ fuel, n ≤ fuel →
      calculateSizeOnDiskParallel exampleFs ["a"] 1 (solo fuel) =
        Outcome.returned [(32, "a")] EXIT_SUCCESS) ∧
    calculateSizeOnDiskParallel exampleFs ["a"] 1 (solo 9) =
      Outcome.returned [(32, "a")] EXIT_SUCCESS :=
  ⟨by simp [Shows, ShowsList, exampleTree, exampleFs, notDotEntry],
    C1_parallel_one_worker_total exampleFs "a" exampleTree 1 (Or.inr rfl)
      (by simp [Shows, ShowsList, exampleTree, exampleFs, notDotEntry]) rfl rfl,
    by decide⟩

/-- C2, failing input: the target `a` (own 8 blocks) whose only entry is the
empty directory `e`, which can be opened but not entered (read permission
without search permission). The root can be opened and every entry can be
probed. The sequential engine reports nothing: the model needs depth 2 to
reach `e`, and from depth 2 on the engine ends the process at the `chdir` into
`e`, before any line is printed. The parallel engine with one worker reports 8
blocks for `a` and returns success, for every number of steps from some number
on. -/
theorem C2_sequential_exits_where_parallel_reports :
    Shows lockedFs "a" lockedTree ∧
    calculateSizeOnDiskRecursive lockedFs ["a"] 0 = Outcome.blocked [] ∧
    calculateSizeOnDiskRecursive lockedFs ["a"] 1 = Outcome.blocked [] ∧
    (∀ depth, calculateSizeOnDiskRecursive lockedFs ["a"] (depth + 2) =
      Outcome.exitFailure []) ∧
    (∃ n, ∀ fuel, n ≤ fuel →
      calculateSizeOnDiskParallel lockedFs ["a"] 1 (solo fuel) =
        Outcome.returned [(8, "a")] EXIT_SUCCESS) ∧
    calculateSizeOnDiskParallel lockedFs ["a"] 1 (solo 7) =
      Outcome.returned [(8, "a")] EXIT_SUCCESS := by
  have hshow : Shows lockedFs "a" lockedTree := by
    simp [Shows, ShowsList, lockedTree, lockedFs, notDotEntry]
  refine ⟨hshow, by decide, by decide, ?_,
    parallel_single lockedFs "a" lockedTree 1 (Or.inr rfl) hshow rfl, by decide⟩
  intro depth
  rfl

theorem exited_at {ws ws' : List Worker} {t₀ t : Nat} {w₀ w₁ w w' : Worker}
    (hwoke : Woke (ws.set t₀ w₁) ws') (h₀ : ws.get? t₀ = some w₀) (hw : ws.get? t = some w)
    (hw' : ws'.get? t = some w') (hne : w.pc ≠ Pc.exited) (hex : w'.pc = Pc.exited) :
    t = t₀ ∧ w = w₀ ∧ w₁.pc = Pc.exited := by
  rcases hwoke.get_set hw' with ⟨rfl, hor⟩ | ⟨_, v, hv, hor⟩
  · rw [h₀] at hw
    injection hw with hw
    refine ⟨rfl, hw.symm, ?_⟩
    rcases hor with rfl | rfl
    · exact hex
    · exact (wake_exited w₁).mp hex
  · rw [hw] at hv
    injection hv with hv
    subst hv
    exfalso
    rcases hor with rfl | rfl
    · exact hne hex
    · exact hne ((wake_exited _).mp hex)

/-- A thread passes to `exited` only in the move that finds the stack empty and
the idle count equal to the thread amount. -/
theorem Move.exit_moment {fs : FileSystem} {s s' : State} {b : Bool} (hm : Move fs s b s')
    {t : Nat} {w w' : Worker} (hw : s.workers.get? t = some w)
    (hw' : s'.workers.get? t = some w') (hne : w.pc ≠ Pc.exited) (hex : w'.pc = Pc.exited) :
    s.directoryTop = [] ∧
      s'.waitStatusTop = s.waitStatusTop.map (setIfThread w.threadNumber 1) ∧
      (idleCount s'.waitStatusTop : Int) = w.threadAmount ∧
      s'.broadcasts = s.broadcasts + 1 ∧ w.pc = Pc.loop := by
  cases hm with
  | stay =>
    rw [hw] at hw'
    injection hw' with hw'
    subst hw'
    exact absurd hex hne
  | wakeup t₀ w₀ h₀ =>
    have hwoke : Woke (s.workers.set t₀ w₀) (s.workers.set t₀ (wake w₀)) := by
      rw [set_get_self h₀]; exact Woke.set_wake _ t₀ w₀ h₀
    obtain ⟨_, rfl, h3⟩ := exited_at hwoke h₀ hw hw' hne hex
    exact absurd h3 hne
  | start t₀ w₀ h₀ hpc =>
    obtain ⟨_, _, h3⟩ := exited_at (Woke.refl _) h₀ hw hw' hne hex
    simp at h3
  | leave t₀ w₀ h₀ hpc hstack hcount =>
    obtain ⟨_, rfl, _⟩ := exited_at (Woke.wakeAll _) h₀ hw hw' hne hex
    exact ⟨hstack, rfl, hcount, rfl, hpc⟩
  | block t₀ w₀ h₀ hpc hstack hcount =>
    obtain ⟨_, _, h3⟩ := exited_at (Woke.refl _) h₀ hw hw' hne hex
    simp at h3
  | take t₀ w₀ directory next names h₀ hpc hstack hopen =>
    obtain ⟨_, _, h3⟩ := exited_at (Woke.refl _) h₀ hw hw' hne hex
    simp at h3
  | takeFail t₀ w₀ directory next h₀ hpc hstack hopen =>
    rw [hw] at hw'
    injection hw' with hw'
    subst hw'
    exact absurd hex hne
  | finish t₀ w₀ directory h₀ hpc =>
    obtain ⟨_, _, h3⟩ := exited_at (Woke.refl _) h₀ hw hw' hne hex
    simp at h3
  | probeFail t₀ w₀ directory d_name entries h₀ hpc hstat =>
    rw [hw] at hw'
    injection hw' with hw'
    subst hw'
    exact absurd hex hne
  | plain t₀ w₀ directory d_name entries fileStat h₀ hpc hstat hdir =>
    obtain ⟨_, _, h3⟩ := exited_at (Woke.refl _) h₀ hw hw' hne hex
    simp at h3
  | closed t₀ w₀ directory d_name entries fileStat h₀ hpc hstat hdir hopen =>
    obtain ⟨_, _, h3⟩ := exited_at (Woke.refl _) h₀ hw hw' hne hex
    simp at h3
  | push t₀ pick w₀ directory d_name entries names fileStat h₀ hpc hstat hdir hopen =>
    obtain ⟨_, _, h3⟩ := exited_at (Woke.wakeOne _ pick) h₀ hw hw' hne hex
    simp at h3

/-- Once every thread is marked idle and the stack is empty, no move pushes a directory. -/
theorem Move.stack_stays_empty {fs : FileSystem} {W : Nat} {s s' : State} {b : Bool}
    (hm : Move fs s b s') (h : Shape W s) (hstack : s.directoryTop = [])
    (hidle : ∀ e ∈ s.waitStatusTop, InRange W e → e.status = 1) : s'.directoryTop = [] := by
  cases hm with
  | take t w directory next names hw hpc hs hopen => rw [hstack] at hs; exact absurd hs (by simp)
  | takeFail t w directory next hw hpc hs hopen => rw [hstack] at hs; exact absurd hs (by simp)
  | push t pick w directory d_name entries names fileStat hw hpc hstat hdir hopen =>
    exact (h.no_scanning hidle hw hpc).elim
  | _ => exact hstack

theorem Shape.none_scanning {W : Nat} {s : State} (h : Shape W s)
    (hidle : ∀ e ∈ s.waitStatusTop, InRange W e → e.status = 1) :
    ∀ v ∈ s.workers, ∀ d es, v.pc ≠ Pc.scanning d es := by
  intro v hv d es hpc
  obtain ⟨i, hi⟩ := exists_get?_of_mem hv
  exact h.no_scanning hidle hi hpc

/-- C3: in every execution of one directory-target run, for every requested
thread count `K ≥ 0` (so every worker count `max(K,1) ≥ 1`), every schedule and
every next scheduler choice: a worker passes to `exited` only in a step that,
under the lock, finds the directory stack empty and, after marking itself idle,
counts an idle count equal to its participant count, which is the number of
workers; at that moment no worker holds a popped directory; and once some
worker has exited the stack is empty, no worker holds a directory and the next
step leaves the stack empty, so that no push follows an exit. -/
theorem C3_exit_only_at_quiescence (fs : FileSystem) (K : Int) (hK : 0 ≤ K) (g : Globals)
    (hreg : RegShape (workerCount K) g.waitStatusTop) (file : String)
    (sched : List Choice) (c : Choice) :
    (∀ t w w', (exec fs (spawnState g K file) sched).workers.get? t = some w →
      (step fs (exec fs (spawnState g K file) sched) c).workers.get? t = some w' →
      w.pc ≠ Pc.exited → w'.pc = Pc.exited →
        (exec fs (spawnState g K file) sched).directoryTop = [] ∧
        checkWaitStatuses (step fs (exec fs (spawnState g K file) sched) c).waitStatusTop =
          some w.threadAmount ∧
        w.threadAmount = (workerCount K : Int) ∧
        ∀ v ∈ (exec fs (spawnState g K file) sched).workers, ∀ d es,
          v.pc ≠ Pc.scanning d es) ∧
    ((∃ w ∈ (exec fs (spawnState g K file) sched).workers, w.pc = Pc.exited) →
      (exec fs (spawnState g K file) sched).directoryTop = [] ∧
      (∀ v ∈ (exec fs (spawnState g K file) sched).workers, ∀ d es,
        v.pc ≠ Pc.scanning d es) ∧
      (step fs (exec fs (spawnState g K file) sched) c).directoryTop = []) := by
  have h : Shape (workerCount K) (exec fs (spawnState g K file) sched) :=
    (Shape.initial g K hK file hreg).keepExec sched
  have h' : Shape (workerCount K) (step fs (exec fs (spawnState g K file) sched) c) :=
    h.keepStep c
  obtain ⟨b, hm⟩ := step_move fs _ c (h.registry.ne_nil h.pos)
  constructor
  · intro t w w' hw hw' hne hex
    obtain ⟨h1, h2, h3, _, hloop⟩ := hm.exit_moment hw hw' hne hex
    have hidle' := (h'.afterExit ⟨w', mem_of_get? hw', hex⟩).2
    refine ⟨h1, ?_, h.amount t w hw, ?_⟩
    · rw [checkWaitStatuses_eq _ (h'.registry.ne_nil h'.pos), h3]
    · intro v hv d es hpc
      obtain ⟨i, hi⟩ := exists_get?_of_mem hv
      have hit : i ≠ t := by
        intro hit
        rw [hit, hw] at hi
        injection hi with hi
        subst hi
        rw [hloop] at hpc
        exact absurd hpc (by simp)
      have hlt : i < workerCount K := by
        rw [← h.length]; exact (List.get?_eq_some.mp hi).1
      have hlt' : i < (step fs (exec fs (spawnState g K file) sched) c).workers.length := by
        rw [h'.length]; exact hlt
      have hget' := List.get?_eq_get hlt'
      obtain ⟨e, he, hnum⟩ := h.registry.covers i hlt
      have hc := h.compat e he i v hi hnum
      rw [hpc] at hc
      have he' : e ∈ (step fs (exec fs (spawnState g K file) sched) c).waitStatusTop := by
        rw [h2]
        refine List.mem_map.mpr ⟨e, he, setIfThread_of_ne ?_⟩
        rw [hnum, h.number t w hw]
        intro hh
        exact hit (by exact_mod_cast hh)
      have h1' := hidle' e he' (by unfold InRange; rw [hnum]; omega)
      have : e.status = 0 := hc
      omega
  · intro hex
    obtain ⟨h1, h2⟩ := h.afterExit hex
    exact ⟨h1, h.none_scanning h2, hm.stack_stays_empty h h1 h2⟩

/-- Witness of C3: two workers on the example tree. After `exampleSchedule`
thread 0 is at the loop test and thread 1 is blocked; the next step of thread 0
is its exit, taken with the stack empty, an idle count of 2 and no thread
scanning; after it the stack is empty, nobody scans, and the step of thread 1
that follows leaves the stack empty. -/
theorem C3_exit_only_at_quiescence_witness :
    (0 : Int) ≤ 2 ∧ RegShape (workerCount 2) (initialGlobals 2).waitStatusTop ∧
    ((exec exampleFs (spawnState (initialGlobals 2) 2 "a") exampleSchedule).directoryTop = [] ∧
      checkWaitStatuses (step exampleFs
        (exec exampleFs (spawnState (initialGlobals 2) 2 "a") exampleSchedule)
        (Choice.run 0 0)).waitStatusTop = some 2 ∧
      (2 : Int) = (workerCount 2 : Int) ∧
      ∀ v ∈ (exec exampleFs (spawnState (initialGlobals 2) 2 "a") exampleSchedule).workers,
        ∀ d es, v.pc ≠ Pc.scanning d es) ∧
    ((exec exampleFs (spawnState (initialGlobals 2) 2 "a")
        (exampleSchedule ++ [Choice.run 0 0])).directoryTop = [] ∧
      (∀ v ∈ (exec exampleFs (spawnState (initialGlobals 2) 2 "a")
          (exampleSchedule ++ [Choice.run 0 0])).workers, ∀ d es, v.pc ≠ Pc.scanning d es) ∧
      (step exampleFs (exec exampleFs (spawnState (initialGlobals 2) 2 "a")
        (exampleSchedule ++ [Choice.run 0 0])) (Choice.run 1 0)).directoryTop = []) :=
  ⟨by decide, registerLoop_shape 2 (by decide),
    (C3_exit_only_at_quiescence exampleFs 2 (by decide) (initialGlobals 2)
      (registerLoop_shape 2 (by decide)) "a" exampleSchedule (Choice.run 0 0)).1 0
      { threadNumber := 0, threadAmount := 2, pc := Pc.loop, totalBlockAmount := 16 }
      { threadNumber := 0, threadAmount := 2, pc := Pc.exited, totalBlockAmount := 16 }
      (by decide) (by decide) (by decide) rfl,
    (C3_exit_only_at_quiescence exampleFs 2 (by decide) (initialGlobals 2)
      (registerLoop_shape 2 (by decide)) "a" (exampleSchedule ++ [Choice.run 0 0])
      (Choice.run 1 0)).2
      ⟨{ threadNumber := 0, threadAmount := 2, pc := Pc.exited, totalBlockAmount := 16 },
        by decide, rfl⟩⟩

/-- C4, as stated, fails: with two workers on the example tree, thread 0 takes
the branch `waitCount == threadAmount` and broadcasts; thread 1, woken by that
broadcast, is back at the loop test, and its next step takes the same branch
and broadcasts again: both workers have detected quiescence and two broadcasts
were issued. -/
theorem C4_counterexample :
    (exec exampleFs (spawnState (initialGlobals 2) 2 "a")
      (exampleSchedule ++ [Choice.run 0 0])).workers.map Worker.pc = [Pc.exited, Pc.loop] ∧
    (exec exampleFs (spawnState (initialGlobals 2) 2 "a")
      (exampleSchedule ++ [Choice.run 0 0])).broadcasts = 1 ∧
    (exec exampleFs (spawnState (initialGlobals 2) 2 "a")
      (exampleSchedule ++ [Choice.run 0 0, Choice.run 1 0])).workers.map Worker.pc =
        [Pc.exited, Pc.exited] ∧
    (exec exampleFs (spawnState (initialGlobals 2) 2 "a")
      (exampleSchedule ++ [Choice.run 0 0, Choice.run 1 0])).broadcasts = 2 := by
  decide

/-- C4, amended: in every run of the worker pool on one directory target with
`max(K,1)` workers, every worker that terminates does so by taking the branch
`waitCount == threadAmount` itself and issuing a broadcast: each step in which
a worker exits raises the number of broadcasts by one, at every moment the
number of broadcasts issued equals the number of workers that have exited, and
in a complete run it equals the number of workers (it is one exactly when there
is a single worker). -/
theorem C4_every_worker_detects_and_broadcasts (fs : FileSystem) (K : Int) (hK : 0 ≤ K)
    (g : Globals) (hreg : RegShape (workerCount K) g.waitStatusTop) (file : String)
    (sched : List Choice) (c : Choice) :
    (exec fs (spawnState g K file) sched).broadcasts =
      (exec fs (spawnState g K file) sched).workers.countP (fun w => w.pc = Pc.exited) ∧
    ((exec fs (spawnState g K file) sched).finished →
      (exec fs (spawnState g K file) sched).broadcasts = workerCount K) ∧
    (∀ t w w', (exec fs (spawnState g K file) sched).workers.get? t = some w →
      (step fs (exec fs (spawnState g K file) sched) c).workers.get? t = some w' →
      w.pc ≠ Pc.exited → w'.pc = Pc.exited →
      (step fs (exec fs (spawnState g K file) sched) c).broadcasts =
        (exec fs (spawnState g K file) sched).broadcasts + 1) := by
  have h : Shape (workerCount K) (exec fs (spawnState g K file) sched) :=
    (Shape.initial g K hK file hreg).keepExec sched
  obtain ⟨b, hm⟩ := step_move fs _ c (h.registry.ne_nil h.pos)
  refine ⟨h.broadcasts, ?_, ?_⟩
  · intro hfin
    rw [h.broadcasts, ← h.length, List.countP_eq_length]
    intro w hw
    simpa using hfin w hw
  · intro t w w' hw hw' hne hex
    exact (hm.exit_moment hw hw' hne hex).2.2.2.1

/-- Witness of the amended C4: two workers on the example tree; the complete
run has two broadcasts, and the exit step of thread 1 issues the second. -/
theorem C4_every_worker_detects_and_broadcasts_witness :
    (0 : Int) ≤ 2 ∧ RegShape (workerCount 2) (initialGlobals 2).waitStatusTop ∧
    (exec exampleFs (spawnState (initialGlobals 2) 2 "a")
      (exampleSchedule ++ [Choice.run 0 0, Choice.run 1 0])).broadcasts = workerCount 2 ∧
    (step exampleFs (exec exampleFs (spawnState (initialGlobals 2) 2 "a")
        (exampleSchedule ++ [Choice.run 0 0])) (Choice.run 1 0)).broadcasts =
      (exec exampleFs (spawnState (initialGlobals 2) 2 "a")
        (exampleSchedule ++ [Choice.run 0 0])).broadcasts + 1 :=
  ⟨by decide, registerLoop_shape 2 (by decide),
    (C4_every_worker_detects_and_broadcasts exampleFs 2 (by decide) (initialGlobals 2)
      (registerLoop_shape 2 (by decide)) "a"
      (exampleSchedule ++ [Choice.run 0 0, Choice.run 1 0]) (Choice.run 0 0)).2.1
      (by unfold State.finished; decide),
    (C4_every_worker_detects_and_broadcasts exampleFs 2 (by decide) (initialGlobals 2)
      (registerLoop_shape 2 (by decide)) "a" (exampleSchedule ++ [Choice.run 0 0])
      (Choice.run 1 0)).2.2 1
      { threadNumber := 1, threadAmount := 2, pc := Pc.loop, totalBlockAmount := 16 }
      { threadNumber := 1, threadAmount := 2, pc := Pc.exited, totalBlockAmount := 16 }
      (by decide) (by decide) (by decide) rfl⟩

theorem joinFrom_some (K : Int) (hK : 1 ≤ K) (ws : List Worker) (hlen : ws.length = K.toNat)
    (n : Nat) :
    ∀ (bound : Nat) (idx : Int) (acc joined : Nat) (r : Nat × Nat), 0 ≤ idx → idx + n = K →
      1 ≤ n → n ≤ bound → joinFrom K ws bound idx acc joined = some r →
      ∀ i w, idx.toNat ≤ i → ws.get? i = some w → w.pc = Pc.exited := by
  induction n with
  | zero => intro _ _ _ _ _ _ _ h; omega
  | succ n ih =>
    intro bound idx acc joined r hidx0 hidx _ hb hsome i w hi hw
    cases bound with
    | zero => omega
    | succ b =>
      have hle : idx ≤ K := by omega
      have hK0 : K ≠ 0 := by omega
      have hlt : idx.toNat < ws.length := by omega
      have hget : ws.get? idx.toNat = some (ws.get ⟨idx.toNat, hlt⟩) := List.get?_eq_get hlt
      unfold joinFrom at hsome
      simp only [hle, if_true, hget, hK0, or_false] at hsome
      by_cases hex : (ws.get ⟨idx.toNat, hlt⟩).pc = Pc.exited
      · simp only [hex, if_true] at hsome
        by_cases hi0 : i = idx.toNat
        · rw [hi0, hget] at hw
          injection hw with hw
          rw [← hw]; exact hex
        · have hilt : i < ws.length := (List.get?_eq_some.mp hw).1
          by_cases hn : n = 0
          · omega
          · have hne : idx ≠ K - 1 := by omega
            simp only [hne, if_false] at hsome
            exact ih b (idx + 1) _ _ r (by omega) (by omega) (by omega) (by omega) hsome i w
              (by omega) hw
      · simp only [hex, if_false] at hsome
        exact absurd hsome (by simp)

/-- The join loop returns only when every thread has exited. -/
theorem joinLoop_some (K : Int) (hK : 0 ≤ K) (ws : List Worker)
    (hlen : ws.length = workerCount K) (r : Nat × Nat) (h : joinLoop K ws = some r) :
    ∀ w ∈ ws, w.pc = Pc.exited := by
  unfold joinLoop at h
  by_cases h0 : K = 0
  · subst h0
    have h1 : workerCount 0 = 1 := by simp [workerCount]
    rw [h1] at hlen
    obtain ⟨w, rfl⟩ := List.length_eq_one.mp hlen
    intro v hv
    rw [List.mem_singleton] at hv
    subst hv
    by_contra hne
    simp [joinFrom, hne] at h
  · have h1 : 1 ≤ K := by omega
    have hW : workerCount K = K.toNat := by
      unfold workerCount; rw [max_eq_left h1]
    rw [hW] at hlen
    intro w hw
    obtain ⟨i, hi⟩ := exists_get?_of_mem hw
    exact joinFrom_some K h1 ws hlen K.toNat _ 0 0 0 r (by omega) (by omega) (by omega)
      (by omega) h i w (by omega) hi

/-- The parallel engine on a single directory target that can be opened, along
any schedule: either some thread has not exited when the schedule ends, or the
engine prints the counted blocks of the target; with one thread, or without
closed directories under the target, the exit value tells whether a closed
directory was found. -/
theorem parallel_report (fs : FileSystem) (target : String) (node : FsNode) (K : Int)
    (hK : 0 ≤ K) (hshow : Shows fs target node) (hopen : node.isOpenDir = true)
    (sched : List Choice) :
    (¬ (exec fs (spawnState (initialGlobals K) K target) sched).finished ∧
      calculateSizeOnDiskParallel fs [target] K (fun _ => sched) = Outcome.blocked []) ∨
    ((exec fs (spawnState (initialGlobals K) K target) sched).finished ∧
      ∃ e, calculateSizeOnDiskParallel fs [target] K (fun _ => sched) =
        Outcome.returned [(node.counted, target)] e ∧
        (node.closedInside = 0 ∨ workerCount K = 1 →
          e = if node.closedInside = 0 then EXIT_SUCCESS else EXIT_FAILURE)) := by
  have hreg := registerLoop_shape K hK
  have h0 := Sound.spawn fs (initialGlobals K) K hK target node hreg rfl hshow hopen
  obtain ⟨g', h⟩ := h0.exec sched
  by_cases hfin : (exec fs (spawnState (initialGlobals K) K target) sched).finished
  · right
    obtain ⟨h1, _, h3⟩ := targetLoop_dir fs K hK (fun _ => sched) target [] 0
      (initialGlobals K) [] node hreg rfl hshow hopen hfin
    refine ⟨hfin, _, ?_, h3⟩
    show targetLoop fs K (fun _ => sched) [target] 0 (initialGlobals K) [] = _
    rw [h1, targetLoop]
    rfl
  · left
    refine ⟨hfin, ?_⟩
    show targetLoop fs K (fun _ => sched) [target] 0 (initialGlobals K) [] = _
    rw [targetLoop, hshow.lstat]
    simp only [S_ISDIR, isDir_openDir hopen, if_true, h.running]
    cases hj : joinLoop K (exec fs (spawnState (initialGlobals K) K target) sched).workers with
    | none => rfl
    | some r => exact absurd (joinLoop_some K hK _ h.shape.length r hj) hfin

/-- Every schedule of the pool of a directory target that can be opened extends,
without spurious wake-ups, to one after which every thread has exited. -/
theorem parallel_completes (fs : FileSystem) (target : String) (node : FsNode) (K : Int)
    (hK : 0 ≤ K) (hshow : Shows fs target node) (hopen : node.isOpenDir = true)
    (sched : List Choice) :
    ∃ more : List Choice, (∀ c ∈ more, ∃ t, t < workerCount K ∧ c = Choice.run t 0) ∧
      (exec fs (spawnState (initialGlobals K) K target) (sched ++ more)).finished := by
  have hreg := registerLoop_shape K hK
  have h0 := Sound.spawn fs (initialGlobals K) K hK target node hreg rfl hshow hopen
  obtain ⟨g', h⟩ := h0.exec sched
  obtain ⟨more, hm, hfin⟩ := Sound.complete _ h (le_refl _)
  exact ⟨more, hm, by rw [exec_append]; exact hfin⟩

theorem exec_of_not_running (fs : FileSystem) (s : State) (sched : List Choice)
    (h : s.proc ≠ Proc.running) : exec fs s sched = s := by
  induction sched with
  | nil => rfl
  | cons c sched ih =>
    simp only [exec, List.foldl_cons, step_of_not_running fs s c h]
    exact ih

/-- C5, failing input: targets `p` (holds the directory `u` that can not be
opened) and `q` (fully readable), one worker. The run on `p` alone returns
failure, but each worker starts by storing `EXIT_SUCCESS` in the shared exit
value, so the run on `q` erases the failure and the engine returns success; the
sequential engine returns failure on the same targets. With two workers the
same reset loses the failure within the run on `p` alone, when thread 1 starts
after thread 0 has found `u`. -/
theorem C5_later_worker_resets_exit_value :
    calculateSizeOnDiskParallel twoTargetsFs ["p"] 1 (solo 5) =
      Outcome.returned [(16, "p")] EXIT_FAILURE ∧
    calculateSizeOnDiskParallel twoTargetsFs ["p", "q"] 1 (solo 5) =
      Outcome.returned [(16, "p"), (24, "q")] EXIT_SUCCESS ∧
    calculateSizeOnDiskRecursive twoTargetsFs ["p", "q"] 1 =
      Outcome.returned [(16, "p"), (24, "q")] EXIT_FAILURE ∧
    calculateSizeOnDiskParallel twoTargetsFs ["p"] 2
        (fun _ => [Choice.run 0 0, Choice.run 0 0, Choice.run 0 0, Choice.run 1 0,
          Choice.run 0 0, Choice.run 0 0, Choice.run 1 0, Choice.run 0 0]) =
      Outcome.returned [(16, "p")] EXIT_SUCCESS := by
  decide

/-- C7, failing input: targets `x` (plain file, 4 blocks) and `y` (a directory
that can not be opened, own block count 0), one worker. The line for `x` is
printed, then the worker pops `y`, `opendir` fails and the worker calls
`exit(EXIT_FAILURE)`: whatever the number of steps (two at least), the process
ends there without a line for `y`. The sequential engine prints both lines and
returns failure. -/
theorem C7_unopenable_target_ends_process :
    (∀ fuel, calculateSizeOnDiskParallel fileAndClosedFs ["x", "y"] 1 (solo (fuel + 2)) =
      Outcome.exitFailure [(4, "x")]) ∧
    calculateSizeOnDiskRecursive fileAndClosedFs ["x", "y"] 0 =
      Outcome.returned [(4, "x"), (0, "y")] EXIT_FAILURE := by
  refine ⟨?_, by decide⟩
  intro fuel
  have hsplit : solo (fuel + 2) 1 = List.replicate 2 (Choice.run 0 0) ++
      List.replicate fuel (Choice.run 0 0) := by
    simp only [solo, List.append_replicate_replicate]
    congr 1
    omega
  have hfail : (exec fileAndClosedFs (spawnState (initialGlobals 1) 1 "y")
      (List.replicate 2 (Choice.run 0 0))).proc = Proc.failed := by decide
  have hexec : exec fileAndClosedFs (spawnState (initialGlobals 1) 1 "y") (solo (fuel + 2) 1) =
      exec fileAndClosedFs (spawnState (initialGlobals 1) 1 "y")
        (List.replicate 2 (Choice.run 0 0)) := by
    rw [hsplit, exec_append, exec_of_not_running _ _ _ (by rw [hfail]; decide)]
  have h1 : fileAndClosedFs.lstat "x" = some { st_blocks := 4, isDir := false } := by decide
  have h2 : fileAndClosedFs.lstat "y" = some { st_blocks := 0, isDir := true } := by decide
  show targetLoop fileAndClosedFs 1 (solo (fuel + 2)) ["x", "y"] 0 (initialGlobals 1) [] = _
  rw [targetLoop, h1]
  simp only [S_ISDIR, Bool.false_eq_true, if_false, zero_ne_one]
  rw [targetLoop, h2]
  simp only [S_ISDIR, if_true]
  have hexec' : exec fileAndClosedFs (spawnState (initialGlobals 1) 1 "y") (solo (fuel + 2) (0 + 1)) =
      exec fileAndClosedFs (spawnState (initialGlobals 1) 1 "y")
        (List.replicate 2 (Choice.run 0 0)) := hexec
  rw [hexec', hfail]
  rfl

/-- C8: for every finite directory tree whose directories can all be opened,
every `K > 1` and every interleaving of the `K` workers (every schedule,
spurious wake-ups included): when the schedule ends either some worker has not
yet exited and nothing is printed, or the engine prints the target's own blocks
plus the blocks of every entry under it and returns success; every schedule can
be extended, by steps of workers alone, to one of the second kind; and the
report is the one the engine makes with one worker. -/
theorem C8_total_independent_of_schedule (fs : FileSystem) (target : String)
    (node : FsNode) (K : Int) (hK : 1 < K) (hshow : Shows fs target node)
    (hdir : node.isDir = true) (hopen : node.allOpenable = true) (sched : List Choice) :
    (calculateSizeOnDiskParallel fs [target] K (fun _ => sched) = Outcome.blocked [] ∨
      calculateSizeOnDiskParallel fs [target] K (fun _ => sched) =
        Outcome.returned [(node.allBlocks, target)] EXIT_SUCCESS) ∧
    (∃ more : List Choice, (∀ c ∈ more, ∃ t, c = Choice.run t 0) ∧
      calculateSizeOnDiskParallel fs [target] K (fun _ => sched ++ more) =
        Outcome.returned [(node.allBlocks, target)] EXIT_SUCCESS) ∧
    (∃ n, ∀ fuel, n ≤ fuel →
      calculateSizeOnDiskParallel fs [target] 1 (solo fuel) =
        Outcome.returned [(node.allBlocks, target)] EXIT_SUCCESS) := by
  have hK0 : 0 ≤ K := by omega
  have hod := isOpenDir_of_allOpenable hdir hopen
  have hc := closedInside_of_allOpenable hopen
  have hcount := (counted_of_allOpenable node hopen).1
  have key : ∀ sch : List Choice,
      (exec fs (spawnState (initialGlobals K) K target) sch).finished →
      calculateSizeOnDiskParallel fs [target] K (fun _ => sch) =
        Outcome.returned [(node.allBlocks, target)] EXIT_SUCCESS := by
    intro sch hfin
    rcases parallel_report fs target node K hK0 hshow hod sch with ⟨hno, _⟩ | ⟨_, e, h, he⟩
    · exact absurd hfin hno
    · rw [h, he (Or.inl hc), if_pos hc, hcount]
  refine ⟨?_, ?_, ?_⟩
  · rcases parallel_report fs target node K hK0 hshow hod sched with ⟨_, h⟩ | ⟨hfin, _⟩
    · exact Or.inl h
    · exact Or.inr (key sched hfin)
  · obtain ⟨more, hm, hfin⟩ := parallel_completes fs target node K hK0 hshow hod sched
    refine ⟨more, ?_, key _ hfin⟩
    intro c hc'
    obtain ⟨t, _, rfl⟩ := hm c hc'
    exact ⟨t, rfl⟩
  · obtain ⟨n, hn⟩ := parallel_single fs target node 1 (Or.inr rfl) hshow hod
    refine ⟨n, fun fuel hle => ?_⟩
    rw [hn fuel hle, hcount, if_pos hc]

/-- Witness of C8: two workers on the example tree; the interleaving
`exampleSchedule` followed by the two exit steps reports 32, like one worker. -/
theorem C8_total_independent_of_schedule_witness :
    (1 : Int) < 2 ∧ Shows exampleFs "a" exampleTree ∧
    (calculateSizeOnDiskParallel exampleFs ["a"] 2 (fun _ => exampleSchedule) =
        Outcome.blocked [] ∨
      calculateSizeOnDiskParallel exampleFs ["a"] 2 (fun _ => exampleSchedule) =
        Outcome.returned [(32, "a")] EXIT_SUCCESS) ∧
    (∃ more : List Choice, (∀ c ∈ more, ∃ t, c = Choice.run t 0) ∧
      calculateSizeOnDiskParallel exampleFs ["a"] 2 (fun _ => exampleSchedule ++ more) =
        Outcome.returned [(32, "a")] EXIT_SUCCESS) ∧
    calculateSizeOnDiskParallel exampleFs ["a"] 2
        (fun _ => exampleSchedule ++ [Choice.run 0 0, Choice.run 1 0]) =
      Outcome.returned [(32, "a")] EXIT_SUCCESS :=
  ⟨by decide, by simp [Shows, ShowsList, exampleTree, exampleFs, notDotEntry],
    (C8_total_independent_of_schedule exampleFs "a" exampleTree 2 (by decide)
      (by simp [Shows, ShowsList, exampleTree, exampleFs, notDotEntry]) rfl rfl
      exampleSchedule).1,
    (C8_total_independent_of_schedule exampleFs "a" exampleTree 2 (by decide)
      (by simp [Shows, ShowsList, exampleTree, exampleFs, notDotEntry]) rfl rfl
      exampleSchedule).2.1,
    by decide⟩

/-- C9, failing input: `-j0` on a directory target. The arrays `threadInfos`
and `threads` are declared with `threadAmount = 0` elements, yet the creation
loop fills element 0 of both and the join loop reads element 0: the loops work
outside the arrays, so C does not define what the thread reads as its number
and its participant count. For every `K >= 1` the loops stay within the
arrays: exactly `K = max(K,1)` threads are created, each with participant count
`K`, which they keep throughout the run, and the join loop returns exactly when
all of them have exited, having joined `K` threads and summed their totals. -/
theorem C9_no_array_element_for_zero_threads (K : Int) (hK : 1 ≤ K) (g : Globals)
    (file : String) :
    (threadsLength 0 = 0 ∧ (spawnLoop 0).map Worker.threadNumber = [0] ∧
      spawnChecked 0 = none) ∧
    spawnChecked K = some (spawnState g K file).workers ∧
    ((spawnState g K file).workers.length : Int) = max K 1 ∧
    (∀ w ∈ (spawnState g K file).workers, w.threadAmount = max K 1 ∧ w.pc = Pc.start) ∧
    (∀ (fs : FileSystem) (sched : List Choice),
      RegShape (workerCount K) g.waitStatusTop →
      (((exec fs (spawnState g K file) sched).workers.length : Int) = max K 1 ∧
        ∀ w ∈ (exec fs (spawnState g K file) sched).workers, w.threadAmount = max K 1) ∧
      ((exec fs (spawnState g K file) sched).finished →
        joinLoop K (exec fs (spawnState g K file) sched).workers =
          some (totalOf (exec fs (spawnState g K file) sched).workers, (max K 1).toNat)) ∧
      (¬ (exec fs (spawnState g K file) sched).finished →
        joinLoop K (exec fs (spawnState g K file) sched).workers = none)) := by
  have hK0 : 0 ≤ K := by omega
  have hW : ((workerCount K : Nat) : Int) = max K 1 := by
    unfold workerCount
    omega
  have hWn : workerCount K = (max K 1).toNat := rfl
  refine ⟨by decide, ?_, ?_, ?_, ?_⟩
  · have hall : (spawnLoop K).all
        (fun info => decide (info.threadNumber < (threadsLength K : Int))) = true := by
      rw [List.all_eq_true]
      intro w hw
      rw [spawnLoop_eq K hK0, List.mem_map] at hw
      obtain ⟨j, hj, rfl⟩ := hw
      rw [List.mem_range] at hj
      simp only [freshWorker, threadsLength, decide_eq_true_eq]
      unfold workerCount at hj
      omega
    simp only [spawnChecked, hall, if_true, spawnState]
  · simp only [spawnState, spawnLoop_eq K hK0, List.length_map, List.length_range]
    exact hW
  · intro w hw
    simp only [spawnState, spawnLoop_eq K hK0, List.mem_map] at hw
    obtain ⟨j, _, rfl⟩ := hw
    exact ⟨hW, rfl⟩
  · intro fs sched hreg
    have h : Shape (workerCount K) (exec fs (spawnState g K file) sched) :=
      (Shape.initial g K hK0 file hreg).keepExec sched
    refine ⟨⟨by rw [h.length]; exact hW, ?_⟩, ?_, ?_⟩
    · intro w hw
      obtain ⟨i, hi⟩ := exists_get?_of_mem hw
      rw [h.amount i w hi]
      exact hW
    · intro hfin
      rw [← hWn]
      exact joinLoop_eq K hK0 _ h.length hfin
    · intro hnot
      cases hjoin : joinLoop K (exec fs (spawnState g K file) sched).workers with
      | none => rfl
      | some r => exact absurd (joinLoop_some K hK0 _ h.length r hjoin) hnot

/-- C9 with `K = 2` on the example tree: two threads are created within the
arrays, each with participant count 2; after a complete run the join loop has
joined two threads and returns the 32 blocks they have summed, and before
thread 1 has exited it does not return. -/
theorem C9_no_array_element_for_zero_threads_witness :
    (1 : Int) ≤ 2 ∧
    spawnChecked 2 = some [⟨0, 2, Pc.start, 0⟩, ⟨1, 2, Pc.start, 0⟩] ∧
    joinLoop 2 (exec exampleFs (spawnState (initialGlobals 2) 2 "a")
      (exampleSchedule ++ [Choice.run 0 0, Choice.run 1 0])).workers = some (32, 2) ∧
    joinLoop 2 (exec exampleFs (spawnState (initialGlobals 2) 2 "a")
      (exampleSchedule ++ [Choice.run 0 0])).workers = none := by
  have h := C9_no_array_element_for_zero_threads 2 (by decide) (initialGlobals 2) "a"
  have hreg := registerLoop_shape 2 (by decide)
  refine ⟨by decide, h.2.1, ?_, ?_⟩
  · exact ((h.2.2.2.2 exampleFs (exampleSchedule ++ [Choice.run 0 0, Choice.run 1 0])
      hreg).2.1 (by unfold State.finished; decide)).trans (by decide)
  · exact (h.2.2.2.2 exampleFs (exampleSchedule ++ [Choice.run 0 0]) hreg).2.2
      (by unfold State.finished; decide)

/-- C10, failing input: for every requested thread count `K ≥ 1` the loop that
adds the default wait statuses runs for `threadIndex = 0, ..., K` and registers
`K + 1` entries, one more than the `K` threads the engine creates; only for
`K = 0` are the two numbers equal (one entry, one thread). -/
theorem C10_registers_one_entry_more (K : Nat) :
    (registerLoop ((K : Int) + 1) []).length = (spawnLoop ((K : Int) + 1)).length + 1 ∧
    (registerLoop 0 []).length = 1 ∧ (spawnLoop 0).length = 1 ∧
    (registerLoop 1 []).length = 2 ∧ (spawnLoop 1).length = 1 := by
  refine ⟨?_, by decide, by decide, by decide, by decide⟩
  have hK : (0 : Int) ≤ (K : Int) + 1 := by omega
  rw [registerLoop_length _ hK, spawnLoop_eq _ hK]
  simp only [List.length_map, List.length_range, workerCount]
  omega

theorem getDirectories_addDirectories (names : List String) :
    ∀ directoryTop : List String,
      getDirectories names.length (addDirectories directoryTop names) =
        some (names.reverse, directoryTop) := by
  induction names using List.reverseRecOn with
  | nil => intro directoryTop; rfl
  | append_singleton names p ih =>
    intro directoryTop
    have h : addDirectories directoryTop (names ++ [p]) =
        p :: addDirectories directoryTop names := by
      simp [addDirectories, addDirectory]
    rw [h, List.length_append, List.length_singleton, List.reverse_append]
    simp only [getDirectories, getDirectory, ih directoryTop]
    rfl

/-- C12: the directories stack is last in, first out. A call of `getDirectory`
after `addDirectory` of a name returns that name and leaves the stack as it was
before the push; after the names `p1 .. pn` have been pushed in this order,
`n` calls of `getDirectory` return `pn, .., p1` and leave the stack as it was. -/
theorem C12_directory_stack_lifo (directoryTop : List String) :
    (∀ p : String, getDirectory (addDirectory directoryTop p) = some (p, directoryTop)) ∧
    (∀ names : List String,
      getDirectories names.length (addDirectories directoryTop names) =
        some (names.reverse, directoryTop)) :=
  ⟨fun _ => rfl, fun names => getDirectories_addDirectories names directoryTop⟩

/-- C13, as stated, fails: on the empty stack `directoriesIsEmpty` returns 0,
which is false in C, although no directory is pending; on a stack that holds a
directory it returns 1. -/
theorem C13_counterexample :
    directoriesIsEmpty [] = 0 ∧ directoriesIsEmpty ["a"] ≠ 0 ∧
    ¬ (directoriesIsEmpty [] ≠ 0 ↔ ([] : List String) = []) := by
  decide

/-- C13, amended: `directoriesIsEmpty` returns 0 exactly when no directory is
pending on the stack and 1 exactly when at least one is (the sense the function
documents and the worker tests with `== 0`); it returns nothing else. -/
theorem C13_zero_exactly_when_empty (directoryTop : List String) :
    (directoriesIsEmpty directoryTop = 0 ↔ directoryTop = []) ∧
    (directoriesIsEmpty directoryTop = 1 ↔ directoryTop ≠ []) ∧
    (directoriesIsEmpty directoryTop = 0 ∨ directoriesIsEmpty directoryTop = 1) := by
  cases directoryTop <;> simp [directoriesIsEmpty]

theorem idleCount_map_setIfThread (t v : Int) (reg : List waitStatus) :
    idleCount (reg.map (setIfThread t v)) =
      reg.countP (fun e => e.threadNumber ≠ t ∧ e.status = 1) +
        (if v = 1 then reg.countP (fun e => e.threadNumber = t) else 0) := by
  induction reg with
  | nil => simp [idleCount]
  | cons e rest ih =>
    unfold idleCount at ih ⊢
    rw [List.map_cons, List.countP_cons, ih, List.countP_cons, List.countP_cons]
    by_cases ht : e.threadNumber = t
    · by_cases hv : v = 1
      · simp [setIfThread, ht, hv]; omega
      · simp [setIfThread, ht, hv]
    · by_cases hv : v = 1
      · by_cases hs : e.status = 1
        · simp [setIfThread, ht, hv, hs]; omega
        · simp [setIfThread, ht, hv, hs]
      · by_cases hs : e.status = 1
        · simp [setIfThread, ht, hv, hs]
        · simp [setIfThread, ht, hv, hs]

theorem countP_threadNumber_of_nodup (t : Int) (reg : List waitStatus)
    (hnodup : (reg.map waitStatus.threadNumber).Nodup)
    (hmem : t ∈ reg.map waitStatus.threadNumber) :
    reg.countP (fun e => e.threadNumber = t) = 1 := by
  have h := List.count_eq_one_of_mem hnodup hmem
  rw [List.count, List.countP_map] at h
  rw [← h]
  apply List.countP_congr
  intro e _
  simp only [Function.comp, beq_iff_eq, decide_eq_true_eq]

theorem get?_map_setIfThread (t v : Int) (reg : List waitStatus) (i : Nat) (e : waitStatus)
    (h : reg.get? i = some e) :
    (reg.map (setIfThread t v)).get? i = some (setIfThread t v e) := by
  simp only [List.get?_eq_getElem?] at h ⊢
  simp [h]

/-- C14: on a registry that is not empty `checkWaitStatuses` returns the number
of entries whose status is 1. When the thread numbers are pairwise distinct
and `t` is registered, `changeWaitStatus(t, 1)` and `changeWaitStatus(t, 0)`
give the entry of `t` the new status and leave every other entry as it was, at
its place; afterwards the count is the number of idle entries of the other
threads plus one for `t` after status 1, and without `t` after status 0. -/
theorem C14_count_of_idle_entries (reg : List waitStatus) (hne : reg ≠ []) :
    checkWaitStatuses reg = some ((reg.countP (fun e => e.status = 1) : Nat) : Int) ∧
    ∀ t : Int, (reg.map waitStatus.threadNumber).Nodup →
      t ∈ reg.map waitStatus.threadNumber →
      ∃ idle busy : List waitStatus,
        changeWaitStatus reg t 1 = some idle ∧ changeWaitStatus reg t 0 = some busy ∧
        checkWaitStatuses idle =
          some ((reg.countP (fun e => e.threadNumber ≠ t ∧ e.status = 1) + 1 : Nat) : Int) ∧
        checkWaitStatuses busy =
          some ((reg.countP (fun e => e.threadNumber ≠ t ∧ e.status = 1) : Nat) : Int) ∧
        idle.length = reg.length ∧ busy.length = reg.length ∧
        (∀ i e, reg.get? i = some e → e.threadNumber ≠ t →
          idle.get? i = some e ∧ busy.get? i = some e) ∧
        (∀ i e, reg.get? i = some e → e.threadNumber = t →
          idle.get? i = some { e with status := 1 } ∧
          busy.get? i = some { e with status := 0 }) := by
  refine ⟨checkWaitStatuses_eq reg hne, ?_⟩
  intro t hnodup hmem
  have hone := countP_threadNumber_of_nodup t reg hnodup hmem
  have hne1 : ∀ v : Int, reg.map (setIfThread t v) ≠ [] := by
    intro v h
    exact hne (List.map_eq_nil_iff.mp h)
  refine ⟨reg.map (setIfThread t 1), reg.map (setIfThread t 0),
    changeWaitStatus_eq reg t 1 hne, changeWaitStatus_eq reg t 0 hne, ?_, ?_,
    by simp, by simp, ?_, ?_⟩
  · rw [checkWaitStatuses_eq _ (hne1 1), idleCount_map_setIfThread, if_pos rfl, hone]
  · rw [checkWaitStatuses_eq _ (hne1 0), idleCount_map_setIfThread,
      if_neg (by decide), Nat.add_zero]
  · intro i e hi hne
    rw [get?_map_setIfThread t 1 reg i e hi, get?_map_setIfThread t 0 reg i e hi,
      setIfThread_of_ne hne, setIfThread_of_ne hne]
    exact ⟨rfl, rfl⟩
  · intro i e hi heq
    rw [get?_map_setIfThread t 1 reg i e hi, get?_map_setIfThread t 0 reg i e hi]
    simp [setIfThread, heq]

/-- C14 on a registry of three entries of which that of thread 0 is idle:
the count is 1; with thread 1 marked idle it is 2, with thread 1 marked busy it
is 1, and the entries of the threads 2 and 0 stay as they are. -/
theorem C14_count_of_idle_entries_witness :
    ([⟨2, -1⟩, ⟨1, 0⟩, ⟨0, 1⟩] : List waitStatus) ≠ [] ∧
    checkWaitStatuses [⟨2, -1⟩, ⟨1, 0⟩, ⟨0, 1⟩] = some 1 ∧
    ∃ idle busy : List waitStatus,
      changeWaitStatus [⟨2, -1⟩, ⟨1, 0⟩, ⟨0, 1⟩] 1 1 = some idle ∧
      changeWaitStatus [⟨2, -1⟩, ⟨1, 0⟩, ⟨0, 1⟩] 1 0 = some busy ∧
      checkWaitStatuses idle = some 2 ∧ checkWaitStatuses busy = some 1 ∧
      idle.get? 0 = some ⟨2, -1⟩ ∧ idle.get? 1 = some ⟨1, 1⟩ ∧ idle.get? 2 = some ⟨0, 1⟩ ∧
      busy.get? 0 = some ⟨2, -1⟩ ∧ busy.get? 1 = some ⟨1, 0⟩ ∧ busy.get? 2 = some ⟨0, 1⟩ := by
  have h := C14_count_of_idle_entries [⟨2, -1⟩, ⟨1, 0⟩, ⟨0, 1⟩] (by decide)
  obtain ⟨idle, busy, h1, h2, h3, h4, -, -, h5, h6⟩ := h.2 1 (by decide) (by decide)
  exact ⟨by decide, h.1.trans (by decide), idle, busy, h1, h2, h3.trans (by decide),
    h4.trans (by decide),
    (h5 0 ⟨2, -1⟩ rfl (by decide)).1, (h6 1 ⟨1, 0⟩ rfl rfl).1, (h5 2 ⟨0, 1⟩ rfl (by decide)).1,
    (h5 0 ⟨2, -1⟩ rfl (by decide)).2, (h6 1 ⟨1, 0⟩ rfl rfl).2, (h5 2 ⟨0, 1⟩ rfl (by decide)).2⟩

theorem getFilesFrom_eq (optind : String) (rest : List String) :
    ∀ (pre files : List String) (bound fileIndex : Nat), rest.length ≤ bound →
      getFilesFrom (pre ++ rest).length (pre ++ rest) optind bound pre.length files fileIndex =
        some (files ++ rest.filter (fun argument => argument ≠ optind),
          fileIndex + (rest.filter (fun argument => argument ≠ optind)).length) := by
  induction rest with
  | nil =>
    intro pre files bound fileIndex _
    cases bound with
    | zero => simp [getFilesFrom]
    | succ bound => simp [getFilesFrom]
  | cons a rest ih =>
    intro pre files bound fileIndex hb
    cases bound with
    | zero => simp at hb
    | succ bound =>
      have hlt : pre.length < (pre ++ a :: rest).length := by simp
      have hget : (pre ++ a :: rest).get? pre.length = some a := by
        rw [List.get?_eq_getElem?, List.getElem?_append_right (le_refl _)]
        simp
      have hpre : pre ++ a :: rest = (pre ++ [a]) ++ rest := by simp
      have hlen : pre.length + 1 = (pre ++ [a]).length := by simp
      have hb1 : rest.length ≤ bound := by simpa using hb
      rw [getFilesFrom, if_pos hlt, hget]
      simp only
      by_cases ha : a = optind
      · rw [if_neg (by simpa using ha), hlen, hpre, ih (pre ++ [a]) files bound fileIndex hb1]
        simp [ha]
      · rw [if_pos ha, hlen, hpre, ih (pre ++ [a]) (files ++ [a]) bound (fileIndex + 1) hb1]
        simp [ha]
        omega

/-- The files `getFiles` returns are the arguments after the program name that
differ from the string to exclude, in argument order, and the file amount is
their number. -/
theorem getFiles_eq (program optind : String) (arguments : List String) :
    getFiles (program :: arguments).length (program :: arguments) optind =
      some (arguments.filter (fun argument => argument ≠ optind),
        (arguments.filter (fun argument => argument ≠ optind)).length) := by
  have h := getFilesFrom_eq optind arguments [program] [] (arguments.length + 1) 0 (by omega)
  simpa [getFiles] using h

/-- C15, failing input: `mdu -j 2 a`. `getopt` leaves `optind = 3`, so
`getFiles` is told to leave out the string "2" and keeps "-j": it returns the
files "-j" and "a" with file amount 2, where the positional targets are "a"
alone, and the engine ends the process with `EXIT_FAILURE` at `lstat("-j")`
before it prints a line. In general the separate form returns "-j" and the
targets that differ from the value `N` (unless `N` is itself "-j"); the
attached form `-jN` returns the targets that differ from "-jN", on the same
input "a" alone. -/
theorem C15_separate_form_keeps_option (program N : String) (targets : List String) :
    mainFiles (program :: "-j" :: N :: targets) 3 =
      some (("-j" :: targets).filter (fun argument => argument ≠ N),
        (("-j" :: targets).filter (fun argument => argument ≠ N)).length) ∧
    mainFiles (program :: ("-j" ++ N) :: targets) 2 =
      some (targets.filter (fun argument => argument ≠ "-j" ++ N),
        (targets.filter (fun argument => argument ≠ "-j" ++ N)).length) ∧
    mainFiles ["mdu", "-j", "2", "a"] 3 = some (["-j", "a"], 2) ∧
    mainFiles ["mdu", "-j2", "a"] 2 = some (["a"], 1) ∧
    ∀ sched : Nat → List Choice,
      calculateSizeOnDiskParallel exampleFs ["-j", "a"] 2 sched = Outcome.exitFailure [] := by
  refine ⟨?_, ?_, by decide, by decide, fun _ => rfl⟩
  · have h := getFiles_eq program N ("-j" :: N :: targets)
    simp only [mainFiles, Nat.add_one_sub_one, List.get?_cons_succ, List.get?_cons_zero]
    rw [h]
    simp [List.filter_cons]
  · have h := getFiles_eq program ("-j" ++ N) (("-j" ++ N) :: targets)
    simp only [mainFiles, Nat.add_one_sub_one, List.get?_cons_succ, List.get?_cons_zero]
    rw [h]
    simp [List.filter_cons]

/-- A move changes the registry at most by `changeWaitStatus` for the number of
one of the threads. -/
theorem Move.registry {fs : FileSystem} {W : Nat} {s s' : State} {b : Bool}
    (hs : Shape W s) (hm : Move fs s b s') :
    s'.waitStatusTop = s.waitStatusTop ∨
      ∃ n v : Int, (0 ≤ n ∧ n < (W : Int)) ∧
        s'.waitStatusTop = s.waitStatusTop.map (setIfThread n v) := by
  have hrange : ∀ t w, s.workers.get? t = some w →
      0 ≤ w.threadNumber ∧ w.threadNumber < (W : Int) := by
    intro t w hw
    have hlt : t < s.workers.length := by
      by_contra hge
      rw [List.get?_eq_getElem?, List.getElem?_eq_none (by omega)] at hw
      exact absurd hw (by simp)
    rw [hs.number t w hw, ← hs.length]
    omega
  cases hm with
  | stay => exact Or.inl rfl
  | wakeup t w hw => exact Or.inl rfl
  | start t w hw hpc => exact Or.inl rfl
  | leave t w hw hpc hstack hcount => exact Or.inr ⟨_, 1, hrange t w hw, rfl⟩
  | block t w hw hpc hstack hcount => exact Or.inr ⟨_, 1, hrange t w hw, rfl⟩
  | take t w directory next names hw hpc hstack hopen =>
    exact Or.inr ⟨_, 0, hrange t w hw, rfl⟩
  | takeFail t w directory next hw hpc hstack hopen =>
    exact Or.inr ⟨_, 0, hrange t w hw, rfl⟩
  | finish t w directory hw hpc => exact Or.inl rfl
  | probeFail t w directory d_name entries hw hpc hstat => exact Or.inl rfl
  | plain t w directory d_name entries fileStat hw hpc hstat hdir => exact Or.inl rfl
  | closed t w directory d_name entries fileStat hw hpc hstat hdir hopen => exact Or.inl rfl
  | push t pick w directory d_name entries names fileStat hw hpc hstat hdir hopen =>
    exact Or.inl rfl

theorem Frame.same (W : Nat) (reg : List waitStatus) : Frame W reg reg := by
  unfold Frame
  induction reg with
  | nil => exact List.Forall₂.nil
  | cons e reg ih => exact List.Forall₂.cons ⟨rfl, fun _ => rfl⟩ ih

theorem Frame.after_change {W : Nat} {reg₀ reg : List waitStatus} (h : Frame W reg₀ reg)
    (n v : Int) (hn : 0 ≤ n ∧ n < (W : Int)) : Frame W reg₀ (reg.map (setIfThread n v)) := by
  unfold Frame at h ⊢
  induction h with
  | nil => exact List.Forall₂.nil
  | @cons a b l₁ l₂ hab _ ih =>
    refine List.Forall₂.cons ⟨?_, ?_⟩ ih
    · rw [threadNumber_setIfThread]; exact hab.1
    · intro hout
      rw [hab.2 hout]
      apply setIfThread_of_ne
      intro heq
      exact hout (by unfold InRange; rw [heq]; exact hn)

theorem Shape.frameExec {fs : FileSystem} {W : Nat} {reg₀ : List waitStatus}
    (sched : List Choice) :
    ∀ s : State, Shape W s → Frame W reg₀ s.waitStatusTop →
      Frame W reg₀ (exec fs s sched).waitStatusTop := by
  induction sched with
  | nil => intro s _ h; exact h
  | cons c sched ih =>
    intro s hs h
    obtain ⟨b, hm⟩ := step_move fs s c (hs.registry.ne_nil hs.pos)
    have hf : Frame W reg₀ (step fs s c).waitStatusTop := by
      rcases Move.registry hs hm with heq | ⟨n, v, hn, heq⟩
      · rw [heq]; exact h
      · rw [heq]; exact h.after_change n v hn
    exact ih (step fs s c) (hs.keep hm) hf

theorem Frame.eq_markIdle {W : Nat} {reg₀ reg : List waitStatus} (h : Frame W reg₀ reg)
    (hidle : ∀ e ∈ reg, InRange W e → e.status = 1) : reg = reg₀.map (markIdle W) := by
  unfold Frame at h
  induction h with
  | nil => rfl
  | @cons a b l₁ l₂ hab _ ih =>
    rw [List.map_cons, ← ih (fun e he => hidle e (List.mem_cons_of_mem _ he))]
    congr 1
    by_cases hin : InRange W a
    · have hb : InRange W b := by unfold InRange at hin ⊢; rw [hab.1]; exact hin
      have hst := hidle b (List.mem_cons_self _ _) hb
      have hif : 0 ≤ a.threadNumber ∧ a.threadNumber < (W : Int) := hin
      unfold markIdle
      rw [if_pos hif]
      cases a; cases b
      simp only [waitStatus.mk.injEq]
      exact ⟨hab.1, hst⟩
    · have hif : ¬ (0 ≤ a.threadNumber ∧ a.threadNumber < (W : Int)) := hin
      unfold markIdle
      rw [if_neg hif]
      exact hab.2 hin

theorem markIdle_markIdle (W : Nat) (e : waitStatus) :
    markIdle W (markIdle W e) = markIdle W e := by
  unfold markIdle
  by_cases h : 0 ≤ e.threadNumber ∧ e.threadNumber < (W : Int)
  · simp [h]
  · simp [h]

theorem map_markIdle_twice (W : Nat) (reg : List waitStatus) :
    (reg.map (markIdle W)).map (markIdle W) = reg.map (markIdle W) := by
  rw [List.map_map]
  apply List.map_congr_left
  intro e _
  exact markIdle_markIdle W e

/-- What a pool that has been joined leaves behind: an empty directories stack
and the registry it started with, the entries of its threads marked idle. -/
theorem joined_leaves (fs : FileSystem) (K : Int) (hK : 0 ≤ K) (g : Globals) (file : String)
    (sched : List Choice) (r : Nat × Nat)
    (hreg : RegShape (workerCount K) g.waitStatusTop)
    (hjoin : joinLoop K (exec fs (spawnState g K file) sched).workers = some r) :
    (exec fs (spawnState g K file) sched).directoryTop = [] ∧
    (exec fs (spawnState g K file) sched).waitStatusTop =
      g.waitStatusTop.map (markIdle (workerCount K)) ∧
    RegShape (workerCount K) (exec fs (spawnState g K file) sched).waitStatusTop ∧
    ∀ e ∈ (exec fs (spawnState g K file) sched).waitStatusTop,
      InRange (workerCount K) e → e.status = 1 := by
  have h0 : Shape (workerCount K) (spawnState g K file) := Shape.initial g K hK file hreg
  have hs : Shape (workerCount K) (exec fs (spawnState g K file) sched) := h0.keepExec sched
  have hall := joinLoop_some K hK _ hs.length r hjoin
  have hex : ∃ w ∈ (exec fs (spawnState g K file) sched).workers, w.pc = Pc.exited := by
    have hpos : 0 < (exec fs (spawnState g K file) sched).workers.length := by
      rw [hs.length]; exact hs.pos
    obtain ⟨w, hw⟩ := List.exists_mem_of_length_pos hpos
    exact ⟨w, hw, hall w hw⟩
  obtain ⟨hstack, hidle⟩ := hs.afterExit hex
  have hframe : Frame (workerCount K) g.waitStatusTop
      (exec fs (spawnState g K file) sched).waitStatusTop :=
    Shape.frameExec sched (spawnState g K file) h0 (Frame.same _ _)
  exact ⟨hstack, hframe.eq_markIdle hidle, hs.registry, hidle⟩

theorem spawnPoints_inv (fs : FileSystem) (K : Int) (hK : 0 ≤ K) (sched : Nat → List Choice)
    (later : List waitStatus) :
    ∀ (files : List String) (index : Nat) (g : Globals), g.directoryTop = [] →
      RegShape (workerCount K) g.waitStatusTop →
      g.waitStatusTop.map (markIdle (workerCount K)) = later →
      ∀ (i : Nat) (file : String) (s : State),
        (spawnPoints fs K sched files index g).get? i = some (file, s) →
        s.directoryTop = [file] ∧ s.workers = spawnLoop K ∧
        RegShape (workerCount K) s.waitStatusTop ∧
        (i = 0 → s.waitStatusTop = g.waitStatusTop) ∧
        (0 < i → s.waitStatusTop = later ∧
          ∀ e ∈ s.waitStatusTop, InRange (workerCount K) e → e.status = 1) := by
  intro files
  induction files with
  | nil => intro index g _ _ _ i file s h; simp [spawnPoints] at h
  | cons f files ih =>
    intro index g hstack hreg hlater i file s h
    rw [spawnPoints] at h
    cases hst : fs.lstat f with
    | none => rw [hst] at h; simp at h
    | some fileStat =>
      rw [hst] at h
      simp only at h
      by_cases hdir : S_ISDIR fileStat = 1
      · rw [if_pos hdir] at h
        cases i with
        | zero =>
          simp only [List.get?_cons_zero, Option.some.injEq, Prod.mk.injEq] at h
          obtain ⟨rfl, rfl⟩ := h
          refine ⟨?_, rfl, hreg, fun _ => rfl, fun h0 => absurd h0 (by omega)⟩
          simp [spawnState, addDirectory, hstack]
        | succ i =>
          simp only [List.get?_cons_succ] at h
          cases hproc : (exec fs (spawnState g K f) (sched index)).proc with
          | failed => rw [hproc] at h; simp at h
          | crashed => rw [hproc] at h; simp at h
          | running =>
            rw [hproc] at h
            simp only at h
            cases hjoin : joinLoop K (exec fs (spawnState g K f) (sched index)).workers with
            | none => rw [hjoin] at h; simp at h
            | some r =>
              rw [hjoin] at h
              simp only at h
              obtain ⟨hs1, hs2, hs3, hs4⟩ := joined_leaves fs K hK g f (sched index) r hreg hjoin
              have hnext := ih (index + 1) _ hs1 hs3
                (by show List.map _ (exec fs (spawnState g K f) (sched index)).waitStatusTop = _
                    rw [hs2, map_markIdle_twice, hlater]) i file s h
              obtain ⟨h1, h2, h3, h4, h5⟩ := hnext
              refine ⟨h1, h2, h3, fun h0 => absurd h0 (by omega), fun _ => ?_⟩
              cases i with
              | zero =>
                have h6 : s.waitStatusTop =
                    (exec fs (spawnState g K f) (sched index)).waitStatusTop := h4 rfl
                refine ⟨by rw [h6, hs2, hlater], ?_⟩
                rw [h6]; exact hs4
              | succ i => exact h5 (by omega)
      · rw [if_neg hdir] at h
        exact ih (index + 1) g hstack hreg hlater i file s h

/-- When the loop over the targets returns, a pool has been created for each
directory target, in the order of the targets. -/
theorem spawnPoints_of_returned (fs : FileSystem) (K : Int) (sched : Nat → List Choice) :
    ∀ (files : List String) (index : Nat) (g : Globals) (lines printed : List (Nat × String))
      (exitval : Int),
      targetLoop fs K sched files index g lines = Outcome.returned printed exitval →
      (spawnPoints fs K sched files index g).map Prod.fst =
        files.filter (isDirectoryTarget fs) := by
  intro files
  induction files with
  | nil => intro index g lines printed exitval _; rfl
  | cons f files ih =>
    intro index g lines printed exitval h
    rw [targetLoop] at h
    rw [spawnPoints]
    cases hst : fs.lstat f with
    | none => rw [hst] at h; simp at h
    | some fileStat =>
      rw [hst] at h
      simp only at h ⊢
      by_cases hdir : S_ISDIR fileStat = 1
      · rw [if_pos hdir] at h
        rw [if_pos hdir]
        have hf : isDirectoryTarget fs f = true := by simp [isDirectoryTarget, hst, hdir]
        rw [List.filter_cons_of_pos hf, List.map_cons]
        congr 1
        cases hproc : (exec fs (spawnState g K f) (sched index)).proc with
        | failed => rw [hproc] at h; simp at h
        | crashed => rw [hproc] at h; simp at h
        | running =>
          rw [hproc] at h
          simp only at h ⊢
          cases hjoin : joinLoop K (exec fs (spawnState g K f) (sched index)).workers with
          | none => rw [hjoin] at h; simp at h
          | some r =>
            rw [hjoin] at h
            simp only at h ⊢
            exact ih _ _ _ _ _ h
      · rw [if_neg hdir] at h
        rw [if_neg hdir]
        have hf : ¬ isDirectoryTarget fs f = true := by simp [isDirectoryTarget, hst, hdir]
        rw [List.filter_cons_of_neg hf]
        exact ih _ _ _ _ _ h

theorem registerLoop_not_idle (K : Int) (hK : 0 ≤ K) :
    ∀ e ∈ registerLoop K [], e.status ≠ 1 := by
  intro e he
  rw [registerLoop_eq K hK] at he
  simp only [List.mem_reverse, List.mem_map] at he
  obtain ⟨j, _, rfl⟩ := he
  show (-1 : Int) ≠ 1
  decide

/-- C11, as stated, fails: targets `p` and `q`, both directories, one worker.
When the thread for `q` is created the stack holds "q" alone, but the registry
is the one the run on `p` has left: the entry of thread 0 is marked idle. -/
theorem C11_counterexample :
    calculateSizeOnDiskParallel twoTargetsFs ["p", "q"] 1 (solo 5) =
      Outcome.returned [(16, "p"), (24, "q")] EXIT_SUCCESS ∧
    (spawnPoints twoTargetsFs 1 (solo 5) ["p", "q"] 0 (initialGlobals 1)).map
        (fun point => (point.1, point.2.directoryTop, point.2.waitStatusTop)) =
      [("p", ["p"], [⟨1, -1⟩, ⟨0, -1⟩]), ("q", ["q"], [⟨1, -1⟩, ⟨0, 1⟩])] ∧
    ¬ (∀ point ∈ spawnPoints twoTargetsFs 1 (solo 5) ["p", "q"] 0 (initialGlobals 1),
        ∀ e ∈ point.2.waitStatusTop, e.status ≠ 1) := by
  decide

/-- C11, amended: for every list of targets, every `K >= 0` and every schedule,
at the moment the threads of a directory target are created the directories
stack holds exactly the path of that target and the threads are the freshly
created ones. The registry is created once, before the first target, and is
carried from one directory target to the next: for the first directory target
it is the registered one, with no entry marked idle; for every later one it is
the registered one with the entries of all threads marked idle, as the pool of
the previous directory target has left it. -/
theorem C11_stack_fresh_registry_carried (fs : FileSystem) (K : Int) (hK : 0 ≤ K)
    (sched : Nat → List Choice) (files : List String) (i : Nat) (file : String) (s : State)
    (h : (spawnPoints fs K sched files 0 (initialGlobals K)).get? i = some (file, s)) :
    s.directoryTop = [file] ∧ s.workers = spawnLoop K ∧
    (i = 0 → s.waitStatusTop = registerLoop K [] ∧ ∀ e ∈ s.waitStatusTop, e.status ≠ 1) ∧
    (0 < i → s.waitStatusTop = (registerLoop K []).map (markIdle (workerCount K)) ∧
      idleCount s.waitStatusTop = workerCount K) := by
  obtain ⟨h1, h2, h3, h4, h5⟩ := spawnPoints_inv fs K hK sched
    ((registerLoop K []).map (markIdle (workerCount K))) files 0 (initialGlobals K) rfl
    (registerLoop_shape K hK) rfl i file s h
  refine ⟨h1, h2, fun h0 => ?_, fun hpos => ⟨(h5 hpos).1, h3.count_of_idle (h5 hpos).2⟩⟩
  have h6 : s.waitStatusTop = registerLoop K [] := h4 h0
  exact ⟨h6, by rw [h6]; exact registerLoop_not_idle K hK⟩

/-- C11 on the targets `p` and `q` with one worker: the second pool starts with
the stack ["q"] and with one entry marked idle. -/
theorem C11_stack_fresh_registry_carried_witness :
    (0 : Int) ≤ 1 ∧
    (spawnPoints twoTargetsFs 1 (solo 5) ["p", "q"] 0 (initialGlobals 1)).get? 1 =
      some ("q", spawnState ⟨[], [⟨1, -1⟩, ⟨0, 1⟩], EXIT_FAILURE⟩ 1 "q") ∧
    (spawnState ⟨[], [⟨1, -1⟩, ⟨0, 1⟩], EXIT_FAILURE⟩ 1 "q").directoryTop = ["q"] ∧
    idleCount (spawnState ⟨[], [⟨1, -1⟩, ⟨0, 1⟩], EXIT_FAILURE⟩ 1 "q").waitStatusTop =
      workerCount 1 :=
  ⟨by decide, by decide,
    (C11_stack_fresh_registry_carried twoTargetsFs 1 (by decide) (solo 5) ["p", "q"] 1 "q"
      (spawnState ⟨[], [⟨1, -1⟩, ⟨0, 1⟩], EXIT_FAILURE⟩ 1 "q") (by decide)).1,
    ((C11_stack_fresh_registry_carried twoTargetsFs 1 (by decide) (solo 5) ["p", "q"] 1 "q"
      (spawnState ⟨[], [⟨1, -1⟩, ⟨0, 1⟩], EXIT_FAILURE⟩ 1 "q") (by decide)).2.2.2
        (by decide)).2⟩

/-- The recursive search of a directory whose stream does not retain its names
reads a name through a stale pointer as soon as there is a name to read. -/
theorem searchDirectoryRecursive_stale (fs : FileSystem) (depth : Nat) (directory : String)
    (names : List String) (totalBlockAmount : Nat) (exitVal : Int) (pathPointer : String)
    (hopen : fs.opendir directory = some names) (hcd : fs.chdir directory = true)
    (hfiles : getFilesInDirectory names ≠ []) (hret : fs.retains directory = false) :
    searchDirectoryRecursive fs (depth + 1) directory totalBlockAmount exitVal pathPointer =
      Search.undefined := by
  rw [searchDirectoryRecursive, hopen]
  simp [hcd, hfiles, hret]

/-- The error message `checkDirectory` builds has 28 bytes more than the path,
and a terminator: it overruns `errorString` when the path has more than
`PATH_MAX - 29` bytes. -/
theorem checkDirectory_overrun (fs : FileSystem) (directory pathPointer : String)
    (h : fs.PATH_MAX < pathPointer.utf8ByteSize + 29) :
    checkDirectory fs directory pathPointer = none := by
  have hsize : ("du: cannot read directory '" ++ pathPointer ++ "'").utf8ByteSize =
      pathPointer.utf8ByteSize + 28 := by
    have happ : ∀ a b : String, (a ++ b).utf8ByteSize = a.utf8ByteSize + b.utf8ByteSize := by
      intro a b
      cases a; cases b
      show String.utf8ByteSize (String.mk _) = _
      simp [String.utf8ByteSize_mk, String.utf8Len_append]
    have h1 : "du: cannot read directory '".utf8ByteSize = 27 := by decide
    have h2 : "'".utf8ByteSize = 1 := by decide
    rw [happ, happ, h1, h2]
    omega
  unfold checkDirectory
  rw [hsize, if_neg (by omega)]

end Mdu
